import Mathlib

/-!
# Verification of `big_integer` (src/bigint/big_integer.cpp)

A shallow embedding of the arbitrary-precision signed integer type of the
repository.  `std::vector<unsigned int>` becomes `List Nat` (least-significant
limb first), `int8_t sign` becomes `Int`, and every 32/64-bit machine operation
carries an explicit reduction modulo `2^32` / `2^64`.

Loops whose trip count is fixed by a container size are structural recursions
over that container.  The two data-dependent `while` loops of `divide`
(`normalize` and the quotient-digit correction) and the loop of `to_string`
take an explicit fuel argument and return `none` when it runs out.

The substring search of `src/substr/solution.cpp` is embedded in the namespace
`substr`: bytes are `Nat`, the chars of the pattern and the values returned by
`fgetc` are `Int`, and the array `prefix` is a list of optional entries.
-/

namespace big_integer

/-! ## Data model -/

/-- The limb base `LIMIT = numeric_limits<unsigned int>::max() + 1`. -/
abbrev LIMIT : Nat := 4294967296

/-- Number of bits per limb. -/
abbrev BITS_COUNT : Nat := 32

/-- Decimal chunk base used for parsing and printing. -/
abbrev STR_NUMS : Nat := 1000000000

/-- Number of decimal digits per chunk. -/
abbrev STR_NUMS_COUNT : Nat := 9

/-- Modulus of `uint64_t` arithmetic. -/
abbrev U64 : Nat := 18446744073709551616

end big_integer

/-- The value type: `data_` holds the limbs, least significant first, and
`sign` is the stored `int8_t` sign. -/
structure big_integer where
  data_ : List Nat
  sign : Int
deriving DecidableEq

namespace big_integer

/-- Exceptions thrown by the library. -/
inductive exn where
  | invalid_argument
  | runtime_error
deriving DecidableEq

/-- Default constructor `big_integer()`: empty limb vector, sign `+1`. -/
def mk0 : big_integer := { data_ := [], sign := 1 }

/-- Member `isZero`. -/
def isZero (a : big_integer) : Bool :=
  a.data_.isEmpty || (a.data_.length == 1 && a.data_.getLastD 0 == 0)

/-- The loop of `deleteLeadingZeroes`:
`while (data_.size() > 1 && data_.back() == 0) data_.pop_back();`
The first argument bounds the number of iterations. -/
def popLoop : Nat → List Nat → List Nat
  | 0, d => d
  | n + 1, d => if d.length > 1 ∧ d.getLastD 0 = 0 then popLoop n d.dropLast else d

/-- Member `deleteLeadingZeroes`; every iteration pops one limb, so
`data_.size()` iterations are enough. -/
def deleteLeadingZeroes (a : big_integer) : big_integer :=
  { a with data_ := popLoop a.data_.length a.data_ }

/-- The loop of `make`: push the low 32 bits, shift right by 32. -/
def makeLoop : Nat → Nat → List Nat → List Nat
  | 0, _, d => d
  | f + 1, value, d =>
    if value > 0 then makeLoop f (value >>> BITS_COUNT) (d ++ [value % LIMIT]) else d

/-- Member `make(uint64_t value)`.  A `uint64_t` is exhausted after two shifts
by 32 bits; the loop bound 64 is generous. -/
def make (a : big_integer) (value : Nat) : big_integer :=
  if value = 0 then a else { a with data_ := makeLoop 64 value a.data_ }

/-- Constructor `big_integer(long long a)`; `a` ranges over `[-2^63, 2^63)`. -/
def of_long_long (a : Int) : big_integer :=
  let value : Nat :=
    if a < 0 then
      if a = -9223372036854775808 then (9223372036854775807 + 1) % U64
      else (-a).toNat % U64
    else a.toNat % U64
  make { data_ := [], sign := if a < 0 then -1 else 1 } value

/-- Constructor `big_integer(unsigned long long a)`. -/
def of_unsigned_long_long (a : Nat) : big_integer :=
  make { data_ := [], sign := 1 } (a % U64)

/-- Constructor `big_integer(int a)`, delegating to the `long long` one. -/
def of_int (a : Int) : big_integer := of_long_long a

/-- The call `std::lexicographical_compare` on two ranges. -/
def lexicographical_compare : List Nat → List Nat → Bool
  | _, [] => false
  | [], _ :: _ => true
  | x :: xs, y :: ys =>
    if x < y then true else if y < x then false else lexicographical_compare xs ys

/-- Friend `operator==`. -/
def op_eq (a b : big_integer) : Bool :=
  (isZero a && isZero b) || (decide (a.sign = b.sign) && decide (a.data_ = b.data_))

/-- Friend `operator!=`. -/
def op_ne (a b : big_integer) : Bool := !(op_eq a b)

/-- Friend `operator<`; the ranges handed to `lexicographical_compare` are the
reverse iterators, i.e. the limbs most significant first. -/
def op_lt (a b : big_integer) : Bool :=
  if isZero a && isZero b then false
  else if a.sign ≠ b.sign then decide (a.sign < b.sign)
  else if op_eq a b then false
  else if a.data_.length ≠ b.data_.length then
    xor (decide (a.sign > 0)) (decide (a.data_.length > b.data_.length))
  else
    xor (decide (a.sign = 1)) (!lexicographical_compare a.data_.reverse b.data_.reverse)

/-- Friend `operator>`. -/
def op_gt (a b : big_integer) : Bool := op_lt b a

/-- Friend `operator<=`. -/
def op_le (a b : big_integer) : Bool := !(op_gt a b)

/-- Friend `operator>=`. -/
def op_ge (a b : big_integer) : Bool := !(op_lt a b)

/-- Copy assignment `operator=`: nothing happens when `other == *this`,
otherwise the receiver becomes a copy of `other`. -/
def op_assign (self other : big_integer) : big_integer :=
  if op_eq other self then self else other

/-- The carry loop of `operator+=(uint64_t)` over the limbs `1 ..`. -/
def carryLoop : List Nat → Nat → List Nat
  | [], _ => []
  | x :: ds, carry =>
    let val := (x + carry) % U64
    (val % LIMIT) :: carryLoop ds ((val >>> BITS_COUNT) % LIMIT)

/-- Member `operator+=(uint64_t rhs)`: adds `rhs` to the magnitude; the sign is
not consulted. -/
def op_add_assign_u64 (a : big_integer) (rhs : Nat) : big_integer :=
  match a.data_ ++ [0] with
  | [] => a
  | d0 :: ds =>
    let first_val := (rhs + d0) % U64
    deleteLeadingZeroes
      { a with data_ := (first_val % LIMIT) :: carryLoop ds ((first_val >>> BITS_COUNT) % LIMIT) }

/-- The borrow loop of `subtract` over the resized `data_`; `rhs` is walked in
lockstep (`i < rhs.data_.size() ? rhs.data_[i] : 0`). -/
def subtractLoop (greater : Bool) : List Nat → List Nat → Nat → List Nat
  | [], _, _ => []
  | x :: ds, rhs, carry =>
    let y := rhs.headD 0
    let first := if greater then y else x
    let second := if greater then x else y
    let res := ((LIMIT + first) % U64 + U64 - (carry + second) % U64) % U64
    (res % LIMIT) :: subtractLoop greater ds rhs.tail ((res >>> BITS_COUNT) ^^^ 1)

/-- Member `subtract`. -/
def subtract (a rhs : big_integer) : big_integer :=
  let a1 : big_integer := { a with sign := rhs.sign }
  let greater : Bool :=
    (decide (rhs.sign = 1) && op_lt a1 rhs) || (decide (rhs.sign = -1) && op_gt a1 rhs)
  let tmp_sign : Int := if greater then rhs.sign else a.sign
  let res_size := max a.data_.length rhs.data_.length + 1
  let data := a.data_ ++ List.replicate (res_size - a.data_.length) 0
  deleteLeadingZeroes
    { data_ := subtractLoop greater data rhs.data_ 0, sign := tmp_sign }

/-- The carry loop of `operator+=(const big_integer&)` over the resized
`data_`. -/
def addLoop : List Nat → List Nat → Nat → List Nat
  | [], _, _ => []
  | first :: ds, rhs, carry =>
    let second := rhs.headD 0
    let res := (first + second + carry) % U64
    (res % LIMIT) :: addLoop ds rhs.tail (res >>> BITS_COUNT)

/-- Member `operator+=(const big_integer&)`. -/
def op_add_assign (a rhs : big_integer) : big_integer :=
  if a.sign = rhs.sign then
    let res_size := max a.data_.length rhs.data_.length + 1
    let data := a.data_ ++ List.replicate (res_size - a.data_.length) 0
    deleteLeadingZeroes { a with data_ := addLoop data rhs.data_ 0 }
  else subtract a rhs

/-- Member `operator-=`. -/
def op_sub_assign (a rhs : big_integer) : big_integer :=
  if a.sign = rhs.sign then
    let tmp_sign : Int := if op_gt a rhs then 1 else -1
    { subtract a rhs with sign := tmp_sign }
  else
    let tmp_sign : Int := if a.sign < rhs.sign then -1 else 1
    { op_add_assign { a with sign := rhs.sign } rhs with sign := tmp_sign }

/-- The loop of `mulByConst` over the resized `data_`. -/
def mulByConstLoop (rhs : Nat) : List Nat → Nat → List Nat
  | [], _ => []
  | x :: ds, carry =>
    let val := (x * rhs + carry) % U64
    (val % LIMIT) :: mulByConstLoop rhs ds (val >>> BITS_COUNT)

/-- Member `mulByConst(uint64_t rhs)`. -/
def mulByConst (a : big_integer) (rhs : Nat) : big_integer :=
  deleteLeadingZeroes { a with data_ := mulByConstLoop rhs (a.data_ ++ [0]) 0 }

/-- Inner loop of `operator*=` for the outer index `i`, walking `rhs.data_`
with index `j`; `data_` is updated in place. -/
def mulInner (multipliyer i : Nat) : List Nat → Nat → List Nat → Nat → List Nat × Nat
  | [], _, data, carry => (data, carry)
  | r :: rs, j, data, carry =>
    let value := (multipliyer * r) % U64
    let value := (value + (data.getD (i + j) 0 + carry) % U64) % U64
    mulInner multipliyer i rs (j + 1) (data.set (i + j) (value % LIMIT)) (value >>> BITS_COUNT)

/-- Outer loop of `operator*=`: `n` iterations remain, `i` is the loop index. -/
def mulOuter (rhs : List Nat) : Nat → Nat → List Nat → List Nat
  | 0, _, data => data
  | n + 1, i, data =>
    let multipliyer := data.getD (rhs.length + i) 0
    let data := data.set (rhs.length + i) 0
    let (data, carry) := mulInner multipliyer i rhs 0 data 0
    mulOuter rhs n (i + 1) (data.set (rhs.length + i) (carry % LIMIT))

/-- Member `operator*=`. -/
def op_mul_assign (a rhs : big_integer) : big_integer :=
  let data := List.replicate rhs.data_.length 0 ++ a.data_
  let data := mulOuter rhs.data_ (data.length - rhs.data_.length) 0 data
  let r := deleteLeadingZeroes { a with data_ := data }
  { r with sign := r.sign * rhs.sign }

/-- The loop of `divByConst`, from the most significant limb down; returns the
new limbs and the final carry. -/
def divByConstLoop (rhs : Nat) : List Nat → List Nat × Nat
  | [] => ([], 0)
  | x :: ds =>
    let (ds1, carry) := divByConstLoop rhs ds
    let curr := (x + (carry * LIMIT) % U64) % U64
    (((curr / rhs) % LIMIT) :: ds1, curr % rhs)

/-- Member `divByConst(uint64_t rhs)`. -/
def divByConst (a : big_integer) (rhs : Nat) : big_integer :=
  deleteLeadingZeroes { a with data_ := (divByConstLoop rhs a.data_).1 }

/-- The loop of `divModByConst`, from the most significant limb down. -/
def divModByConstLoop (rhs : Nat) : List Nat → List Nat × Nat
  | [] => ([], 0)
  | x :: ds =>
    let (ds1, carry) := divModByConstLoop rhs ds
    let tmp := (x + (carry * LIMIT) % U64) % U64
    ((((tmp / rhs) % LIMIT) % LIMIT) :: ds1, tmp % rhs)

/-- Member `divModByConst(uint64_t rhs)`: the new receiver and the returned
remainder. -/
def divModByConst (a : big_integer) (rhs : Nat) : big_integer × Nat :=
  let r := divModByConstLoop rhs a.data_
  (deleteLeadingZeroes { a with data_ := r.1 }, r.2)

/-- Member `operator<<=(int rhs)` for a non-negative shift count. -/
def op_shl_assign (a : big_integer) (rhs : Nat) : big_integer :=
  let shiftAbs := (rhs / BITS_COUNT) % LIMIT
  let a1 : big_integer := { a with data_ := List.replicate shiftAbs 0 ++ a.data_ }
  let rhs := rhs % BITS_COUNT
  let value := (1 <<< rhs) % LIMIT
  mulByConst a1 value

/-- Member `operator>>=(int rhs)` for a non-negative shift count. -/
def op_shr_assign (a : big_integer) (rhs : Nat) : big_integer :=
  let shiftAbs := (min (rhs / BITS_COUNT) a.data_.length) % LIMIT
  let a1 : big_integer := { a with data_ := a.data_.drop shiftAbs }
  if a1.data_.isEmpty then op_assign a1 mk0
  else
    let rhs := rhs % BITS_COUNT
    let value := (1 <<< rhs) % LIMIT
    let a2 := divByConst a1 value
    if a2.sign = -1 then op_add_assign_u64 a2 1 else a2

/-- The loop of `normalize`: `while (back < LIMIT / 2) { back <<= 1; ++k; }`. -/
def normalizeLoop : Nat → Nat → Nat → Option Nat
  | 0, _, _ => none
  | f + 1, back, k =>
    if back < LIMIT / 2 then normalizeLoop f ((back <<< 1) % LIMIT) (k + 1) else some k

/-- Member `normalize`: the shifted receiver and the returned shift count. -/
def normalize (fuel : Nat) (a : big_integer) : Option (big_integer × Nat) :=
  match normalizeLoop fuel (a.data_.getLastD 0) 0 with
  | none => none
  | some k => some (op_shl_assign a k, k)

/-- The correction loop of `divide`:
`while (copy_a < 0) { --q_j; copy_a += copy_b; }`. -/
def correctLoop : Nat → big_integer → big_integer → Nat → Option (big_integer × Nat)
  | 0, _, _, _ => none
  | f + 1, copy_a, copy_b, q_j =>
    if op_lt copy_a (of_int 0) then
      correctLoop f (op_add_assign copy_a copy_b) copy_b ((q_j + LIMIT - 1) % LIMIT)
    else some (copy_a, q_j)

/-- The main loop of `divide`, `for (size_t j = k; j > 0; --j)`, acting on
`copy_a`, `copy_b` and `quotient`. -/
def divideLoop (fuel : Nat) (normalized_b : big_integer) :
    Nat → big_integer → big_integer → big_integer →
      Option (big_integer × big_integer × big_integer)
  | 0, copy_a, copy_b, quotient => some (copy_a, copy_b, quotient)
  | j + 1, copy_a, copy_b, quotient =>
    let q_tmp : Nat :=
      if copy_a.data_.length > 1 then
        ((copy_a.data_.getLastD 0 * LIMIT) % U64
          + copy_a.data_.getD (copy_a.data_.length - 2) 0) % U64
          / normalized_b.data_.getLastD 0
      else 0
    let q_j : Nat := (min q_tmp (LIMIT - 1)) % LIMIT
    let copy_b := op_assign copy_b normalized_b
    let copy_b : big_integer := { copy_b with data_ := List.replicate j 0 ++ copy_b.data_ }
    let b_mqj := mulByConst copy_b q_j
    let copy_a := op_sub_assign copy_a b_mqj
    match correctLoop fuel copy_a copy_b q_j with
    | none => none
    | some (copy_a, q_j) =>
      divideLoop fuel normalized_b j copy_a copy_b
        { quotient with data_ := quotient.data_.set j q_j }

/-- Member `divide`: `some (.ok (quotient, receiver))` on return,
`some (.error _)` on a throw, `none` when a loop ran out of fuel. -/
def divide (fuel : Nat) (a b : big_integer) :
    Option (Except exn (big_integer × big_integer)) :=
  if isZero a then some (.ok (mk0, a))
  else if isZero b then some (.error exn.runtime_error)
  else
    match normalize fuel { b with sign := 1 } with
    | none => none
    | some (normalized_b, shift) =>
      let copy_a := op_shl_assign { a with sign := 1 } shift
      if copy_a.data_.length < normalized_b.data_.length then some (.ok (mk0, a))
      else
        let k := copy_a.data_.length - normalized_b.data_.length
        let quotient : big_integer := { mk0 with data_ := List.replicate (k + 1) 0 }
        let copy_b := op_assign { b with sign := 1 } normalized_b
        let copy_b : big_integer := { copy_b with data_ := List.replicate k 0 ++ copy_b.data_ }
        let first : big_integer × big_integer :=
          if op_ge copy_a copy_b then
            (op_sub_assign copy_a copy_b, { quotient with data_ := quotient.data_.set k 1 })
          else (copy_a, { quotient with data_ := quotient.data_.set k 0 })
        match divideLoop fuel normalized_b k first.1 copy_b first.2 with
        | none => none
        | some (copy_a, _, quotient) =>
          let copy_a := if !isZero copy_a then op_shr_assign copy_a shift else copy_a
          let copy_a : big_integer := { copy_a with sign := a.sign }
          let quotient : big_integer := { quotient with sign := a.sign * b.sign }
          let copy_a := deleteLeadingZeroes copy_a
          let quotient := deleteLeadingZeroes quotient
          some (.ok (quotient, op_assign a copy_a))

/-- Member `operator/=`: `*this = divide(rhs)`. -/
def op_div_assign (fuel : Nat) (a rhs : big_integer) : Option (Except exn big_integer) :=
  match divide fuel a rhs with
  | none => none
  | some (.error e) => some (.error e)
  | some (.ok (quotient, a1)) => some (.ok (op_assign a1 quotient))

/-- Member `operator%=`: `divide(rhs)` leaves the remainder in the receiver. -/
def op_mod_assign (fuel : Nat) (a rhs : big_integer) : Option (Except exn big_integer) :=
  match divide fuel a rhs with
  | none => none
  | some (.error e) => some (.error e)
  | some (.ok (_, a1)) => some (.ok a1)

/-- Member unary `operator-`. -/
def op_neg (a : big_integer) : big_integer := { a with sign := -a.sign }

/-- Free `operator+`. -/
def op_add (a b : big_integer) : big_integer := op_add_assign a b

/-- Free `operator-`. -/
def op_sub (a b : big_integer) : big_integer := op_sub_assign a b

/-- Free `operator*`. -/
def op_mul (a b : big_integer) : big_integer := op_mul_assign a b

/-- Free `operator/`. -/
def op_div (fuel : Nat) (a b : big_integer) : Option (Except exn big_integer) :=
  op_div_assign fuel a b

/-- Free `operator%`. -/
def op_mod (fuel : Nat) (a b : big_integer) : Option (Except exn big_integer) :=
  op_mod_assign fuel a b

/-! ## Specification vocabulary -/

/-- Value of a limb sequence, least significant limb first. -/
def lval : List Nat → Nat
  | [] => 0
  | x :: xs => x + LIMIT * lval xs

/-- The mathematical integer denoted by a `big_integer`. -/
def val (a : big_integer) : Int := a.sign * (lval a.data_ : Int)

/-- Every limb fits in 32 bits. -/
def limbs_ok (l : List Nat) : Prop := ∀ x ∈ l, x < LIMIT

/-- No most-significant zero limb, apart from the empty sequence and the
single zero limb (the exit condition of `deleteLeadingZeroes`). -/
def trimmed (l : List Nat) : Prop := l.length ≤ 1 ∨ l.getLastD 0 ≠ 0

/-- Representation invariant kept by every operation: a sign of `+1` or `-1`,
32-bit limbs, trimmed magnitude. -/
def wf (a : big_integer) : Prop :=
  (a.sign = 1 ∨ a.sign = -1) ∧ limbs_ok a.data_ ∧ trimmed a.data_

/-- Canonical form of the specification: the representation invariant, and
zero carries the sign `+1`. -/
def canonical (a : big_integer) : Prop :=
  wf a ∧ (isZero a = true → a.sign = 1)

instance (l : List Nat) : Decidable (limbs_ok l) := by unfold limbs_ok; infer_instance
instance (l : List Nat) : Decidable (trimmed l) := by unfold trimmed; infer_instance
instance (a : big_integer) : Decidable (wf a) := by unfold wf; infer_instance
instance (a : big_integer) : Decidable (canonical a) := by unfold canonical; infer_instance

/-! ## String conversion -/

/-- The C library test `::isdigit` on a `char` (bytes outside `'0'..'9'` are
not digits). -/
def isdigit (c : Char) : Bool := decide (48 ≤ c.toNat ∧ c.toNat ≤ 57)

/-- The call `std::stoi` on a chunk that consists of at most nine decimal
digits: plain base-10 evaluation, which cannot overflow an `int`. -/
def stoi (s : List Char) : Nat :=
  s.foldl (fun acc c => acc * 10 + (c.toNat - 48)) 0

/-- The chunk loop of the string constructor,
`for (; i < str.length(); i += STR_NUMS_COUNT)`, over the characters from
index `i` on.  The first argument bounds the number of iterations.  The call
`std::pow(10, numbOfChars)` is taken to return the exact power. -/
def parseLoop : Nat → List Char → big_integer → big_integer
  | 0, _, a => a
  | f + 1, rest, a =>
    if rest.isEmpty then a
    else
      let numbOfChars := (min rest.length STR_NUMS_COUNT) % LIMIT
      let num := stoi (rest.take numbOfChars) % LIMIT
      let a := mulByConst a (if numbOfChars = STR_NUMS_COUNT then STR_NUMS else 10 ^ numbOfChars)
      let a := op_add_assign_u64 a num
      parseLoop f (rest.drop STR_NUMS_COUNT) a

/-- Constructor `big_integer(const std::string&)`.  Every `Char` of `s` stands
for one `char` of the `std::string`; `str[0]` of an empty string is the
terminating NUL. -/
def of_string (s : String) : Except exn big_integer :=
  let str := s.data
  let str0 := str.headD (Char.ofNat 0)
  if str.isEmpty || (str.length == 1 && str0 == '-') || !(str.tail.all isdigit)
      || (str0 != '-' && !(isdigit str0)) then
    .error exn.invalid_argument
  else
    let a : big_integer := if str0 = '-' then { mk0 with sign := -1 } else mk0
    let rest := if str0 = '-' then str.drop 1 else str
    .ok (deleteLeadingZeroes (parseLoop rest.length rest a))

/-- The loop of `to_string`, `while (tmp > 0)`, building the reversed digit
string `res`.  A remainder of `divModByConst(STR_NUMS)` has at most nine
digits, so the padding length does not wrap. -/
def to_stringLoop : Nat → big_integer → List Char → Option (List Char)
  | 0, _, _ => none
  | f + 1, tmp, res =>
    if op_gt tmp (of_int 0) then
      let r := divModByConst tmp STR_NUMS
      let tmp_digits := Nat.toDigits 10 r.2
      let res := res ++ tmp_digits.reverse
      let res :=
        if op_gt r.1 (of_int 0) then
          res ++ List.replicate (STR_NUMS_COUNT - tmp_digits.length) '0'
        else res
      to_stringLoop f r.1 res
    else some res

/-- Free function `to_string`; `none` when the loop ran out of fuel. -/
def to_string (fuel : Nat) (a : big_integer) : Option String :=
  if isZero a then some "0"
  else
    match to_stringLoop fuel { a with sign := 1 } [] with
    | none => none
    | some res =>
      let res := if a.sign = -1 then res ++ ['-'] else res
      some (String.mk res.reverse)

/-! ## Bitwise operators, increments and shifts as free operators -/

/-- The operator `~` on one `unsigned int` limb. -/
def bnot32 (i : Nat) : Nat := LIMIT - 1 - i % LIMIT

/-- Member `invert`: for a negative receiver, complement every limb and add
one to the magnitude (`*this += 1` selects `operator+=(uint64_t)`). -/
def invert (a : big_integer) : big_integer :=
  if a.sign > 0 then a
  else op_add_assign_u64 { a with data_ := a.data_.map bnot32 } 1

/-- Member `back_invert`; `*this -= 1` converts `1` with `big_integer(int)`. -/
def back_invert (a : big_integer) : big_integer :=
  let a1 : big_integer := { a with sign := 1 }
  let a2 := op_sub_assign a1 (of_int 1)
  let a3 : big_integer := { a2 with data_ := a2.data_.map bnot32 }
  deleteLeadingZeroes { a3 with sign := -1 }

/-- The loop of `bitwiseOp` over the resized `data_`, from index `i` on;
`other` is walked in lockstep, so `i < other.data_.size()` holds exactly while
it is non-empty.  `sign` is the sign of the receiver. -/
def bitwiseOpLoop (op : Nat → Nat → Nat) (sign other_sign : Int) (beforeSize : Nat) :
    Nat → List Nat → List Nat → Nat → List Nat
  | _, [], _, _ => []
  | i, x :: ds, other, carry =>
    let first : Nat := if i < beforeSize then x else if sign < 0 then LIMIT - 1 else 0
    match other with
    | [] =>
      let second : Nat := if sign < 0 then LIMIT - 1 else 0
      (op first second % LIMIT) :: bitwiseOpLoop op sign other_sign beforeSize (i + 1) ds [] carry
    | y :: ys =>
      if other_sign < 0 then
        let with_carry := (carry + bnot32 y) % U64
        let second := with_carry % LIMIT
        (op first second % LIMIT) ::
          bitwiseOpLoop op sign other_sign beforeSize (i + 1) ds ys (with_carry >>> BITS_COUNT)
      else
        (op first y % LIMIT) :: bitwiseOpLoop op sign other_sign beforeSize (i + 1) ds ys carry

/-- Member template `bitwiseOp`. -/
def bitwiseOp (a other : big_integer) (op : Nat → Nat → Nat) : big_integer :=
  let a1 := invert a
  let beforeSize := a1.data_.length
  let data := a1.data_ ++ List.replicate (max a1.data_.length other.data_.length - a1.data_.length) 0
  deleteLeadingZeroes
    { a1 with data_ := bitwiseOpLoop op a1.sign other.sign beforeSize 0 data other.data_ 1 }

/-- Member `operator&=`. -/
def op_and_assign (a rhs : big_integer) : big_integer :=
  let r := bitwiseOp a rhs Nat.land
  if r.sign < 0 ∧ rhs.sign < 0 then back_invert r
  else if r.sign < 0 ∧ rhs.sign > 0 then { r with sign := 1 }
  else r

/-- Member `operator|=`. -/
def op_or_assign (a rhs : big_integer) : big_integer :=
  let r := bitwiseOp a rhs Nat.lor
  if r.sign < 0 ∨ rhs.sign < 0 then back_invert r else r

/-- Member `operator^=`. -/
def op_xor_assign (a rhs : big_integer) : big_integer :=
  let r := bitwiseOp a rhs Nat.xor
  if (r.sign < 0 ∧ rhs.sign > 0) ∨ (r.sign > 0 ∧ rhs.sign < 0) then back_invert r
  else if r.sign = rhs.sign then { r with sign := 1 }
  else r

/-- Member unary `operator~`; `copy += 1` selects `operator+=(uint64_t)`. -/
def op_not (a : big_integer) : big_integer :=
  op_add_assign_u64 { a with sign := -a.sign } 1

/-- Member prefix `operator++`; `*this += 1` selects `operator+=(uint64_t)`. -/
def op_pre_inc (a : big_integer) : big_integer := op_add_assign_u64 a 1

/-- Member postfix `operator++`: the returned copy and the new receiver. -/
def op_post_inc (a : big_integer) : big_integer × big_integer := (a, op_pre_inc a)

/-- Member prefix `operator--`; `*this -= 1` converts `1` with
`big_integer(int)`. -/
def op_pre_dec (a : big_integer) : big_integer := op_sub_assign a (of_int 1)

/-- Member postfix `operator--`: the returned copy and the new receiver. -/
def op_post_dec (a : big_integer) : big_integer × big_integer := (a, op_pre_dec a)

/-- Free `operator&`. -/
def op_and (a b : big_integer) : big_integer := op_and_assign a b

/-- Free `operator|`. -/
def op_or (a b : big_integer) : big_integer := op_or_assign a b

/-- Free `operator^`. -/
def op_xor (a b : big_integer) : big_integer := op_xor_assign a b

/-- Free `operator<<`. -/
def op_shl (a : big_integer) (b : Nat) : big_integer := op_shl_assign a b

/-- Free `operator>>`. -/
def op_shr (a : big_integer) (b : Nat) : big_integer := op_shr_assign a b

/-! ## The main loop of divide with a ghost log -/

/-- The correction loop of `divide` with a ghost counter `n` of the iterations
run so far; the computation is that of `correctLoop`. -/
def correctLoopCount : Nat → big_integer → big_integer → Nat → Nat →
    Option (big_integer × Nat × Nat)
  | 0, _, _, _, _ => none
  | f + 1, copy_a, copy_b, q_j, n =>
    if op_lt copy_a (of_int 0) then
      correctLoopCount f (op_add_assign copy_a copy_b) copy_b ((q_j + LIMIT - 1) % LIMIT) (n + 1)
    else some (copy_a, q_j, n)

/-- The main loop of `divide` with a ghost log: for every position, from the
most significant one down, the trial digit `q_j = min(q_tmp, LIMIT - 1)`, the
digit stored into `quotient.data_[j - 1]`, and the number of iterations of the
correction loop.  The computation is that of `divideLoop`. -/
def divideLoopLog (fuel : Nat) (normalized_b : big_integer) :
    Nat → big_integer → big_integer → big_integer → List (Nat × Nat × Nat) →
      Option (big_integer × big_integer × big_integer × List (Nat × Nat × Nat))
  | 0, copy_a, copy_b, quotient, log => some (copy_a, copy_b, quotient, log)
  | j + 1, copy_a, copy_b, quotient, log =>
    let q_tmp : Nat :=
      if copy_a.data_.length > 1 then
        ((copy_a.data_.getLastD 0 * LIMIT) % U64
          + copy_a.data_.getD (copy_a.data_.length - 2) 0) % U64
          / normalized_b.data_.getLastD 0
      else 0
    let q_j : Nat := (min q_tmp (LIMIT - 1)) % LIMIT
    let copy_b := op_assign copy_b normalized_b
    let copy_b : big_integer := { copy_b with data_ := List.replicate j 0 ++ copy_b.data_ }
    let b_mqj := mulByConst copy_b q_j
    let copy_a := op_sub_assign copy_a b_mqj
    match correctLoopCount fuel copy_a copy_b q_j 0 with
    | none => none
    | some (copy_a, q_j1, n) =>
      divideLoopLog fuel normalized_b j copy_a copy_b
        { quotient with data_ := quotient.data_.set j q_j1 } (log ++ [(q_j, q_j1, n)])

/-- Member `divide` with the ghost log of its main loop: the quotient, the new
receiver and the log.  The computation is that of `divide`. -/
def divideLog (fuel : Nat) (a b : big_integer) :
    Option (Except exn (big_integer × big_integer × List (Nat × Nat × Nat))) :=
  if isZero a then some (.ok (mk0, a, []))
  else if isZero b then some (.error exn.runtime_error)
  else
    match normalize fuel { b with sign := 1 } with
    | none => none
    | some (normalized_b, shift) =>
      let copy_a := op_shl_assign { a with sign := 1 } shift
      if copy_a.data_.length < normalized_b.data_.length then some (.ok (mk0, a, []))
      else
        let k := copy_a.data_.length - normalized_b.data_.length
        let quotient : big_integer := { mk0 with data_ := List.replicate (k + 1) 0 }
        let copy_b := op_assign { b with sign := 1 } normalized_b
        let copy_b : big_integer := { copy_b with data_ := List.replicate k 0 ++ copy_b.data_ }
        let first : big_integer × big_integer :=
          if op_ge copy_a copy_b then
            (op_sub_assign copy_a copy_b, { quotient with data_ := quotient.data_.set k 1 })
          else (copy_a, { quotient with data_ := quotient.data_.set k 0 })
        match divideLoopLog fuel normalized_b k first.1 copy_b first.2 [] with
        | none => none
        | some (copy_a, _, quotient, log) =>
          let copy_a := if !isZero copy_a then op_shr_assign copy_a shift else copy_a
          let copy_a : big_integer := { copy_a with sign := a.sign }
          let quotient : big_integer := { quotient with sign := a.sign * b.sign }
          let copy_a := deleteLeadingZeroes copy_a
          let quotient := deleteLeadingZeroes quotient
          some (.ok (quotient, op_assign a copy_a, log))

/-! ## The limb loops over unbounded integers -/

/-- The inner loop of `operator*=` over unbounded naturals, with a check on
every 64-bit intermediate: `none` as soon as `multipliyer * rhs.data_[j]`,
`data_[i + j] + carry` or their sum reaches `2^64`, or the outgoing carry does
not fit in one limb.  Otherwise the computation is that of `mulInner`. -/
def mulInnerExact (multipliyer i : Nat) : List Nat → Nat → List Nat → Nat →
    Option (List Nat × Nat)
  | [], _, data, carry => some (data, carry)
  | r :: rs, j, data, carry =>
    let product := multipliyer * r
    let addend := data.getD (i + j) 0 + carry
    let value := product + addend
    if product < U64 ∧ addend < U64 ∧ value < U64 ∧ value >>> BITS_COUNT < LIMIT then
      mulInnerExact multipliyer i rs (j + 1) (data.set (i + j) (value % LIMIT))
        (value >>> BITS_COUNT)
    else none

/-- The outer loop of `operator*=` around `mulInnerExact`; `none` also when the
carry stored into `data_[rhs.data_.size() + i]` does not fit in one limb. -/
def mulOuterExact (rhs : List Nat) : Nat → Nat → List Nat → Option (List Nat)
  | 0, _, data => some data
  | n + 1, i, data =>
    let multipliyer := data.getD (rhs.length + i) 0
    let data := data.set (rhs.length + i) 0
    match mulInnerExact multipliyer i rhs 0 data 0 with
    | none => none
    | some (data, carry) =>
      if carry < LIMIT then mulOuterExact rhs n (i + 1) (data.set (rhs.length + i) carry)
      else none

/-- The loop of `mulByConst` over unbounded naturals, with a check on every
64-bit intermediate: `none` as soon as `i * rhs` or `i * rhs + carry` reaches
`2^64`, or the outgoing carry does not fit in one limb. -/
def mulByConstLoopExact (rhs : Nat) : List Nat → Nat → Option (List Nat)
  | [], _ => some []
  | x :: ds, carry =>
    let product := x * rhs
    let val := product + carry
    if product < U64 ∧ val < U64 ∧ val >>> BITS_COUNT < LIMIT then
      (mulByConstLoopExact rhs ds (val >>> BITS_COUNT)).map (fun t => (val % LIMIT) :: t)
    else none

/-- The borrow loop of `subtract` over unbounded integers, with a check on
every 64-bit intermediate: `none` as soon as `LIMIT + first` or
`carry + second` reaches `2^64`, the difference
`LIMIT + first - (carry + second)` leaves `[0, 2^64)`, or the outgoing carry
does not fit in one limb. -/
def subtractLoopExact (greater : Bool) : List Nat → List Nat → Nat → Option (List Nat)
  | [], _, _ => some []
  | x :: ds, rhs, carry =>
    let y := rhs.headD 0
    let first := if greater then y else x
    let second := if greater then x else y
    let res : Int := ((LIMIT + first : Nat) : Int) - ((carry + second : Nat) : Int)
    if LIMIT + first < U64 ∧ carry + second < U64 ∧ 0 ≤ res ∧ res < (U64 : Int) ∧
        (res.toNat >>> BITS_COUNT) ^^^ 1 < LIMIT then
      (subtractLoopExact greater ds rhs.tail ((res.toNat >>> BITS_COUNT) ^^^ 1)).map
        (fun t => (res.toNat % LIMIT) :: t)
    else none

end big_integer

namespace substr

/-! ## Substring search (src/substr/solution.cpp) -/

/-- The value of a `char` that holds the byte `b`, after promotion to `int`.
The signedness of plain `char` is fixed by the platform; with a signed `char`
the bytes from `0x80` on are negative. -/
def char_to_int (char_signed : Bool) (b : Nat) : Int :=
  if char_signed = true ∧ 128 ≤ b then (b : Int) - 256 else (b : Int)

/-- The read `text[i]` of a NUL-terminated string: its chars, then the
terminator; `none` past the terminator. -/
def charAt (text : List Int) (i : Nat) : Option Int := (text ++ [0])[i]?

/-- The loop of `findMatching`, `while (i > 0 && symb != text[i])`.  The array
`prefix` (here `pref`) holds `none` where it was never written; reading such
an entry, or past the end, gives `none`, as does running out of fuel. -/
def findMatchingLoop : Nat → Nat → Int → List Int → List (Option Nat) → Option Nat
  | 0, _, _, _, _ => none
  | f + 1, i, symb, text, pref =>
    if i > 0 then
      match charAt text i with
      | none => none
      | some t =>
        if symb ≠ t then
          match pref.getD (i - 1) none with
          | none => none
          | some p => findMatchingLoop f p symb text pref
        else some i
    else some i

/-- Function `findMatching`; `i` is an `unsigned int`. -/
def findMatching (fuel i : Nat) (symb : Int) (text : List Int) (pref : List (Option Nat)) :
    Option Nat :=
  match findMatchingLoop fuel i symb text pref with
  | none => none
  | some i =>
    match charAt text i with
    | none => none
    | some t => some (if symb = t then (i + 1) % 4294967296 else i)

/-- The precalculation loop of `main`,
`for (size_t i = 1; i < patternLen - 1; ++i)`, with `n` iterations left; a
write past the end of `prefix` gives `none`. -/
def precalcLoop (fuel : Nat) (subtext : List Int) :
    Nat → Nat → List (Option Nat) → Option (List (Option Nat))
  | 0, _, pref => some pref
  | n + 1, i, pref =>
    match pref.getD (i - 1) none with
    | none => none
    | some k =>
      match charAt subtext i with
      | none => none
      | some s =>
        match findMatching fuel k s subtext pref with
        | none => none
        | some k =>
          if i < pref.length then precalcLoop fuel subtext n (i + 1) (pref.set i (some k))
          else none

/-- The search loop of `main`, `while ((curSymb = std::fgetc(file)) != EOF)`,
over the values still to be read: `true` for the output `Yes`, `false` for
`No`. -/
def kmpLoop (fuel : Nat) (subtext : List Int) (pref : List (Option Nat)) (patternLen : Nat) :
    List Int → Nat → Option Bool
  | [], _ => some false
  | curSymb :: rest, j =>
    match findMatching fuel j curSymb subtext pref with
    | none => none
    | some j =>
      if j ≥ patternLen then some true
      else kmpLoop fuel subtext pref patternLen rest j

/-- Function `main` on a file that opens and reads without error: `pattern`
holds the bytes of `argv[2]` and `content` the bytes of the file, which
`fgetc` returns as values `0..255`.  The result is `some true` for the output
`Yes`, `some false` for `No`, and `none` when the run leaves the allocated
array (empty pattern) or a loop runs out of fuel. -/
def main (fuel : Nat) (char_signed : Bool) (pattern content : List Nat) : Option Bool :=
  let subtext := pattern.map (char_to_int char_signed)
  let patternLen := subtext.length
  let pref : List (Option Nat) := List.replicate patternLen none
  if 0 < pref.length then
    let pref := pref.set 0 (some 0)
    match precalcLoop fuel subtext (patternLen - 1 - 1) 1 pref with
    | none => none
    | some pref => kmpLoop fuel subtext pref patternLen (content.map Int.ofNat) 0
  else none

/-! ## Specification vocabulary of the substring search -/

/-- The first `l` chars of `P` form a suffix of `w`. -/
def Border (P w : List Int) (l : Nat) : Prop := l ≤ P.length ∧ P.take l <:+ w

/-- The number `l` is the greatest length of a start of `P` that is a suffix
of `w`. -/
def Longest (P w : List Int) (l : Nat) : Prop := Border P w l ∧ ∀ l', Border P w l' → l' ≤ l

/-- The entries `0 .. n - 1` of the array `prefix` are written, and entry `k`
is the greatest length of a start of `P` that is a suffix of `P[1 .. k]`. -/
def TableOk (P : List Int) (pref : List (Option Nat)) (n : Nat) : Prop :=
  ∀ k, k < n → ∃ p, pref.getD k none = some p ∧ Longest P ((P.take (k + 1)).drop 1) p

end substr

namespace big_integer

/-! ## Limb lists and trimming -/

theorem LIMIT_pos : 0 < LIMIT := by decide

theorem lval_cons (x : Nat) (xs : List Nat) : lval (x :: xs) = x + LIMIT * lval xs := rfl

theorem lval_append (xs ys : List Nat) :
    lval (xs ++ ys) = lval xs + LIMIT ^ xs.length * lval ys := by
  induction xs with
  | nil => simp [lval]
  | cons x xs ih =>
    simp only [List.cons_append, lval_cons, ih, List.length_cons, pow_succ]
    ring

theorem lval_replicate_zero (n : Nat) : lval (List.replicate n 0) = 0 := by
  induction n with
  | zero => rfl
  | succ n ih => simp [List.replicate_succ, lval_cons, ih]

theorem limbs_ok_nil : limbs_ok [] := by simp [limbs_ok]

theorem limbs_ok_cons {x : Nat} {xs : List Nat} :
    limbs_ok (x :: xs) ↔ x < LIMIT ∧ limbs_ok xs := by
  simp [limbs_ok]

theorem limbs_ok_append {xs ys : List Nat} :
    limbs_ok (xs ++ ys) ↔ limbs_ok xs ∧ limbs_ok ys := by
  simp only [limbs_ok, List.mem_append]
  constructor
  · intro h; exact ⟨fun x hx => h x (Or.inl hx), fun x hx => h x (Or.inr hx)⟩
  · rintro ⟨h1, h2⟩ x (hx | hx)
    · exact h1 x hx
    · exact h2 x hx

theorem limbs_ok_replicate_zero (n : Nat) : limbs_ok (List.replicate n 0) := by
  intro x hx
  rw [List.mem_replicate] at hx
  rw [hx.2]; exact LIMIT_pos

theorem lval_lt {l : List Nat} (h : limbs_ok l) : lval l < LIMIT ^ l.length := by
  induction l with
  | nil => simp [lval]
  | cons x xs ih =>
    rw [limbs_ok_cons] at h
    have h2 := ih h.2
    rw [lval_cons, List.length_cons, pow_succ]
    have : LIMIT * (lval xs + 1) ≤ LIMIT * LIMIT ^ xs.length := Nat.mul_le_mul_left _ h2
    have h1 := h.1
    rw [Nat.mul_comm (LIMIT ^ xs.length)]
    rw [Nat.mul_add] at this
    omega

/-- A list is its `dropLast` followed by its last element. -/
theorem dropLast_concat_getLastD {l : List Nat} (h : l ≠ []) :
    l = l.dropLast ++ [l.getLastD 0] := by
  have := List.dropLast_append_getLast h
  conv_lhs => rw [← this]
  rw [List.getLastD_eq_getLast?, List.getLast?_eq_getLast _ h]
  rfl

theorem lval_dropLast {l : List Nat} (h : l.getLastD 0 = 0) : lval l.dropLast = lval l := by
  by_cases hl : l = []
  · subst hl; rfl
  · conv_rhs => rw [dropLast_concat_getLastD hl, lval_append, h]
    simp [lval]

theorem limbs_ok_dropLast {l : List Nat} (h : limbs_ok l) : limbs_ok l.dropLast := by
  intro x hx
  exact h x (List.mem_of_mem_dropLast hx)

theorem popLoop_lval (n : Nat) (l : List Nat) : lval (popLoop n l) = lval l := by
  induction n generalizing l with
  | zero => rfl
  | succ n ih =>
    unfold popLoop
    split
    · rename_i h; rw [ih, lval_dropLast h.2]
    · rfl

theorem popLoop_limbs_ok (n : Nat) {l : List Nat} (h : limbs_ok l) : limbs_ok (popLoop n l) := by
  induction n generalizing l with
  | zero => exact h
  | succ n ih =>
    unfold popLoop
    split
    · exact ih (limbs_ok_dropLast h)
    · exact h

theorem popLoop_trimmed (n : Nat) (l : List Nat) (h : l.length ≤ n + 1) :
    trimmed (popLoop n l) := by
  induction n generalizing l with
  | zero => left; exact h
  | succ n ih =>
    unfold popLoop
    split
    · apply ih; simp; omega
    · rename_i hc
      unfold trimmed
      by_cases h1 : l.length ≤ 1
      · left; exact h1
      · right; intro h0; exact hc ⟨by omega, h0⟩

theorem popLoop_length_pos (n : Nat) (l : List Nat) (h : 0 < l.length) :
    0 < (popLoop n l).length := by
  induction n generalizing l with
  | zero => exact h
  | succ n ih =>
    unfold popLoop
    split
    · rename_i hc; apply ih; simp; omega
    · exact h

theorem popLoop_length_le (n : Nat) (l : List Nat) : (popLoop n l).length ≤ l.length := by
  induction n generalizing l with
  | zero => exact le_refl _
  | succ n ih =>
    unfold popLoop
    split
    · have := ih l.dropLast; simp at this; omega
    · exact le_refl _

theorem popLoop_of_trimmed (n : Nat) (l : List Nat) (h : trimmed l) : popLoop n l = l := by
  cases n with
  | zero => rfl
  | succ n =>
    unfold popLoop
    rw [if_neg]
    rintro ⟨h1, h2⟩
    rcases h with h | h
    · omega
    · exact h h2

theorem deleteLeadingZeroes_sign (a : big_integer) : (deleteLeadingZeroes a).sign = a.sign := rfl

theorem deleteLeadingZeroes_lval (a : big_integer) :
    lval (deleteLeadingZeroes a).data_ = lval a.data_ := popLoop_lval _ _

theorem deleteLeadingZeroes_val (a : big_integer) : val (deleteLeadingZeroes a) = val a := by
  unfold val; rw [deleteLeadingZeroes_lval, deleteLeadingZeroes_sign]

theorem deleteLeadingZeroes_wf {a : big_integer} (hs : a.sign = 1 ∨ a.sign = -1)
    (hl : limbs_ok a.data_) : wf (deleteLeadingZeroes a) :=
  ⟨hs, popLoop_limbs_ok _ hl, popLoop_trimmed _ _ (Nat.le_succ _)⟩

theorem deleteLeadingZeroes_of_trimmed {a : big_integer} (h : trimmed a.data_) :
    deleteLeadingZeroes a = a := by
  unfold deleteLeadingZeroes
  rw [popLoop_of_trimmed _ _ h]

/-! ## Comparing magnitudes -/

theorem getLastD_ne_zero_ne_nil {l : List Nat} (h : l.getLastD 0 ≠ 0) : l ≠ [] := by
  rintro rfl; exact h rfl

theorem lval_ge_of_getLastD_ne_zero {l : List Nat} (h : l.getLastD 0 ≠ 0) :
    LIMIT ^ (l.length - 1) ≤ lval l := by
  have hl := getLastD_ne_zero_ne_nil h
  have e := dropLast_concat_getLastD hl
  have e2 : lval l = lval l.dropLast + LIMIT ^ (l.length - 1) * l.getLastD 0 := by
    conv_lhs => rw [e, lval_append]
    simp [lval_cons, lval]
  rw [e2]
  have : 1 ≤ l.getLastD 0 := Nat.pos_of_ne_zero h
  calc LIMIT ^ (l.length - 1) = LIMIT ^ (l.length - 1) * 1 := (Nat.mul_one _).symm
    _ ≤ LIMIT ^ (l.length - 1) * l.getLastD 0 := Nat.mul_le_mul_left _ this
    _ ≤ _ := Nat.le_add_left _ _

theorem lval_eq_zero_of_isZero {a : big_integer} (h : isZero a = true) : lval a.data_ = 0 := by
  unfold isZero at h
  rcases a with ⟨d, s⟩
  match d, h with
  | [], _ => rfl
  | [x], h => simp [List.getLastD] at h; simp [lval, h]
  | _ :: _ :: _, h => simp at h

theorem isZero_of_lval_eq_zero {a : big_integer} (ht : trimmed a.data_)
    (h : lval a.data_ = 0) : isZero a = true := by
  unfold isZero
  rcases a with ⟨d, s⟩
  match d, ht, h with
  | [], _, _ => rfl
  | [x], _, h => simp [lval] at h; simp [List.getLastD, h]
  | x :: y :: r, ht, h =>
    exfalso
    rcases ht with ht | ht
    · simp at ht
    · have h1 := lval_ge_of_getLastD_ne_zero ht
      have hp : 0 < LIMIT ^ ((x :: y :: r).length - 1) := Nat.pow_pos LIMIT_pos
      have h2 : lval (x :: y :: r) = 0 := h
      have h3 : LIMIT ^ ((x :: y :: r).length - 1) ≤ lval (x :: y :: r) := h1
      omega

theorem isZero_iff {a : big_integer} (ht : trimmed a.data_) :
    isZero a = true ↔ lval a.data_ = 0 :=
  ⟨lval_eq_zero_of_isZero, isZero_of_lval_eq_zero ht⟩

/-- Big-endian comparison agrees with the value, for equally long limb lists. -/
theorem lexicographical_compare_rev (us vs : List Nat) (hlen : us.length = vs.length)
    (hu : limbs_ok us) (hv : limbs_ok vs) :
    lexicographical_compare us vs = decide (lval us.reverse < lval vs.reverse) := by
  induction us generalizing vs with
  | nil =>
    cases vs with
    | nil => simp [lexicographical_compare, lval]
    | cons v vs => simp at hlen
  | cons u us ih =>
    cases vs with
    | nil => simp at hlen
    | cons v vs =>
      simp only [List.length_cons, Nat.add_right_cancel_iff] at hlen
      rw [limbs_ok_cons] at hu hv
      have hul : limbs_ok us.reverse := fun x hx => hu.2 x (List.mem_reverse.mp hx)
      have hvl : limbs_ok vs.reverse := fun x hx => hv.2 x (List.mem_reverse.mp hx)
      have h1 := lval_lt hul
      have h2 := lval_lt hvl
      simp only [List.length_reverse] at h1 h2
      rw [← hlen] at h2
      simp only [List.reverse_cons, lval_append, List.length_reverse, lval_cons, lval,
        Nat.mul_zero, Nat.add_zero, ← hlen]
      unfold lexicographical_compare
      generalize LIMIT ^ us.length = P at *
      by_cases huv : u < v
      · rw [if_pos huv]
        symm; rw [decide_eq_true_iff]
        have : P * (u + 1) ≤ P * v := Nat.mul_le_mul_left _ huv
        rw [Nat.mul_add] at this
        omega
      · rw [if_neg huv]
        by_cases hvu : v < u
        · rw [if_pos hvu]
          symm; rw [decide_eq_false_iff_not]
          have : P * (v + 1) ≤ P * u := Nat.mul_le_mul_left _ hvu
          rw [Nat.mul_add] at this
          omega
        · rw [if_neg hvu]
          have e : u = v := by omega
          subst e
          rw [ih vs hlen hu.2 hv.2]
          congr 1
          apply propext
          omega

theorem lexicographical_compare_lval (xs ys : List Nat) (hlen : xs.length = ys.length)
    (hx : limbs_ok xs) (hy : limbs_ok ys) :
    lexicographical_compare xs.reverse ys.reverse = decide (lval xs < lval ys) := by
  have := lexicographical_compare_rev xs.reverse ys.reverse (by simp [hlen])
    (fun x h => hx x (List.mem_reverse.mp h)) (fun x h => hy x (List.mem_reverse.mp h))
  simpa using this

theorem lval_inj {xs ys : List Nat} (hlen : xs.length = ys.length)
    (hx : limbs_ok xs) (hy : limbs_ok ys) (h : lval xs = lval ys) : xs = ys := by
  induction xs generalizing ys with
  | nil =>
    cases ys with
    | nil => rfl
    | cons y ys => simp at hlen
  | cons x xs ih =>
    cases ys with
    | nil => simp at hlen
    | cons y ys =>
      simp only [List.length_cons, Nat.add_right_cancel_iff] at hlen
      rw [limbs_ok_cons] at hx hy
      simp only [lval_cons, LIMIT] at h
      have h1 := hx.1
      have h2 := hy.1
      simp only [LIMIT] at h1 h2
      have e1 : x = y := by omega
      have e2 : lval xs = lval ys := by omega
      rw [e1, ih hlen hx.2 hy.2 e2]

/-- A shorter trimmed magnitude is smaller, unless both are zero. -/
theorem lval_lt_of_length_lt {xs ys : List Nat} (hx : limbs_ok xs)
    (hty : trimmed ys) (hlen : xs.length < ys.length)
    (hnz : ¬ (lval xs = 0 ∧ lval ys = 0)) : lval xs < lval ys := by
  have h1 := lval_lt hx
  rcases hty with hty | hty
  · have e1 : ys.length = 1 := by omega
    have e0 : xs.length = 0 := by omega
    have : xs = [] := List.length_eq_zero.mp e0
    subst this
    have : lval ([] : List Nat) = 0 := rfl
    omega
  · have h2 := lval_ge_of_getLastD_ne_zero hty
    have h3 : LIMIT ^ xs.length ≤ LIMIT ^ (ys.length - 1) :=
      Nat.pow_le_pow_right LIMIT_pos (by omega)
    omega

/-- Trimmed magnitudes with the same value are the same list, unless zero. -/
theorem lval_inj_trimmed {xs ys : List Nat} (hx : limbs_ok xs) (hy : limbs_ok ys)
    (htx : trimmed xs) (hty : trimmed ys) (h : lval xs = lval ys) (hnz : lval xs ≠ 0) :
    xs = ys := by
  apply lval_inj _ hx hy h
  rcases Nat.lt_trichotomy xs.length ys.length with hl | hl | hl
  · have := lval_lt_of_length_lt hx hty hl (fun hh => hnz hh.1)
    omega
  · exact hl
  · have := lval_lt_of_length_lt hy htx hl (fun hh => hnz hh.2)
    omega

/-! ## Comparison operators -/

theorem val_mk (d : List Nat) (s : Int) : val ⟨d, s⟩ = s * (lval d : Int) := rfl

theorem val_pos_sign {a : big_integer} (h : a.sign = 1) : val a = (lval a.data_ : Int) := by
  unfold val; rw [h]; simp

theorem val_neg_sign {a : big_integer} (h : a.sign = -1) : val a = -(lval a.data_ : Int) := by
  unfold val; rw [h]; simp

theorem op_eq_iff {a b : big_integer} (ha : wf a) (hb : wf b) :
    op_eq a b = true ↔ val a = val b := by
  obtain ⟨hsa, hla, hta⟩ := ha
  obtain ⟨hsb, hlb, htb⟩ := hb
  unfold op_eq
  simp only [Bool.or_eq_true, Bool.and_eq_true, decide_eq_true_eq]
  rw [isZero_iff hta, isZero_iff htb]
  constructor
  · rintro (⟨h1, h2⟩ | ⟨h1, h2⟩)
    · unfold val; rw [h1, h2]; simp
    · unfold val; rw [h1, h2]
  · intro h
    by_cases hz : lval a.data_ = 0
    · left
      refine ⟨hz, ?_⟩
      rcases hsa with hsa | hsa <;> rcases hsb with hsb | hsb <;>
        simp only [val, hsa, hsb] at h <;> omega
    · right
      have key : a.sign = b.sign ∧ lval a.data_ = lval b.data_ := by
        rcases hsa with hsa | hsa <;> rcases hsb with hsb | hsb <;>
          simp only [val, hsa, hsb] at h <;> rw [hsa, hsb] <;> constructor <;> omega
      exact ⟨key.1, lval_inj_trimmed hla hlb hta htb key.2 hz⟩

theorem op_eq_false_iff {a b : big_integer} (ha : wf a) (hb : wf b) :
    op_eq a b = false ↔ val a ≠ val b := by
  rw [ne_eq, ← op_eq_iff ha hb]; simp

theorem op_lt_iff {a b : big_integer} (ha : wf a) (hb : wf b) :
    op_lt a b = true ↔ val a < val b := by
  have heq := op_eq_iff ha hb
  obtain ⟨hsa, hla, hta⟩ := ha
  obtain ⟨hsb, hlb, htb⟩ := hb
  have hza := isZero_iff hta
  have hzb := isZero_iff htb
  unfold op_lt
  by_cases hz : (isZero a && isZero b) = true
  · rw [if_pos hz]
    simp only [Bool.and_eq_true] at hz
    have h1 := hza.mp hz.1
    have h2 := hzb.mp hz.2
    unfold val; rw [h1, h2]; simp
  · rw [if_neg hz]
    simp only [Bool.and_eq_true, hza, hzb] at hz
    by_cases hsg : a.sign ≠ b.sign
    · rw [if_pos hsg]
      rcases hsa with hsa | hsa <;> rcases hsb with hsb | hsb <;>
        simp only [val, hsa, hsb, decide_eq_true_eq] at hsg ⊢ <;> omega
    · rw [if_neg hsg]
      simp only [ne_eq, not_not] at hsg
      by_cases he : op_eq a b = true
      · rw [if_pos he]
        have := heq.mp he
        simp only [Bool.false_eq_true, false_iff]
        omega
      · rw [if_neg he]
        have hne : val a ≠ val b := fun h => he (heq.mpr h)
        by_cases hlen : a.data_.length ≠ b.data_.length
        · rw [if_pos hlen]
          rcases Nat.lt_or_gt_of_ne hlen with hl | hl
          · have hlt := lval_lt_of_length_lt hla htb hl hz
            rcases hsa with hsa | hsa
            · have hsb' : b.sign = 1 := by rw [← hsg, hsa]
              simp only [val, hsa, hsb']
              have : ¬ (a.data_.length > b.data_.length) := by omega
              simp [this]
              omega
            · have hsb' : b.sign = -1 := by rw [← hsg, hsa]
              simp only [val, hsa, hsb']
              have : ¬ (a.data_.length > b.data_.length) := by omega
              simp [this]
              omega
          · have hlt := lval_lt_of_length_lt hlb hta hl (fun h => hz ⟨h.2, h.1⟩)
            rcases hsa with hsa | hsa
            · have hsb' : b.sign = 1 := by rw [← hsg, hsa]
              simp only [val, hsa, hsb']
              have : (a.data_.length > b.data_.length) := hl
              simp [this]
              omega
            · have hsb' : b.sign = -1 := by rw [← hsg, hsa]
              simp only [val, hsa, hsb']
              have : (a.data_.length > b.data_.length) := hl
              simp [this]
              omega
        · rw [if_neg hlen]
          simp only [ne_eq, not_not] at hlen
          rw [lexicographical_compare_lval _ _ hlen hla hlb]
          rcases hsa with hsa | hsa
          · have hsb' : b.sign = 1 := by rw [← hsg, hsa]
            simp only [val, hsa, hsb'] at hne ⊢
            simp
          · have hsb' : b.sign = -1 := by rw [← hsg, hsa]
            simp only [val, hsa, hsb'] at hne ⊢
            simp
            omega

theorem op_lt_false_iff {a b : big_integer} (ha : wf a) (hb : wf b) :
    op_lt a b = false ↔ val b ≤ val a := by
  have := op_lt_iff ha hb
  constructor
  · intro h
    by_contra hc
    rw [this.mpr (by omega)] at h
    exact Bool.noConfusion h
  · intro h
    cases hh : op_lt a b
    · rfl
    · have := this.mp hh; omega

theorem op_gt_iff {a b : big_integer} (ha : wf a) (hb : wf b) :
    op_gt a b = true ↔ val b < val a := op_lt_iff hb ha

theorem op_ge_iff {a b : big_integer} (ha : wf a) (hb : wf b) :
    op_ge a b = true ↔ val b ≤ val a := by
  unfold op_ge
  rw [Bool.not_eq_true', op_lt_false_iff ha hb]

theorem wf_mk0 : wf mk0 := by decide

theorem wf_of_int_zero : wf (of_int 0) := by decide

theorem val_of_int_zero : val (of_int 0) = 0 := by decide

/-- Assigning a non-zero value always stores exactly that value. -/
theorem op_assign_of_not_isZero (self other : big_integer) (h : isZero other = false) :
    op_assign self other = other := by
  unfold op_assign
  split
  · rename_i he
    unfold op_eq at he
    simp only [h, Bool.false_and, Bool.false_or, Bool.and_eq_true, decide_eq_true_eq] at he
    rcases self with ⟨d, s⟩
    rcases other with ⟨d', s'⟩
    simp only at he
    rw [he.1, he.2]
  · rfl

theorem op_assign_val {self other : big_integer} (h1 : wf self) (h2 : wf other) :
    val (op_assign self other) = val other := by
  unfold op_assign
  split
  · rename_i he
    exact ((op_eq_iff h2 h1).mp he).symm
  · rfl

theorem op_assign_wf {self other : big_integer} (h1 : wf self) (h2 : wf other) :
    wf (op_assign self other) := by
  unfold op_assign
  split
  · exact h1
  · exact h2

/-! ## Carry and borrow loops -/

theorem shr_BITS_COUNT (n : Nat) : n >>> BITS_COUNT = n / LIMIT := by
  rw [Nat.shiftRight_eq_div_pow]
  rfl

theorem lval_headD_tail (l : List Nat) : lval l = l.headD 0 + LIMIT * lval l.tail := by
  cases l with
  | nil => rfl
  | cons x xs => rfl

theorem limbs_ok_tail {l : List Nat} (h : limbs_ok l) : limbs_ok l.tail := by
  cases l with
  | nil => exact h
  | cons x xs => exact (limbs_ok_cons.mp h).2

theorem headD_lt {l : List Nat} (h : limbs_ok l) : l.headD 0 < LIMIT := by
  cases l with
  | nil => exact LIMIT_pos
  | cons x xs => exact (limbs_ok_cons.mp h).1

theorem addLoop_length (data rhs : List Nat) (c : Nat) :
    (addLoop data rhs c).length = data.length := by
  induction data generalizing rhs c with
  | nil => rfl
  | cons x ds ih => simp only [addLoop, List.length_cons, ih]

theorem addLoop_spec (data rhs : List Nat) (c : Nat) (hd : limbs_ok data) (hr : limbs_ok rhs)
    (hc : c ≤ 1) (h : lval data + lval rhs + c < LIMIT ^ data.length) :
    lval (addLoop data rhs c) = lval data + lval rhs + c ∧ limbs_ok (addLoop data rhs c) := by
  induction data generalizing rhs c with
  | nil =>
    simp only [List.length_nil, pow_zero, lval] at h
    simp only [addLoop, lval]
    exact ⟨by omega, limbs_ok_nil⟩
  | cons x ds ih =>
    rw [limbs_ok_cons] at hd
    have hy := headD_lt hr
    have hx := hd.1
    have e := lval_headD_tail rhs
    simp only [List.length_cons, pow_succ, lval_cons] at h
    simp only [addLoop, lval_cons, shr_BITS_COUNT]
    generalize hP : LIMIT ^ ds.length = P at h ih
    generalize rhs.headD 0 = y at *
    generalize hR : lval rhs.tail = R at *
    have hres : (x + y + c) % U64 = x + y + c := by
      simp only [LIMIT, U64] at *; omega
    rw [hres]
    have ih' := ih rhs.tail ((x + y + c) / LIMIT) hd.2 (limbs_ok_tail hr)
      (by simp only [LIMIT] at *; omega)
      (by rw [hR]; simp only [LIMIT] at *; omega)
    rw [hR] at ih'
    refine ⟨?_, limbs_ok_cons.mpr ⟨Nat.mod_lt _ LIMIT_pos, ih'.2⟩⟩
    rw [ih'.1]
    simp only [LIMIT] at *; omega

theorem subtractLoop_length (g : Bool) (data rhs : List Nat) (c : Nat) :
    (subtractLoop g data rhs c).length = data.length := by
  induction data generalizing rhs c with
  | nil => rfl
  | cons x ds ih => simp only [subtractLoop, List.length_cons, ih]

theorem borrow_flip (res : Nat) (h : res < 2 * LIMIT) :
    (res / LIMIT) ^^^ 1 = if res < LIMIT then 1 else 0 := by
  have : res / LIMIT = 0 ∨ res / LIMIT = 1 := by simp only [LIMIT] at *; omega
  rcases this with h0 | h1
  · rw [h0, if_pos (by simp only [LIMIT] at *; omega)]; rfl
  · rw [h1, if_neg (by simp only [LIMIT] at *; omega)]; rfl

/-- Borrow loop in the direction `data - rhs`. -/
theorem subtractLoop_false (data rhs : List Nat) (c : Nat) (hd : limbs_ok data)
    (hr : limbs_ok rhs) (hc : c ≤ 1) (h : lval rhs + c ≤ lval data) :
    lval (subtractLoop false data rhs c) + lval rhs + c = lval data ∧
      limbs_ok (subtractLoop false data rhs c) := by
  induction data generalizing rhs c with
  | nil =>
    simp only [lval] at h
    simp only [subtractLoop, lval]
    exact ⟨by omega, limbs_ok_nil⟩
  | cons x ds ih =>
    rw [limbs_ok_cons] at hd
    have hy := headD_lt hr
    have hx := hd.1
    have e := lval_headD_tail rhs
    simp only [lval_cons] at h
    simp only [subtractLoop, lval_cons, shr_BITS_COUNT, Bool.false_eq_true, if_false]
    generalize rhs.headD 0 = y at *
    generalize hR : lval rhs.tail = R at *
    have hres : ((LIMIT + x) % U64 + U64 - (c + y) % U64) % U64 = LIMIT + x - (c + y) := by
      simp only [LIMIT, U64] at *; omega
    rw [hres, borrow_flip _ (by simp only [LIMIT] at *; omega)]
    by_cases hlt : LIMIT + x - (c + y) < LIMIT
    · rw [if_pos hlt]
      have ih' := ih rhs.tail 1 hd.2 (limbs_ok_tail hr) (le_refl 1)
        (by rw [hR]; simp only [LIMIT] at *; omega)
      rw [hR] at ih'
      refine ⟨?_, limbs_ok_cons.mpr ⟨Nat.mod_lt _ LIMIT_pos, ih'.2⟩⟩
      have ih1 := ih'.1
      simp only [LIMIT] at *; omega
    · rw [if_neg hlt]
      have ih' := ih rhs.tail 0 hd.2 (limbs_ok_tail hr) (Nat.zero_le 1)
        (by rw [hR]; simp only [LIMIT] at *; omega)
      rw [hR] at ih'
      refine ⟨?_, limbs_ok_cons.mpr ⟨Nat.mod_lt _ LIMIT_pos, ih'.2⟩⟩
      have ih1 := ih'.1
      simp only [LIMIT] at *; omega

/-- Borrow loop in the direction `rhs - data` (the `greater` branch). -/
theorem subtractLoop_true (data rhs : List Nat) (c : Nat) (hd : limbs_ok data)
    (hr : limbs_ok rhs) (hc : c ≤ 1) (hlen : rhs.length ≤ data.length)
    (h : lval data + c ≤ lval rhs) :
    lval (subtractLoop true data rhs c) + lval data + c = lval rhs ∧
      limbs_ok (subtractLoop true data rhs c) := by
  induction data generalizing rhs c with
  | nil =>
    have : rhs = [] := List.length_eq_zero.mp (by simpa using hlen)
    subst this
    simp only [lval] at h
    simp only [subtractLoop, lval]
    exact ⟨by omega, limbs_ok_nil⟩
  | cons x ds ih =>
    rw [limbs_ok_cons] at hd
    have hy := headD_lt hr
    have hx := hd.1
    have e := lval_headD_tail rhs
    have hlen' : rhs.tail.length ≤ ds.length := by
      simp only [List.length_tail, List.length_cons] at hlen ⊢; omega
    simp only [lval_cons] at h
    simp only [subtractLoop, lval_cons, shr_BITS_COUNT, if_true]
    generalize rhs.headD 0 = y at *
    generalize hR : lval rhs.tail = R at *
    have hres : ((LIMIT + y) % U64 + U64 - (c + x) % U64) % U64 = LIMIT + y - (c + x) := by
      simp only [LIMIT, U64] at *; omega
    rw [hres, borrow_flip _ (by simp only [LIMIT] at *; omega)]
    by_cases hlt : LIMIT + y - (c + x) < LIMIT
    · rw [if_pos hlt]
      have ih' := ih rhs.tail 1 hd.2 (limbs_ok_tail hr) (le_refl 1) hlen'
        (by rw [hR]; simp only [LIMIT] at *; omega)
      rw [hR] at ih'
      refine ⟨?_, limbs_ok_cons.mpr ⟨Nat.mod_lt _ LIMIT_pos, ih'.2⟩⟩
      have ih1 := ih'.1
      simp only [LIMIT] at *; omega
    · rw [if_neg hlt]
      have ih' := ih rhs.tail 0 hd.2 (limbs_ok_tail hr) (Nat.zero_le 1) hlen'
        (by rw [hR]; simp only [LIMIT] at *; omega)
      rw [hR] at ih'
      refine ⟨?_, limbs_ok_cons.mpr ⟨Nat.mod_lt _ LIMIT_pos, ih'.2⟩⟩
      have ih1 := ih'.1
      simp only [LIMIT] at *; omega

/-! ## Addition and subtraction -/

theorem lval_pad (l : List Nat) (n : Nat) : lval (l ++ List.replicate n 0) = lval l := by
  rw [lval_append, lval_replicate_zero]; simp

theorem limbs_ok_pad {l : List Nat} (h : limbs_ok l) (n : Nat) :
    limbs_ok (l ++ List.replicate n 0) :=
  limbs_ok_append.mpr ⟨h, limbs_ok_replicate_zero n⟩

theorem wf_with_sign {a : big_integer} (ha : wf a) {s : Int} (hs : s = 1 ∨ s = -1) :
    wf { a with sign := s } := ⟨hs, ha.2.1, ha.2.2⟩

/-- The flag `greater` of `subtract` says that the receiver has the smaller
magnitude. -/
theorem subtract_greater_iff {a rhs : big_integer} (ha : wf a) (hr : wf rhs) :
    ((decide (rhs.sign = 1) && op_lt { a with sign := rhs.sign } rhs) ||
      (decide (rhs.sign = -1) && op_gt { a with sign := rhs.sign } rhs)) = true ↔
      lval a.data_ < lval rhs.data_ := by
  have ha1 : wf { a with sign := rhs.sign } := wf_with_sign ha hr.1
  have h1 := op_lt_iff ha1 hr
  have h2 := op_gt_iff ha1 hr
  simp only [Bool.or_eq_true, Bool.and_eq_true, decide_eq_true_eq, h1, h2]
  rcases hr.1 with hs | hs
  · simp only [val, hs]
    constructor
    · rintro (⟨_, h⟩ | ⟨h, _⟩)
      · omega
      · omega
    · intro h; left; exact ⟨trivial, by omega⟩
  · simp only [val, hs]
    constructor
    · rintro (⟨h, _⟩ | ⟨_, h⟩)
      · omega
      · omega
    · intro h; right; exact ⟨trivial, by omega⟩

theorem subtract_spec {a rhs : big_integer} (ha : wf a) (hr : wf rhs) :
    wf (subtract a rhs) ∧
    (lval rhs.data_ ≤ lval a.data_ →
      (subtract a rhs).sign = a.sign ∧
        lval (subtract a rhs).data_ + lval rhs.data_ = lval a.data_) ∧
    (lval a.data_ < lval rhs.data_ →
      (subtract a rhs).sign = rhs.sign ∧
        lval (subtract a rhs).data_ + lval a.data_ = lval rhs.data_) := by
  have hg := subtract_greater_iff ha hr
  unfold subtract
  simp only []
  generalize ((decide (rhs.sign = 1) && op_lt { a with sign := rhs.sign } rhs) ||
      (decide (rhs.sign = -1) && op_gt { a with sign := rhs.sign } rhs)) = g at hg ⊢
  have hpad := limbs_ok_pad ha.2.1 (max a.data_.length rhs.data_.length + 1 - a.data_.length)
  have hlv := lval_pad a.data_ (max a.data_.length rhs.data_.length + 1 - a.data_.length)
  have hlen : rhs.data_.length ≤
      (a.data_ ++ List.replicate (max a.data_.length rhs.data_.length + 1 - a.data_.length) 0).length := by
    simp only [List.length_append, List.length_replicate]; omega
  generalize a.data_ ++ List.replicate (max a.data_.length rhs.data_.length + 1 - a.data_.length) 0
    = data at hpad hlv hlen ⊢
  cases g with
  | false =>
    have hge : lval rhs.data_ ≤ lval a.data_ := by
      by_contra hc
      have := hg.mpr (by omega)
      exact Bool.noConfusion this
    have hs := subtractLoop_false data rhs.data_ 0 hpad hr.2.1 (Nat.zero_le 1) (by omega)
    simp only [Bool.false_eq_true, if_false]
    refine ⟨deleteLeadingZeroes_wf ha.1 hs.2, ?_, ?_⟩
    · intro _
      refine ⟨rfl, ?_⟩
      rw [deleteLeadingZeroes_lval]
      have := hs.1
      simp only at this ⊢
      omega
    · intro h; omega
  | true =>
    have hlt : lval a.data_ < lval rhs.data_ := hg.mp rfl
    have hs := subtractLoop_true data rhs.data_ 0 hpad hr.2.1 (Nat.zero_le 1) hlen (by omega)
    simp only [if_true]
    refine ⟨deleteLeadingZeroes_wf hr.1 hs.2, ?_, ?_⟩
    · intro h; omega
    · intro _
      refine ⟨rfl, ?_⟩
      rw [deleteLeadingZeroes_lval]
      have := hs.1
      simp only at this ⊢
      omega

theorem pow_max_bound {xs ys : List Nat} (hx : limbs_ok xs) (hy : limbs_ok ys) :
    lval xs + lval ys < LIMIT ^ (max xs.length ys.length + 1) := by
  have h1 := lval_lt hx
  have h2 := lval_lt hy
  have h3 : LIMIT ^ xs.length ≤ LIMIT ^ max xs.length ys.length :=
    Nat.pow_le_pow_right LIMIT_pos (le_max_left _ _)
  have h4 : LIMIT ^ ys.length ≤ LIMIT ^ max xs.length ys.length :=
    Nat.pow_le_pow_right LIMIT_pos (le_max_right _ _)
  rw [pow_succ]
  generalize LIMIT ^ max xs.length ys.length = P at *
  simp only [LIMIT] at *
  omega

theorem op_add_assign_same_sign {a rhs : big_integer} (ha : wf a) (hr : wf rhs)
    (hs : a.sign = rhs.sign) :
    wf (op_add_assign a rhs) ∧ (op_add_assign a rhs).sign = a.sign ∧
      lval (op_add_assign a rhs).data_ = lval a.data_ + lval rhs.data_ := by
  unfold op_add_assign
  rw [if_pos hs]
  simp only []
  have hpad := limbs_ok_pad ha.2.1 (max a.data_.length rhs.data_.length + 1 - a.data_.length)
  have hlv := lval_pad a.data_ (max a.data_.length rhs.data_.length + 1 - a.data_.length)
  have hlen : (a.data_ ++ List.replicate
      (max a.data_.length rhs.data_.length + 1 - a.data_.length) 0).length =
      max a.data_.length rhs.data_.length + 1 := by
    simp only [List.length_append, List.length_replicate]; omega
  have hb := pow_max_bound ha.2.1 hr.2.1
  generalize a.data_ ++ List.replicate (max a.data_.length rhs.data_.length + 1 - a.data_.length) 0
    = data at hpad hlv hlen ⊢
  have hs := addLoop_spec data rhs.data_ 0 hpad hr.2.1 (Nat.zero_le 1)
    (by rw [hlen, hlv]; omega)
  refine ⟨deleteLeadingZeroes_wf ha.1 hs.2, rfl, ?_⟩
  rw [deleteLeadingZeroes_lval]
  have := hs.1
  simp only at this ⊢
  omega

theorem op_add_assign_spec {a rhs : big_integer} (ha : wf a) (hr : wf rhs) :
    wf (op_add_assign a rhs) ∧ val (op_add_assign a rhs) = val a + val rhs := by
  by_cases hs : a.sign = rhs.sign
  · obtain ⟨h1, h2, h3⟩ := op_add_assign_same_sign ha hr hs
    refine ⟨h1, ?_⟩
    unfold val
    rw [h2, h3, ← hs]
    push_cast; ring
  · have e : op_add_assign a rhs = subtract a rhs := by
      unfold op_add_assign; rw [if_neg hs]
    rw [e]
    obtain ⟨h1, h2, h3⟩ := subtract_spec ha hr
    refine ⟨h1, ?_⟩
    by_cases hc : lval rhs.data_ ≤ lval a.data_
    · obtain ⟨e1, e2⟩ := h2 hc
      unfold val; rw [e1]
      rcases ha.1 with hsa | hsa <;> rcases hr.1 with hsr | hsr <;>
        simp only [hsa, hsr] at hs ⊢ <;> first | omega | exact absurd trivial hs
    · obtain ⟨e1, e2⟩ := h3 (by omega)
      unfold val; rw [e1]
      rcases ha.1 with hsa | hsa <;> rcases hr.1 with hsr | hsr <;>
        simp only [hsa, hsr] at hs ⊢ <;> first | omega | exact absurd trivial hs

theorem op_sub_assign_spec {a rhs : big_integer} (ha : wf a) (hr : wf rhs) :
    wf (op_sub_assign a rhs) ∧ val (op_sub_assign a rhs) = val a - val rhs := by
  unfold op_sub_assign
  by_cases hs : a.sign = rhs.sign
  · rw [if_pos hs]
    simp only []
    obtain ⟨h1, h2, h3⟩ := subtract_spec ha hr
    have hgt := op_gt_iff ha hr
    constructor
    · refine ⟨?_, h1.2.1, h1.2.2⟩
      simp only []
      split <;> simp
    · by_cases hc : lval rhs.data_ ≤ lval a.data_
      · obtain ⟨e1, e2⟩ := h2 hc
        by_cases hg : op_gt a rhs = true
        · have hv := hgt.mp hg
          rw [if_pos hg]
          rcases ha.1 with hsa | hsa <;>
            simp only [val, hsa, ← hs] at hv ⊢ <;> omega
        · have hv : ¬ (val rhs < val a) := fun h => hg (hgt.mpr h)
          rw [if_neg hg]
          rcases ha.1 with hsa | hsa <;>
            simp only [val, hsa, ← hs] at hv ⊢ <;> omega
      · obtain ⟨e1, e2⟩ := h3 (by omega)
        by_cases hg : op_gt a rhs = true
        · have hv := hgt.mp hg
          rw [if_pos hg]
          rcases ha.1 with hsa | hsa <;>
            simp only [val, hsa, ← hs] at hv ⊢ <;> omega
        · have hv : ¬ (val rhs < val a) := fun h => hg (hgt.mpr h)
          rw [if_neg hg]
          rcases ha.1 with hsa | hsa <;>
            simp only [val, hsa, ← hs] at hv ⊢ <;> omega
  · rw [if_neg hs]
    simp only []
    have ha1 : wf { a with sign := rhs.sign } := wf_with_sign ha hr.1
    obtain ⟨h1, h2, h3⟩ := op_add_assign_same_sign ha1 hr rfl
    constructor
    · refine ⟨?_, h1.2.1, h1.2.2⟩
      simp only []
      split <;> simp
    · simp only at h3
      unfold val
      simp only []
      rw [h3]
      rcases ha.1 with hsa | hsa <;> rcases hr.1 with hsr | hsr <;>
        simp only [hsa, hsr] at hs ⊢ <;>
        first | (exact absurd trivial hs) | (simp; omega) | (push_cast; omega)

/-! ## Multiplication by a scalar and left shift -/

theorem mulByConstLoop_spec (rhs : Nat) (data : List Nat) (c : Nat) (hd : limbs_ok data)
    (hr : rhs < LIMIT) (hc : c < LIMIT) (h : lval data * rhs + c < LIMIT ^ data.length) :
    lval (mulByConstLoop rhs data c) = lval data * rhs + c ∧
      limbs_ok (mulByConstLoop rhs data c) := by
  induction data generalizing c with
  | nil =>
    simp only [List.length_nil, pow_zero, lval, Nat.zero_mul] at h
    simp only [mulByConstLoop, lval]
    exact ⟨by omega, limbs_ok_nil⟩
  | cons x ds ih =>
    rw [limbs_ok_cons] at hd
    have hx := hd.1
    have e : lval (x :: ds) * rhs = x * rhs + LIMIT * (lval ds * rhs) := by
      rw [lval_cons]; ring
    rw [e] at h ⊢
    have hm : x * rhs ≤ (LIMIT - 1) * (LIMIT - 1) :=
      Nat.mul_le_mul (by omega) (by omega)
    simp only [List.length_cons, pow_succ] at h
    simp only [mulByConstLoop, lval_cons, shr_BITS_COUNT]
    generalize LIMIT ^ ds.length = P at h ih
    generalize x * rhs = m at *
    generalize hM : lval ds * rhs = M at *
    have hres : (m + c) % U64 = m + c := by
      simp only [LIMIT, U64] at *; omega
    rw [hres]
    have ih' := ih ((m + c) / LIMIT) hd.2 (by simp only [LIMIT] at *; omega)
      (by simp only [LIMIT] at *; omega)
    refine ⟨?_, limbs_ok_cons.mpr ⟨Nat.mod_lt _ LIMIT_pos, ih'.2⟩⟩
    rw [ih'.1]
    simp only [LIMIT] at *; omega

theorem mulByConst_spec {a : big_integer} (hs : a.sign = 1 ∨ a.sign = -1)
    (hl : limbs_ok a.data_) {rhs : Nat} (hr : rhs < LIMIT) :
    wf (mulByConst a rhs) ∧ (mulByConst a rhs).sign = a.sign ∧
      lval (mulByConst a rhs).data_ = lval a.data_ * rhs := by
  unfold mulByConst
  have hl' : limbs_ok (a.data_ ++ [0]) :=
    limbs_ok_append.mpr ⟨hl, limbs_ok_cons.mpr ⟨LIMIT_pos, limbs_ok_nil⟩⟩
  have hv : lval (a.data_ ++ [0]) = lval a.data_ := by
    rw [lval_append]; simp [lval]
  have hb : lval (a.data_ ++ [0]) * rhs + 0 < LIMIT ^ (a.data_ ++ [0]).length := by
    rw [hv, List.length_append, List.length_singleton, pow_succ, Nat.add_zero]
    have h1 := lval_lt hl
    calc lval a.data_ * rhs ≤ lval a.data_ * LIMIT := Nat.mul_le_mul_left _ (le_of_lt hr)
      _ < LIMIT ^ a.data_.length * LIMIT := Nat.mul_lt_mul_of_pos_right h1 LIMIT_pos
  have hs' := mulByConstLoop_spec rhs (a.data_ ++ [0]) 0 hl' hr LIMIT_pos hb
  refine ⟨deleteLeadingZeroes_wf hs hs'.2, rfl, ?_⟩
  rw [deleteLeadingZeroes_lval]
  have := hs'.1
  simp only at this ⊢
  rw [this, hv]; rfl

theorem lval_replicate_append (n : Nat) (l : List Nat) :
    lval (List.replicate n 0 ++ l) = LIMIT ^ n * lval l := by
  rw [lval_append, lval_replicate_zero, List.length_replicate]; simp

theorem limbs_ok_replicate_append {l : List Nat} (h : limbs_ok l) (n : Nat) :
    limbs_ok (List.replicate n 0 ++ l) :=
  limbs_ok_append.mpr ⟨limbs_ok_replicate_zero n, h⟩

theorem one_shl_mod (r : Nat) (hr : r < BITS_COUNT) : (1 <<< r) % LIMIT = 2 ^ r := by
  rw [Nat.one_shiftLeft]
  apply Nat.mod_eq_of_lt
  calc 2 ^ r < 2 ^ BITS_COUNT := Nat.pow_lt_pow_right (by decide) hr
    _ = LIMIT := rfl

theorem two_pow_split (n : Nat) : LIMIT ^ (n / BITS_COUNT) * 2 ^ (n % BITS_COUNT) = 2 ^ n := by
  have : LIMIT = 2 ^ BITS_COUNT := rfl
  rw [this, ← pow_mul, ← pow_add, Nat.div_add_mod]

theorem op_shl_assign_spec {a : big_integer} (hs : a.sign = 1 ∨ a.sign = -1)
    (hl : limbs_ok a.data_) (rhs : Nat) (hr : rhs / BITS_COUNT < LIMIT) :
    wf (op_shl_assign a rhs) ∧ (op_shl_assign a rhs).sign = a.sign ∧
      lval (op_shl_assign a rhs).data_ = lval a.data_ * 2 ^ rhs := by
  unfold op_shl_assign
  simp only []
  rw [Nat.mod_eq_of_lt hr, one_shl_mod _ (Nat.mod_lt _ (by decide))]
  have hlt : 2 ^ (rhs % BITS_COUNT) < LIMIT := by
    calc 2 ^ (rhs % BITS_COUNT) < 2 ^ BITS_COUNT :=
          Nat.pow_lt_pow_right (by decide) (Nat.mod_lt _ (by decide))
      _ = LIMIT := rfl
  have h := @mulByConst_spec
    { a with data_ := List.replicate (rhs / BITS_COUNT) 0 ++ a.data_ } hs
    (limbs_ok_replicate_append hl _) _ hlt
  refine ⟨h.1, h.2.1, ?_⟩
  rw [h.2.2]
  simp only []
  rw [lval_replicate_append, Nat.mul_comm (LIMIT ^ _), Nat.mul_assoc, two_pow_split]

/-! ## Division by a scalar and right shift -/

theorem divByConstLoop_spec (rhs : Nat) (data : List Nat) (hd : limbs_ok data)
    (h0 : 0 < rhs) (hr : rhs ≤ LIMIT) :
    lval (divByConstLoop rhs data).1 * rhs + (divByConstLoop rhs data).2 = lval data ∧
      (divByConstLoop rhs data).2 < rhs ∧ limbs_ok (divByConstLoop rhs data).1 := by
  induction data with
  | nil => simp only [divByConstLoop, lval]; exact ⟨by omega, h0, limbs_ok_nil⟩
  | cons x ds ih =>
    rw [limbs_ok_cons] at hd
    obtain ⟨ih1, ih2, ih3⟩ := ih hd.2
    have hx := hd.1
    simp only [divByConstLoop, lval_cons]
    generalize (divByConstLoop rhs ds).2 = c at *
    generalize (divByConstLoop rhs ds).1 = ds1 at *
    have hcb : c * LIMIT ≤ (rhs - 1) * LIMIT := Nat.mul_le_mul_right _ (by omega)
    have hrb : (rhs - 1) * LIMIT + LIMIT = rhs * LIMIT := by
      rw [← Nat.succ_mul]; congr 1; omega
    have hrr : rhs * LIMIT ≤ LIMIT * LIMIT := Nat.mul_le_mul_right _ hr
    have hcurr : (x + (c * LIMIT) % U64) % U64 = x + c * LIMIT := by
      generalize c * LIMIT = cl at *
      generalize (rhs - 1) * LIMIT = t at *
      generalize rhs * LIMIT = t2 at *
      simp only [LIMIT, U64] at *; omega
    rw [hcurr]
    have hq : (x + c * LIMIT) / rhs < LIMIT := by
      rw [Nat.div_lt_iff_lt_mul h0, Nat.mul_comm LIMIT rhs]
      omega
    rw [Nat.mod_eq_of_lt hq]
    refine ⟨?_, Nat.mod_lt _ h0, limbs_ok_cons.mpr ⟨hq, ih3⟩⟩
    have hdm := Nat.div_add_mod (x + c * LIMIT) rhs
    have e : ((x + c * LIMIT) / rhs + LIMIT * lval ds1) * rhs
        = rhs * ((x + c * LIMIT) / rhs) + LIMIT * (lval ds1 * rhs) := by ring
    rw [e]
    have e2 : LIMIT * lval ds = LIMIT * (lval ds1 * rhs) + c * LIMIT := by
      rw [← ih1]; ring
    omega

theorem divByConst_spec {a : big_integer} (hs : a.sign = 1 ∨ a.sign = -1)
    (hl : limbs_ok a.data_) {rhs : Nat} (h0 : 0 < rhs) (hr : rhs ≤ LIMIT) :
    wf (divByConst a rhs) ∧ (divByConst a rhs).sign = a.sign ∧
      lval (divByConst a rhs).data_ = lval a.data_ / rhs := by
  unfold divByConst
  obtain ⟨h1, h2, h3⟩ := divByConstLoop_spec rhs a.data_ hl h0 hr
  refine ⟨deleteLeadingZeroes_wf hs h3, rfl, ?_⟩
  rw [deleteLeadingZeroes_lval]
  simp only []
  symm
  apply Nat.div_eq_of_lt_le
  · rw [← h1]; omega
  · rw [← h1, Nat.succ_mul]; omega

theorem limbs_ok_drop {l : List Nat} (h : limbs_ok l) (n : Nat) : limbs_ok (l.drop n) :=
  fun x hx => h x (List.mem_of_mem_drop hx)

theorem limbs_ok_take {l : List Nat} (h : limbs_ok l) (n : Nat) : limbs_ok (l.take n) :=
  fun x hx => h x (List.mem_of_mem_take hx)

theorem lval_take_drop (l : List Nat) (n : Nat) (hn : n ≤ l.length) :
    lval l = lval (l.take n) + LIMIT ^ n * lval (l.drop n) := by
  conv_lhs => rw [← List.take_append_drop n l, lval_append]
  rw [List.length_take, Nat.min_eq_left hn]

theorem lval_drop {l : List Nat} (h : limbs_ok l) (n : Nat) :
    lval (l.drop n) = lval l / LIMIT ^ n := by
  by_cases hn : n ≤ l.length
  · have e := lval_take_drop l n hn
    have hlt := lval_lt (limbs_ok_take h n)
    rw [List.length_take, Nat.min_eq_left hn] at hlt
    rw [e, Nat.add_comm, Nat.mul_add_div (Nat.pow_pos LIMIT_pos), Nat.div_eq_of_lt hlt]
    simp
  · have hd : l.drop n = [] := List.drop_eq_nil_of_le (by omega)
    have hlt := lval_lt h
    have : LIMIT ^ l.length ≤ LIMIT ^ n := Nat.pow_le_pow_right LIMIT_pos (by omega)
    rw [hd, Nat.div_eq_of_lt (by omega)]; rfl

theorem isZero_nil_data (s : Int) : isZero ⟨[], s⟩ = true := rfl

/-- Right shift of a value whose stored sign is `+1`. -/
theorem op_shr_assign_pos {a : big_integer} (ha : wf a) (hs : a.sign = 1) (rhs : Nat)
    (hr : rhs / BITS_COUNT < LIMIT) :
    wf (op_shr_assign a rhs) ∧ (op_shr_assign a rhs).sign = 1 ∧
      lval (op_shr_assign a rhs).data_ = lval a.data_ / 2 ^ rhs := by
  unfold op_shr_assign
  simp only []
  have hmin : min (rhs / BITS_COUNT) a.data_.length % LIMIT = min (rhs / BITS_COUNT) a.data_.length :=
    Nat.mod_eq_of_lt (lt_of_le_of_lt (Nat.min_le_left _ _) hr)
  rw [hmin]
  by_cases he : (List.drop (min (rhs / BITS_COUNT) a.data_.length) a.data_).isEmpty = true
  · rw [if_pos he]
    have hnil : List.drop (min (rhs / BITS_COUNT) a.data_.length) a.data_ = [] :=
      List.isEmpty_iff.mp he
    rw [hnil]
    have hle : a.data_.length ≤ rhs / BITS_COUNT := by
      have := List.drop_eq_nil_iff.mp hnil
      omega
    have e : op_assign { a with data_ := ([] : List Nat) } mk0 = ⟨[], a.sign⟩ := by
      unfold op_assign op_eq; simp [isZero, mk0]
    rw [e]
    refine ⟨⟨Or.inl hs, limbs_ok_nil, Or.inl (Nat.zero_le 1)⟩, hs, ?_⟩
    have hlt := lval_lt ha.2.1
    have h1 : LIMIT ^ a.data_.length ≤ LIMIT ^ (rhs / BITS_COUNT) :=
      Nat.pow_le_pow_right LIMIT_pos hle
    have h2 : LIMIT ^ (rhs / BITS_COUNT) ≤ 2 ^ rhs := by
      rw [← two_pow_split rhs]
      exact Nat.le_mul_of_pos_right _ (Nat.pow_pos (by decide))
    rw [Nat.div_eq_of_lt (by omega)]; rfl
  · rw [if_neg he]
    have hn : rhs / BITS_COUNT < a.data_.length := by
      by_contra hc
      apply he
      rw [List.isEmpty_iff, List.drop_eq_nil_iff]
      omega
    rw [Nat.min_eq_left (le_of_lt hn)]
    rw [one_shl_mod _ (Nat.mod_lt _ (by decide))]
    have hlt : 2 ^ (rhs % BITS_COUNT) ≤ LIMIT := by
      apply le_of_lt
      calc 2 ^ (rhs % BITS_COUNT) < 2 ^ BITS_COUNT :=
            Nat.pow_lt_pow_right (by decide) (Nat.mod_lt _ (by decide))
        _ = LIMIT := rfl
    have h := @divByConst_spec { a with data_ := a.data_.drop (rhs / BITS_COUNT) }
      (Or.inl hs) (limbs_ok_drop ha.2.1 _) _ (Nat.pow_pos (by decide)) hlt
    have hsg : (divByConst { a with data_ := a.data_.drop (rhs / BITS_COUNT) }
        (2 ^ (rhs % BITS_COUNT))).sign = 1 := by rw [h.2.1]; exact hs
    rw [if_neg (by rw [hsg]; decide)]
    refine ⟨h.1, hsg, ?_⟩
    rw [h.2.2]
    simp only []
    rw [lval_drop ha.2.1, Nat.div_div_eq_div_mul, two_pow_split]

/-! ## In-place updates and the inner product loop -/

theorem lval_set (l : List Nat) (i v : Nat) (h : i < l.length) :
    lval (l.set i v) + l.getD i 0 * LIMIT ^ i = lval l + v * LIMIT ^ i := by
  induction l generalizing i with
  | nil => simp at h
  | cons x xs ih =>
    cases i with
    | zero => simp only [List.set_cons_zero, lval_cons, List.getD_cons_zero, pow_zero]; omega
    | succ i =>
      simp only [List.length_cons, Nat.add_lt_add_iff_right] at h
      have := ih i h
      simp only [List.set_cons_succ, lval_cons, List.getD_cons_succ, pow_succ]
      have e1 : xs.getD i 0 * (LIMIT ^ i * LIMIT) = LIMIT * (xs.getD i 0 * LIMIT ^ i) := by ring
      have e2 : v * (LIMIT ^ i * LIMIT) = LIMIT * (v * LIMIT ^ i) := by ring
      rw [e1, e2]
      generalize xs.getD i 0 * LIMIT ^ i = t1 at *
      generalize v * LIMIT ^ i = t2 at *
      simp only [LIMIT] at *
      omega

theorem limbs_ok_set {l : List Nat} (h : limbs_ok l) (i : Nat) {v : Nat} (hv : v < LIMIT) :
    limbs_ok (l.set i v) := by
  intro x hx
  rcases List.mem_or_eq_of_mem_set hx with h1 | h1
  · exact h x h1
  · rw [h1]; exact hv

theorem getD_lt {l : List Nat} (h : limbs_ok l) (i : Nat) : l.getD i 0 < LIMIT := by
  induction l generalizing i with
  | nil => simp
  | cons x xs ih =>
    rw [limbs_ok_cons] at h
    cases i with
    | zero => simpa using h.1
    | succ i => simpa using ih h.2 i

theorem getD_set_ne (l : List Nat) (i k v : Nat) (h : k ≠ i) :
    (l.set i v).getD k 0 = l.getD k 0 := by
  induction l generalizing i k with
  | nil => simp
  | cons x xs ih =>
    cases i with
    | zero =>
      cases k with
      | zero => exact absurd rfl h
      | succ k => simp
    | succ i =>
      cases k with
      | zero => simp
      | succ k => simpa using ih i k (by omega)

theorem getD_set_eq (l : List Nat) (i v : Nat) (h : i < l.length) :
    (l.set i v).getD i 0 = v := by
  induction l generalizing i with
  | nil => simp at h
  | cons x xs ih =>
    cases i with
    | zero => simp
    | succ i => simpa using ih i (by simpa using h)

theorem lval_take_succ (l : List Nat) (i : Nat) (h : i < l.length) :
    lval (l.take (i + 1)) = lval (l.take i) + l.getD i 0 * LIMIT ^ i := by
  induction l generalizing i with
  | nil => simp at h
  | cons x xs ih =>
    cases i with
    | zero => simp [lval_cons, lval]
    | succ i =>
      have := ih i (by simpa using h)
      simp only [List.take_succ_cons, lval_cons, List.getD_cons_succ, this, pow_succ]
      ring

theorem lval_drop_succ (l : List Nat) (i : Nat) :
    lval (l.drop i) = l.getD i 0 + LIMIT * lval (l.drop (i + 1)) := by
  induction l generalizing i with
  | nil => simp [lval]
  | cons x xs ih =>
    cases i with
    | zero => simp [lval_cons]
    | succ i => simpa using ih i

theorem mulInner_spec (m i : Nat) (rs : List Nat) (j : Nat) (data : List Nat) (carry : Nat)
    (hm : m < LIMIT) (hrs : limbs_ok rs) (hd : limbs_ok data) (hc : carry < LIMIT)
    (hlen : i + j + rs.length ≤ data.length) :
    (mulInner m i rs j data carry).1.length = data.length ∧
    limbs_ok (mulInner m i rs j data carry).1 ∧
    (mulInner m i rs j data carry).2 < LIMIT ∧
    lval (mulInner m i rs j data carry).1
        + (mulInner m i rs j data carry).2 * LIMIT ^ (i + j + rs.length)
      = lval data + (m * lval rs + carry) * LIMIT ^ (i + j) ∧
    (∀ k, i + j + rs.length ≤ k → (mulInner m i rs j data carry).1.getD k 0 = data.getD k 0) := by
  induction rs generalizing j data carry with
  | nil =>
    refine ⟨rfl, hd, hc, ?_, fun _ _ => rfl⟩
    simp only [mulInner, lval, List.length_nil, Nat.add_zero, Nat.mul_zero, Nat.zero_add]
  | cons r rs ih =>
    rw [limbs_ok_cons] at hrs
    simp only [List.length_cons] at hlen
    have hdl := getD_lt hd (i + j)
    have hmr : m * r ≤ (LIMIT - 1) * (LIMIT - 1) := Nat.mul_le_mul (by omega) (by omega)
    have hv : ((m * r) % U64 + (data.getD (i + j) 0 + carry) % U64) % U64
        = m * r + data.getD (i + j) 0 + carry := by
      generalize m * r = mr at *
      simp only [LIMIT, U64] at *; omega
    simp only [mulInner, hv, shr_BITS_COUNT]
    have hc1 : (m * r + data.getD (i + j) 0 + carry) / LIMIT < LIMIT := by
      generalize m * r = mr at *
      simp only [LIMIT] at *; omega
    obtain ⟨h1, h2, h3, h4, h5⟩ := ih (j + 1)
      (data.set (i + j) ((m * r + data.getD (i + j) 0 + carry) % LIMIT))
      ((m * r + data.getD (i + j) 0 + carry) / LIMIT) hrs.2
      (limbs_ok_set hd _ (Nat.mod_lt _ LIMIT_pos)) hc1
      (by rw [List.length_set]; omega)
    have hset := lval_set data (i + j) ((m * r + data.getD (i + j) 0 + carry) % LIMIT)
      (by omega)
    have hdm := Nat.mod_add_div (m * r + data.getD (i + j) 0 + carry) LIMIT
    generalize mulInner m i rs (j + 1)
      (data.set (i + j) ((m * r + data.getD (i + j) 0 + carry) % LIMIT))
      ((m * r + data.getD (i + j) 0 + carry) / LIMIT) = res at *
    refine ⟨by rw [h1, List.length_set], h2, h3, ?_, ?_⟩
    · rw [lval_cons, List.length_cons]
      generalize (m * r + data.getD (i + j) 0 + carry) % LIMIT = vm at *
      generalize (m * r + data.getD (i + j) 0 + carry) / LIMIT = c1 at *
      zify at h4 hset hdm ⊢
      linear_combination h4 + hset + (4294967296 : ℤ) ^ (i + j) * hdm
    · intro k hk
      simp only [List.length_cons] at hk
      rw [h5 k (by omega), getD_set_ne _ _ _ _ (by omega)]

/-! ## Multiplication -/

theorem mulOuter_spec (a rhs : List Nat) (n i : Nat) (data : List Nat)
    (ha : limbs_ok a) (hr : limbs_ok rhs) (hd : limbs_ok data)
    (hlen : data.length = rhs.length + a.length) (hni : i + n = a.length)
    (hinv : lval data = lval (a.take i) * lval rhs + LIMIT ^ (rhs.length + i) * lval (a.drop i))
    (hpt : ∀ k, rhs.length + i ≤ k → data.getD k 0 = a.getD (k - rhs.length) 0) :
    lval (mulOuter rhs n i data) = lval a * lval rhs ∧ limbs_ok (mulOuter rhs n i data) := by
  induction n generalizing i data with
  | zero =>
    simp only [mulOuter]
    refine ⟨?_, hd⟩
    have e1 : a.take i = a := List.take_of_length_le (by omega)
    have e2 : a.drop i = [] := List.drop_eq_nil_of_le (by omega)
    rw [hinv, e1, e2]; simp [lval]
  | succ n ih =>
    have hmul : data.getD (rhs.length + i) 0 = a.getD i 0 := by
      rw [hpt _ (le_refl _)]; congr 1; omega
    have hai := getD_lt ha i
    have hset0 := lval_set data (rhs.length + i) 0 (by omega)
    have hd0 : limbs_ok (data.set (rhs.length + i) 0) := limbs_ok_set hd _ LIMIT_pos
    obtain ⟨h1, h2, h3, h4, h5⟩ := mulInner_spec (a.getD i 0) i rhs 0
      (data.set (rhs.length + i) 0) 0 hai hr hd0 LIMIT_pos
      (by rw [List.length_set]; omega)
    simp only [mulOuter, hmul]
    rcases hres : mulInner (a.getD i 0) i rhs 0 (data.set (rhs.length + i) 0) 0 with ⟨d1, c1⟩
    rw [hres] at h1 h2 h3 h4 h5
    simp only [] at h1 h2 h3 h4 h5 ⊢
    rw [List.length_set] at h1
    rw [Nat.mod_eq_of_lt h3]
    have hz : d1.getD (rhs.length + i) 0 = 0 := by
      rw [h5 _ (by omega), getD_set_eq _ _ _ (by omega)]
    have hset1 := lval_set d1 (rhs.length + i) c1 (by omega)
    rw [hz] at hset1
    apply ih (i + 1) (d1.set (rhs.length + i) c1) (limbs_ok_set h2 _ h3)
      (by rw [List.length_set]; omega) (by omega)
    · rw [lval_take_succ a i (by omega)]
      have e := lval_drop_succ a i
      rw [hmul] at hset0
      rw [e] at hinv
      simp only [Nat.add_zero, Nat.zero_mul] at h4 hset1 hset0
      have e3 : i + rhs.length = rhs.length + i := Nat.add_comm _ _
      rw [e3] at h4
      zify at h4 hset1 hset0 hinv ⊢
      linear_combination hset1 + h4 + hset0 + hinv
    · intro k hk
      rw [getD_set_ne _ _ _ _ (by omega), h5 k (by omega), getD_set_ne _ _ _ _ (by omega),
        hpt k (by omega)]

theorem getD_replicate_append (n : Nat) (l : List Nat) (k : Nat) (h : n ≤ k) :
    (List.replicate n 0 ++ l).getD k 0 = l.getD (k - n) 0 := by
  induction n generalizing k with
  | zero => simp
  | succ n ih =>
    cases k with
    | zero => omega
    | succ k =>
      rw [List.replicate_succ, List.cons_append, List.getD_cons_succ, ih k (by omega)]
      congr 1; omega

theorem op_mul_assign_spec {a rhs : big_integer} (ha : wf a) (hr : wf rhs) :
    wf (op_mul_assign a rhs) ∧ val (op_mul_assign a rhs) = val a * val rhs := by
  unfold op_mul_assign
  simp only []
  have hd : limbs_ok (List.replicate rhs.data_.length 0 ++ a.data_) :=
    limbs_ok_replicate_append ha.2.1 _
  have hn : (List.replicate rhs.data_.length 0 ++ a.data_).length - rhs.data_.length
      = a.data_.length := by
    simp
  rw [hn]
  obtain ⟨h1, h2⟩ := mulOuter_spec a.data_ rhs.data_ a.data_.length 0
    (List.replicate rhs.data_.length 0 ++ a.data_) ha.2.1 hr.2.1 hd (by simp) (by omega)
    (by simp [lval_replicate_append, lval])
    (fun k hk => getD_replicate_append _ _ _ (by omega))
  have hw := @deleteLeadingZeroes_wf
    ⟨mulOuter rhs.data_ a.data_.length 0 (List.replicate rhs.data_.length 0 ++ a.data_),
      a.sign⟩ ha.1 h2
  constructor
  · refine ⟨?_, hw.2.1, hw.2.2⟩
    simp only [deleteLeadingZeroes_sign]
    rcases ha.1 with h | h <;> rcases hr.1 with h' | h' <;> simp [h, h']
  · unfold val
    simp only [deleteLeadingZeroes_sign, deleteLeadingZeroes_lval, h1]
    push_cast; ring

/-! ## Normalisation and the correction loop -/

theorem normalizeLoop_sound (fuel back k0 k : Nat) (hb : back < LIMIT)
    (h : normalizeLoop fuel back k0 = some k) :
    k0 ≤ k ∧ back * 2 ^ (k - k0) < LIMIT ∧ LIMIT / 2 ≤ back * 2 ^ (k - k0) := by
  induction fuel generalizing back k0 with
  | zero => simp [normalizeLoop] at h
  | succ f ih =>
    unfold normalizeLoop at h
    split at h
    · rename_i hlt
      have e : (back <<< 1) % LIMIT = back * 2 := by
        rw [Nat.shiftLeft_eq, pow_one]
        apply Nat.mod_eq_of_lt
        simp only [LIMIT] at *; omega
      rw [e] at h
      obtain ⟨h1, h2, h3⟩ := ih (back * 2) (k0 + 1) (by simp only [LIMIT] at *; omega) h
      have e2 : back * 2 * 2 ^ (k - (k0 + 1)) = back * 2 ^ (k - k0) := by
        have : k - k0 = (k - (k0 + 1)) + 1 := by omega
        rw [this, pow_succ]; ring
      rw [e2] at h2 h3
      exact ⟨by omega, h2, h3⟩
    · rename_i hge
      simp only [Option.some.injEq] at h
      subst h
      simp only [Nat.sub_self, pow_zero, Nat.mul_one]
      exact ⟨le_refl _, hb, by omega⟩

theorem normalizeLoop_total (f back k0 : Nat) (hb : back < LIMIT)
    (h : LIMIT / 2 ≤ back * 2 ^ f) : ∃ k, normalizeLoop (f + 1) back k0 = some k := by
  induction f generalizing back k0 with
  | zero =>
    unfold normalizeLoop
    rw [if_neg (by simpa using h)]
    exact ⟨k0, rfl⟩
  | succ f ih =>
    unfold normalizeLoop
    split
    · rename_i hlt
      have e : (back <<< 1) % LIMIT = back * 2 := by
        rw [Nat.shiftLeft_eq, pow_one]
        apply Nat.mod_eq_of_lt
        simp only [LIMIT] at *; omega
      rw [e]
      apply ih
      · simp only [LIMIT] at *; omega
      · rw [pow_succ] at h
        calc LIMIT / 2 ≤ back * (2 ^ f * 2) := h
          _ = back * 2 * 2 ^ f := by ring
    · exact ⟨k0, rfl⟩

theorem normalizeLoop_total_of_pos (fuel back k0 : Nat) (hb : back < LIMIT) (h0 : 0 < back)
    (hf : BITS_COUNT ≤ fuel) : ∃ k, normalizeLoop fuel back k0 = some k := by
  obtain ⟨f, rfl⟩ : ∃ f, fuel = f + 1 := ⟨fuel - 1, by simp only [BITS_COUNT] at hf; omega⟩
  apply normalizeLoop_total f back k0 hb
  have h1 : 2 ^ 31 ≤ 2 ^ f := Nat.pow_le_pow_right (by decide) (by simp only [BITS_COUNT] at hf; omega)
  calc LIMIT / 2 = 1 * 2 ^ 31 := by decide
    _ ≤ back * 2 ^ f := Nat.mul_le_mul h0 h1

/-- A non-zero trimmed magnitude has a non-zero most significant limb. -/
theorem getLastD_ne_zero_of_not_isZero {a : big_integer} (ht : trimmed a.data_)
    (hz : isZero a = false) : a.data_.getLastD 0 ≠ 0 := by
  rcases a with ⟨d, s⟩
  match d, ht, hz with
  | [], _, hz => simp [isZero] at hz
  | [x], _, hz => simpa [isZero, List.getLastD] using hz
  | x :: y :: r, ht, _ =>
    rcases ht with ht | ht
    · simp at ht
    · exact ht

theorem getLastD_lt {l : List Nat} (h : limbs_ok l) : l.getLastD 0 < LIMIT := by
  by_cases hl : l = []
  · subst hl; exact LIMIT_pos
  · apply h
    rw [List.getLastD_eq_getLast?, List.getLast?_eq_getLast _ hl]
    exact List.getLast_mem hl

theorem lval_pos_of_not_isZero {a : big_integer} (ht : trimmed a.data_)
    (hz : isZero a = false) : 0 < lval a.data_ := by
  rcases Nat.eq_zero_or_pos (lval a.data_) with h | h
  · rw [isZero_of_lval_eq_zero ht h] at hz; exact Bool.noConfusion hz
  · exact h

theorem isZero_false_of_lval_pos {a : big_integer} (h : 0 < lval a.data_) :
    isZero a = false := by
  cases hz : isZero a
  · rfl
  · have := lval_eq_zero_of_isZero hz; omega

theorem normalize_sound {fuel : Nat} {b nb : big_integer} {k : Nat} (hb : wf b)
    (hz : isZero b = false) (h : normalize fuel b = some (nb, k)) :
    k < BITS_COUNT ∧ wf nb ∧ nb.sign = b.sign ∧ lval nb.data_ = lval b.data_ * 2 ^ k := by
  unfold normalize at h
  split at h
  · exact Option.noConfusion h
  · rename_i k' hk
    simp only [Option.some.injEq, Prod.mk.injEq] at h
    obtain ⟨h1, h2⟩ := h
    subst h2
    have hs := normalizeLoop_sound fuel _ 0 k' (getLastD_lt hb.2.1) hk
    simp only [Nat.sub_zero] at hs
    have hk32 : k' < BITS_COUNT := by
      by_contra hc
      have h32 : 2 ^ BITS_COUNT ≤ 2 ^ k' := Nat.pow_le_pow_right (by decide) (by omega)
      have hpos : 0 < b.data_.getLastD 0 :=
        Nat.pos_of_ne_zero (getLastD_ne_zero_of_not_isZero hb.2.2 hz)
      have : 1 * 2 ^ BITS_COUNT ≤ b.data_.getLastD 0 * 2 ^ k' := Nat.mul_le_mul hpos h32
      have e : (2 : Nat) ^ BITS_COUNT = LIMIT := rfl
      omega
    have hsp := op_shl_assign_spec hb.1 hb.2.1 k'
      (by simp only [BITS_COUNT, LIMIT] at *; omega)
    rw [← h1]
    exact ⟨hk32, hsp⟩

theorem normalize_total {fuel : Nat} {b : big_integer} (hb : wf b)
    (hz : isZero b = false) (hf : BITS_COUNT ≤ fuel) :
    ∃ nb k, normalize fuel b = some (nb, k) := by
  obtain ⟨k, hk⟩ := normalizeLoop_total_of_pos fuel (b.data_.getLastD 0) 0
    (getLastD_lt hb.2.1) (Nat.pos_of_ne_zero (getLastD_ne_zero_of_not_isZero hb.2.2 hz)) hf
  exact ⟨op_shl_assign b k, k, by unfold normalize; rw [hk]⟩

/-- Invariant of the correction loop: the result is non-negative and differs
from the start by the multiples of `copy_b` that were added back. -/
theorem correctLoop_sound (fuel : Nat) (ca cb : big_integer) (q : Nat) (ca' : big_integer)
    (q' : Nat) (hca : wf ca) (hcb : wf cb) (hq : q < LIMIT)
    (hlow : 0 ≤ val ca + q * val cb)
    (h : correctLoop fuel ca cb q = some (ca', q')) :
    wf ca' ∧ 0 ≤ val ca' ∧ q' ≤ q ∧ val ca' + q' * val cb = val ca + q * val cb := by
  induction fuel generalizing ca q with
  | zero => simp [correctLoop] at h
  | succ f ih =>
    unfold correctLoop at h
    split at h
    · rename_i hlt
      have hneg : val ca < 0 := by
        have := (op_lt_iff hca wf_of_int_zero).mp hlt
        rwa [val_of_int_zero] at this
      have hq1 : 1 ≤ q := by
        by_contra hc
        have : q = 0 := by omega
        subst this
        simp at hlow
        omega
      have e : (q + LIMIT - 1) % LIMIT = q - 1 := by
        simp only [LIMIT] at *; omega
      rw [e] at h
      obtain ⟨hw, hv⟩ := op_add_assign_spec hca hcb
      have hlow' : 0 ≤ val (op_add_assign ca cb) + ((q - 1 : Nat) : Int) * val cb := by
        rw [hv]
        have : ((q - 1 : Nat) : Int) = (q : Int) - 1 := by omega
        rw [this]
        linarith
      obtain ⟨h1, h2, h3, h4⟩ := ih (op_add_assign ca cb) (q - 1) hw (by omega) hlow' h
      refine ⟨h1, h2, by omega, ?_⟩
      rw [h4, hv]
      have : ((q - 1 : Nat) : Int) = (q : Int) - 1 := by omega
      rw [this]; ring
    · rename_i hge
      simp only [Option.some.injEq, Prod.mk.injEq] at h
      obtain ⟨e1, e2⟩ := h
      subst e1 e2
      have : ¬ (val ca < 0) := by
        intro hc
        apply hge
        apply (op_lt_iff hca wf_of_int_zero).mpr
        rwa [val_of_int_zero]
      exact ⟨hca, by omega, le_refl _, rfl⟩

theorem correctLoop_total (fuel : Nat) (ca cb : big_integer) (q : Nat)
    (hca : wf ca) (hcb : wf cb) (hq : q < LIMIT)
    (hlow : 0 ≤ val ca + q * val cb) (hf : q < fuel) :
    ∃ r, correctLoop fuel ca cb q = some r := by
  induction fuel generalizing ca q with
  | zero => omega
  | succ f ih =>
    unfold correctLoop
    split
    · rename_i hlt
      have hneg : val ca < 0 := by
        have := (op_lt_iff hca wf_of_int_zero).mp hlt
        rwa [val_of_int_zero] at this
      have hq1 : 1 ≤ q := by
        by_contra hc
        have : q = 0 := by omega
        subst this
        simp at hlow
        omega
      have e : (q + LIMIT - 1) % LIMIT = q - 1 := by
        simp only [LIMIT] at *; omega
      rw [e]
      obtain ⟨hw, hv⟩ := op_add_assign_spec hca hcb
      apply ih (op_add_assign ca cb) (q - 1) hw (by omega) _ (by omega)
      rw [hv]
      have : ((q - 1 : Nat) : Int) = (q : Int) - 1 := by omega
      rw [this]
      linarith
    · exact ⟨_, rfl⟩

/-! ## The main loop of divide -/

theorem getLastD_irrel {l : List Nat} (h : l ≠ []) (x y : Nat) : l.getLastD x = l.getLastD y := by
  cases l with
  | nil => exact absurd rfl h
  | cons a t => rw [List.getLastD_cons, List.getLastD_cons]

theorem getLastD_replicate_append (j : Nat) (d : List Nat) :
    (List.replicate j 0 ++ d).getLastD 0 = d.getLastD 0 := by
  induction j with
  | zero => simp
  | succ j ih =>
    rw [List.replicate_succ, List.cons_append, List.getLastD_cons]
    exact ih

/-- The divisor shifted up by `j` limbs, as built by
`copy_b.data_.insert(copy_b.data_.begin(), j, 0)`. -/
theorem shifted_divisor_spec {nb : big_integer} (hnb : wf nb) (hs : nb.sign = 1)
    (hz : isZero nb = false) (j : Nat) :
    wf { nb with data_ := List.replicate j 0 ++ nb.data_ } ∧
      val { nb with data_ := List.replicate j 0 ++ nb.data_ }
        = ((LIMIT ^ j * lval nb.data_ : Nat) : Int) := by
  have hl := getLastD_ne_zero_of_not_isZero hnb.2.2 hz
  refine ⟨⟨hnb.1, limbs_ok_replicate_append hnb.2.1 j, Or.inr ?_⟩, ?_⟩
  · simp only []
    rw [getLastD_replicate_append j]
    exact hl
  · unfold val
    simp only []
    rw [hs, lval_replicate_append]
    simp

theorem divideLoop_sound (fuel : Nat) (nb : big_integer) (hnb : wf nb) (hnbs : nb.sign = 1)
    (hnbz : isZero nb = false) (j : Nat) (ca cb quot ca' cb' quot' : big_integer)
    (hca : wf ca) (hpos : 0 ≤ val ca) (hq : limbs_ok quot.data_)
    (hj : j ≤ quot.data_.length) (hzero : ∀ i, i < j → quot.data_.getD i 0 = 0)
    (h : divideLoop fuel nb j ca cb quot = some (ca', cb', quot')) :
    wf ca' ∧ 0 ≤ val ca' ∧ limbs_ok quot'.data_ ∧ quot'.sign = quot.sign ∧
      quot'.data_.length = quot.data_.length ∧
      (lval quot'.data_ : Int) * lval nb.data_ + val ca'
        = (lval quot.data_ : Int) * lval nb.data_ + val ca := by
  induction j generalizing ca cb quot with
  | zero =>
    simp only [divideLoop, Option.some.injEq, Prod.mk.injEq] at h
    obtain ⟨e1, _, e3⟩ := h
    subst e1 e3
    exact ⟨hca, hpos, hq, rfl, rfl, rfl⟩
  | succ j ih =>
    simp only [divideLoop] at h
    rw [op_assign_of_not_isZero cb nb hnbz] at h
    generalize hqj : (min (if ca.data_.length > 1 then
        ((ca.data_.getLastD 0 * LIMIT) % U64
          + ca.data_.getD (ca.data_.length - 2) 0) % U64 / nb.data_.getLastD 0
      else 0) (LIMIT - 1)) % LIMIT = q_j at h
    have hqlt : q_j < LIMIT := by rw [← hqj]; exact Nat.mod_lt _ LIMIT_pos
    obtain ⟨hcbw, hcbv⟩ := shifted_divisor_spec hnb hnbs hnbz j
    obtain ⟨hmw, hms, hmv⟩ := mulByConst_spec hcbw.1 hcbw.2.1 hqlt
    obtain ⟨hsw, hsv⟩ := op_sub_assign_spec hca hmw
    have hmval : val (mulByConst { nb with data_ := List.replicate j 0 ++ nb.data_ } q_j)
        = (q_j : Int) * val { nb with data_ := List.replicate j 0 ++ nb.data_ } := by
      unfold val
      rw [hms, hmv]
      simp only []
      rw [hnbs]; push_cast; ring
    split at h
    · exact Option.noConfusion h
    · rename_i ca2 q2 hcorr
      have hlow : 0 ≤ val (op_sub_assign ca
            (mulByConst { nb with data_ := List.replicate j 0 ++ nb.data_ } q_j))
          + (q_j : Int) * val { nb with data_ := List.replicate j 0 ++ nb.data_ } := by
        rw [hsv, hmval]; linarith
      obtain ⟨c1, c2, c3, c4⟩ := correctLoop_sound fuel _ _ q_j ca2 q2 hsw hcbw hqlt hlow hcorr
      have hq2 : q2 < LIMIT := by omega
      have hset := lval_set quot.data_ j q2 (by omega)
      rw [hzero j (by omega)] at hset
      obtain ⟨r1, r2, r3, r4, r5, r6⟩ := ih ca2 _ { quot with data_ := quot.data_.set j q2 }
        c1 c2 (limbs_ok_set hq _ hq2) (by simp only [List.length_set]; omega)
        (fun i hi => by simp only []; rw [getD_set_ne _ _ _ _ (by omega)]; exact hzero i (by omega))
        h
      refine ⟨r1, r2, r3, r4, by rw [r5]; simp, ?_⟩
      rw [r6]
      simp only [] at hset ⊢
      rw [hsv, hmval, hcbv] at c4
      zify at hset
      simp only [Nat.zero_mul, Nat.add_zero, Int.zero_mul, Int.add_zero] at hset
      push_cast at c4 hset ⊢
      linear_combination (lval nb.data_ : Int) * hset + c4

/-! ## Member divide -/

theorem divideLoop_total (fuel : Nat) (hf : LIMIT ≤ fuel) (nb : big_integer) (hnb : wf nb)
    (hnbs : nb.sign = 1) (hnbz : isZero nb = false) (j : Nat) (ca cb quot : big_integer)
    (hca : wf ca) (hpos : 0 ≤ val ca) :
    ∃ r, divideLoop fuel nb j ca cb quot = some r := by
  induction j generalizing ca cb quot with
  | zero => exact ⟨_, rfl⟩
  | succ j ih =>
    simp only [divideLoop]
    rw [op_assign_of_not_isZero cb nb hnbz]
    generalize hqj : (min (if ca.data_.length > 1 then
        ((ca.data_.getLastD 0 * LIMIT) % U64
          + ca.data_.getD (ca.data_.length - 2) 0) % U64 / nb.data_.getLastD 0
      else 0) (LIMIT - 1)) % LIMIT = q_j
    have hqlt : q_j < LIMIT := by rw [← hqj]; exact Nat.mod_lt _ LIMIT_pos
    obtain ⟨hcbw, hcbv⟩ := shifted_divisor_spec hnb hnbs hnbz j
    obtain ⟨hmw, hms, hmv⟩ := mulByConst_spec hcbw.1 hcbw.2.1 hqlt
    obtain ⟨hsw, hsv⟩ := op_sub_assign_spec hca hmw
    have hmval : val (mulByConst { nb with data_ := List.replicate j 0 ++ nb.data_ } q_j)
        = (q_j : Int) * val { nb with data_ := List.replicate j 0 ++ nb.data_ } := by
      unfold val
      rw [hms, hmv]
      simp only []
      rw [hnbs]; push_cast; ring
    have hlow : 0 ≤ val (op_sub_assign ca
          (mulByConst { nb with data_ := List.replicate j 0 ++ nb.data_ } q_j))
        + (q_j : Int) * val { nb with data_ := List.replicate j 0 ++ nb.data_ } := by
      rw [hsv, hmval]; linarith
    obtain ⟨⟨ca2, q2⟩, hcorr⟩ := correctLoop_total fuel _ _ q_j hsw hcbw hqlt hlow (by omega)
    obtain ⟨c1, c2, _, _⟩ := correctLoop_sound fuel _ _ q_j ca2 q2 hsw hcbw hqlt hlow hcorr
    rw [hcorr]
    exact ih ca2 _ _ c1 c2

theorem getD_replicate_zero (n i : Nat) : (List.replicate n 0).getD i 0 = 0 := by
  induction n generalizing i with
  | zero => simp
  | succ n ih =>
    cases i with
    | zero => simp [List.replicate_succ]
    | succ i => simp [List.replicate_succ, ih i]

theorem sign_one_of_val_pos {a : big_integer} (ha : wf a) (h : 0 ≤ val a)
    (hz : isZero a = false) : a.sign = 1 := by
  have hp := lval_pos_of_not_isZero ha.2.2 hz
  rcases ha.1 with hs | hs
  · exact hs
  · exfalso
    unfold val at h
    rw [hs] at h
    omega

/-- The state after the most significant quotient digit (`0` or `1`) has been
fixed by the comparison `copy_a >= copy_b`. -/
theorem first_digit_spec {ca0 nb : big_integer} (hcaw : wf ca0) (hcas : ca0.sign = 1)
    (hnbw : wf nb) (hnbs : nb.sign = 1) (hnbz : isZero nb = false) (k : Nat) :
    ∃ ca1 q1, (if op_ge ca0 { nb with data_ := List.replicate k 0 ++ nb.data_ }
          = true then
          (op_sub_assign ca0 { nb with data_ := List.replicate k 0 ++ nb.data_ },
            ({ mk0 with data_ := (List.replicate (k + 1) 0).set k 1 } : big_integer))
        else (ca0, { mk0 with data_ := (List.replicate (k + 1) 0).set k 0 })) = (ca1, q1) ∧
        wf ca1 ∧ 0 ≤ val ca1 ∧ limbs_ok q1.data_ ∧ k ≤ q1.data_.length ∧
        (∀ i, i < k → q1.data_.getD i 0 = 0) ∧ q1.sign = 1 ∧
        (lval q1.data_ : Int) * lval nb.data_ + val ca1 = lval ca0.data_ := by
  obtain ⟨hcbw, hcbv⟩ := shifted_divisor_spec hnbw hnbs hnbz k
  have hca0v : val ca0 = (lval ca0.data_ : Int) := val_pos_sign hcas
  have hrep : limbs_ok (List.replicate (k + 1) 0) := limbs_ok_replicate_zero _
  have hz0 : ∀ v i, i < k → ((List.replicate (k + 1) 0).set k v).getD i 0 = 0 := by
    intro v i hi
    rw [getD_set_ne _ _ _ _ (by omega), getD_replicate_zero]
  have hsetv : ∀ v, lval ((List.replicate (k + 1) 0).set k v) = v * LIMIT ^ k := by
    intro v
    have := lval_set (List.replicate (k + 1) 0) k v (by simp)
    rw [getD_replicate_zero, lval_replicate_zero] at this
    omega
  by_cases hge : op_ge ca0 { nb with data_ := List.replicate k 0 ++ nb.data_ } = true
  · rw [if_pos hge]
    obtain ⟨hsw, hsv⟩ := op_sub_assign_spec hcaw hcbw
    have hge' := (op_ge_iff hcaw hcbw).mp hge
    refine ⟨_, _, rfl, hsw, by rw [hsv]; omega, limbs_ok_set hrep _ (by decide),
      by simp, hz0 1, rfl, ?_⟩
    simp only []
    rw [hsetv, hsv, hcbv, hca0v]
    push_cast; ring
  · rw [if_neg hge]
    refine ⟨_, _, rfl, hcaw, by rw [hca0v]; omega, limbs_ok_set hrep _ (by decide),
      by simp, hz0 0, rfl, ?_⟩
    simp only []
    rw [hsetv, hca0v]
    simp

/-- What `divide` returns: the quotient `q` and the new receiver `r` are well
formed, `q * b + r` is the dividend, and `r` carries the dividend's sign. -/
theorem divide_sound {fuel : Nat} {a b q r : big_integer} (ha : wf a) (hb : wf b)
    (hbz : isZero b = false) (h : divide fuel a b = some (.ok (q, r))) :
    wf q ∧ wf r ∧ val q * val b + val r = val a ∧ r.sign = a.sign := by
  unfold divide at h
  split at h
  · simp only [Option.some.injEq, Except.ok.injEq, Prod.mk.injEq] at h
    obtain ⟨e1, e2⟩ := h
    subst e1 e2
    refine ⟨wf_mk0, ha, ?_, rfl⟩
    simp [val, mk0, lval]
  · rename_i haz
    simp only [Bool.not_eq_true] at haz
    rw [if_neg (by rw [hbz]; simp)] at h
    have hb1 : wf { b with sign := 1 } := wf_with_sign hb (Or.inl rfl)
    have hb1z : isZero { b with sign := 1 } = false := hbz
    split at h
    · exact Option.noConfusion h
    · rename_i nb shift hnorm
      obtain ⟨hsh, hnbw, hnbs, hnbv⟩ := normalize_sound hb1 hb1z hnorm
      simp only [] at hnbs hnbv
      have hbpos := lval_pos_of_not_isZero hb.2.2 hbz
      have hnbpos : 0 < lval nb.data_ := by
        rw [hnbv]; exact Nat.mul_pos hbpos (Nat.pow_pos (by decide))
      have hnbz := isZero_false_of_lval_pos hnbpos
      obtain ⟨hcaw, hcas, hcav⟩ := @op_shl_assign_spec { a with sign := 1 } (Or.inl rfl)
        ha.2.1 shift (by simp only [BITS_COUNT, LIMIT] at *; omega)
      simp only [] at hcas hcav
      simp only [] at h
      split at h
      · simp only [Option.some.injEq, Except.ok.injEq, Prod.mk.injEq] at h
        obtain ⟨e1, e2⟩ := h
        subst e1 e2
        refine ⟨wf_mk0, ha, ?_, rfl⟩
        simp [val, mk0, lval]
      · rw [op_assign_of_not_isZero _ nb hnbz] at h
        generalize hk : (op_shl_assign { a with sign := 1 } shift).data_.length
          - nb.data_.length = k at h
        generalize hca0 : op_shl_assign { a with sign := 1 } shift = ca0 at h hcaw hcas hcav
        have hfirst := first_digit_spec hcaw hcas hnbw hnbs hnbz k
        obtain ⟨ca1, q1, hfe, f1, f2, f3, f4, f5, f6, f7⟩ := hfirst
        rw [hfe] at h
        simp only [] at h
        split at h
        · exact Option.noConfusion h
        · rename_i ca2 cb2 q2 hloop
          obtain ⟨g1, g2, g3, g4, g5, g6⟩ := divideLoop_sound fuel nb hnbw hnbs hnbz k ca1 _ q1
            ca2 cb2 q2 f1 f2 f3 f4 f5 hloop
          simp only [Option.some.injEq, Except.ok.injEq, Prod.mk.injEq] at h
          obtain ⟨e1, e2⟩ := h
          -- the remainder after undoing the normalisation
          have hrem : ∃ ca3, (if (!isZero ca2) = true then op_shr_assign ca2 shift else ca2) = ca3 ∧
              wf ca3 ∧ lval ca3.data_ = lval ca2.data_ / 2 ^ shift := by
            by_cases hz2 : isZero ca2 = true
            · rw [if_neg (by rw [hz2]; simp)]
              refine ⟨_, rfl, g1, ?_⟩
              rw [lval_eq_zero_of_isZero hz2]; simp
            · simp only [Bool.not_eq_true] at hz2
              rw [if_pos (by rw [hz2]; rfl)]
              have hs2 := sign_one_of_val_pos g1 g2 hz2
              obtain ⟨s1, _, s3⟩ := op_shr_assign_pos g1 hs2 shift
                (by simp only [BITS_COUNT, LIMIT] at *; omega)
              exact ⟨_, rfl, s1, s3⟩
          obtain ⟨ca3, hce, hc3w, hc3v⟩ := hrem
          rw [hce] at e2
          have htr : deleteLeadingZeroes { ca3 with sign := a.sign } = { ca3 with sign := a.sign } :=
            deleteLeadingZeroes_of_trimmed hc3w.2.2
          rw [htr] at e2
          have hrw : wf { ca3 with sign := a.sign } := wf_with_sign hc3w ha.1
          have hqw : wf (deleteLeadingZeroes { q2 with sign := a.sign * b.sign }) := by
            refine @deleteLeadingZeroes_wf ⟨q2.data_, a.sign * b.sign⟩ ?_ g3
            rcases ha.1 with h1 | h1 <;> rcases hb.1 with h2 | h2 <;> simp [h1, h2]
          have hrv := op_assign_val ha hrw
          have hrw' := op_assign_wf ha hrw
          rw [e2] at hrv hrw'
          rw [e1] at hqw
          have hqv : val q = a.sign * b.sign * (lval q2.data_ : Int) := by
            rw [← e1, deleteLeadingZeroes_val]; rfl
          have hrs : r.sign = a.sign := by
            rw [← e2]; unfold op_assign; split <;> rfl
          refine ⟨hqw, hrw', ?_, hrs⟩
          -- arithmetic: undo the scaling by `2 ^ shift`
          have hval2 : val ca2 = (lval ca2.data_ : Int) := by
            by_cases hz2 : isZero ca2 = true
            · unfold val; rw [lval_eq_zero_of_isZero hz2]; simp
            · simp only [Bool.not_eq_true] at hz2
              exact val_pos_sign (sign_one_of_val_pos g1 g2 hz2)
          rw [hval2, f7, hcav, hnbv] at g6
          have hnat : lval q2.data_ * (lval b.data_ * 2 ^ shift) + lval ca2.data_
              = lval a.data_ * 2 ^ shift := by exact_mod_cast g6
          have hdiv : lval a.data_ = lval q2.data_ * lval b.data_ + lval ca2.data_ / 2 ^ shift := by
            have hp : 0 < 2 ^ shift := Nat.pow_pos (by decide)
            have e : lval ca2.data_ + 2 ^ shift * (lval q2.data_ * lval b.data_)
                = lval a.data_ * 2 ^ shift := by rw [← hnat]; ring
            have := Nat.add_mul_div_left (lval ca2.data_) (lval q2.data_ * lval b.data_) hp
            rw [e, Nat.mul_div_cancel _ hp] at this
            omega
          rw [hrv, hqv]
          have hr3 : val { ca3 with sign := a.sign } = a.sign * (lval ca3.data_ : Int) := rfl
          rw [hr3, hc3v]
          have hbb : b.sign * b.sign = 1 := by
            rcases hb.1 with h2 | h2 <;> simp [h2]
          unfold val
          rw [hdiv]
          push_cast
          linear_combination (a.sign * (lval q2.data_ : Int) * lval b.data_) * hbb

/-- With `LIMIT` units of fuel, `divide` by a non-zero divisor returns. -/
theorem divide_total {fuel : Nat} (hf : LIMIT ≤ fuel) {a b : big_integer} (ha : wf a)
    (hb : wf b) (hbz : isZero b = false) :
    ∃ q r, divide fuel a b = some (.ok (q, r)) := by
  unfold divide
  split
  · exact ⟨_, _, rfl⟩
  · rw [if_neg (by rw [hbz]; simp)]
    have hb1 : wf { b with sign := 1 } := wf_with_sign hb (Or.inl rfl)
    have hb1z : isZero { b with sign := 1 } = false := hbz
    obtain ⟨nb, shift, hnorm⟩ := @normalize_total fuel _ hb1 hb1z
      (by simp only [BITS_COUNT, LIMIT] at *; omega)
    obtain ⟨hsh, hnbw, hnbs, hnbv⟩ := normalize_sound hb1 hb1z hnorm
    simp only [] at hnbs hnbv
    have hbpos := lval_pos_of_not_isZero hb.2.2 hbz
    have hnbpos : 0 < lval nb.data_ := by
      rw [hnbv]; exact Nat.mul_pos hbpos (Nat.pow_pos (by decide))
    have hnbz := isZero_false_of_lval_pos hnbpos
    obtain ⟨hcaw, hcas, hcav⟩ := @op_shl_assign_spec { a with sign := 1 } (Or.inl rfl)
      ha.2.1 shift (by simp only [BITS_COUNT, LIMIT] at *; omega)
    rw [hnorm]
    simp only []
    split
    · exact ⟨_, _, rfl⟩
    · rw [op_assign_of_not_isZero _ nb hnbz]
      generalize (op_shl_assign { a with sign := 1 } shift).data_.length
        - nb.data_.length = k
      generalize op_shl_assign { a with sign := 1 } shift = ca0 at hcaw hcas hcav
      obtain ⟨ca1, q1, hfe, f1, f2, _⟩ := first_digit_spec hcaw hcas hnbw hnbs hnbz k
      rw [hfe]
      simp only []
      obtain ⟨⟨ca2, cb2, q2⟩, hloop⟩ := divideLoop_total fuel hf nb hnbw hnbs hnbz k ca1
        { nb with data_ := List.replicate k 0 ++ nb.data_ } q1 f1 f2
      rw [hloop]
      exact ⟨_, _, rfl⟩

theorem divide_by_zero (fuel : Nat) {a b : big_integer} (haz : isZero a = false)
    (hbz : isZero b = true) : divide fuel a b = some (.error exn.runtime_error) := by
  unfold divide
  rw [if_neg (by rw [haz]; simp), if_pos hbz]

theorem divide_zero_dividend (fuel : Nat) {a : big_integer} (b : big_integer)
    (haz : isZero a = true) : divide fuel a b = some (.ok (mk0, a)) := by
  unfold divide
  rw [if_pos haz]

/-! ## Claims -/

theorem canonical_wf {a : big_integer} (h : canonical a) : wf a := h.1

theorem op_div_ok {fuel : Nat} {a b q : big_integer} (h : op_div fuel a b = some (.ok q)) :
    ∃ q0 r0, divide fuel a b = some (.ok (q0, r0)) ∧ q = op_assign r0 q0 := by
  unfold op_div op_div_assign at h
  split at h
  · exact Option.noConfusion h
  · simp at h
  · rename_i q0 r0 hd
    simp only [Option.some.injEq, Except.ok.injEq] at h
    exact ⟨q0, r0, hd, h.symm⟩

theorem op_mod_ok {fuel : Nat} {a b r : big_integer} (h : op_mod fuel a b = some (.ok r)) :
    ∃ q0, divide fuel a b = some (.ok (q0, r)) := by
  unfold op_mod op_mod_assign at h
  split at h
  · exact Option.noConfusion h
  · simp at h
  · rename_i q0 r0 hd
    simp only [Option.some.injEq, Except.ok.injEq] at h
    subst h
    exact ⟨q0, hd⟩

theorem op_div_mod_total {fuel : Nat} (hf : LIMIT ≤ fuel) {a b : big_integer} (ha : wf a)
    (hb : wf b) (hbz : isZero b = false) :
    ∃ q r, op_div fuel a b = some (.ok q) ∧ op_mod fuel a b = some (.ok r) := by
  obtain ⟨q0, r0, h⟩ := divide_total hf ha hb hbz
  refine ⟨op_assign r0 q0, r0, ?_, ?_⟩
  · unfold op_div op_div_assign; rw [h]
  · unfold op_mod op_mod_assign; rw [h]

/-- C1: for canonical `a` and canonical non-zero `b`, the operators `/` and `%`
return (with `LIMIT` units of fuel or more), and whatever they return satisfies
`(a / b) * b + (a % b) == a`. -/
theorem C1_division_identity (a b : big_integer) (ha : canonical a) (hb : canonical b)
    (hbz : isZero b = false) :
    (∀ fuel, LIMIT ≤ fuel →
      ∃ q r, op_div fuel a b = some (.ok q) ∧ op_mod fuel a b = some (.ok r)) ∧
    (∀ fuel q r, op_div fuel a b = some (.ok q) → op_mod fuel a b = some (.ok r) →
      op_eq (op_add (op_mul q b) r) a = true) := by
  refine ⟨fun fuel hf => op_div_mod_total hf ha.1 hb.1 hbz, ?_⟩
  intro fuel q r hq hr
  obtain ⟨q0, r0, hd, hqe⟩ := op_div_ok hq
  obtain ⟨q1, hd'⟩ := op_mod_ok hr
  rw [hd] at hd'
  simp only [Option.some.injEq, Except.ok.injEq, Prod.mk.injEq] at hd'
  obtain ⟨_, e⟩ := hd'
  subst e
  obtain ⟨s1, s2, s3, _⟩ := divide_sound ha.1 hb.1 hbz hd
  have hqw : wf q := by rw [hqe]; exact op_assign_wf s2 s1
  have hqv : val q = val q0 := by rw [hqe]; exact op_assign_val s2 s1
  obtain ⟨m1, m2⟩ := op_mul_assign_spec hqw hb.1
  obtain ⟨a1, a2⟩ := op_add_assign_spec m1 s2
  unfold op_add op_mul
  rw [op_eq_iff a1 ha.1, a2, m2, hqv, s3]

/-- C1 at `a = -7`, `b = 2`: the quotient is `-3`, the remainder `-1`. -/
theorem C1_division_identity_witness :
    canonical ⟨[7], -1⟩ ∧ canonical ⟨[2], 1⟩ ∧
    op_div 40 ⟨[7], -1⟩ ⟨[2], 1⟩ = some (.ok ⟨[3], -1⟩) ∧
    op_mod 40 ⟨[7], -1⟩ ⟨[2], 1⟩ = some (.ok ⟨[1], -1⟩) ∧
    op_eq (op_add (op_mul ⟨[3], -1⟩ ⟨[2], 1⟩) ⟨[1], -1⟩) ⟨[7], -1⟩ = true := by
  have hq : op_div 40 ⟨[7], -1⟩ ⟨[2], 1⟩ = some (.ok ⟨[3], -1⟩) := rfl
  have hr : op_mod 40 ⟨[7], -1⟩ ⟨[2], 1⟩ = some (.ok ⟨[1], -1⟩) := rfl
  have hz : isZero ⟨[2], 1⟩ = false := rfl
  exact ⟨by decide, by decide, hq, hr,
    (C1_division_identity ⟨[7], -1⟩ ⟨[2], 1⟩ (by decide) (by decide) hz).2 40
      ⟨[3], -1⟩ ⟨[1], -1⟩ hq hr⟩

/-- C2 (defect in `divide`): for `a = 2^32 + 1` and `b = 1` the operator `%`
returns `1`, whose magnitude is not below the magnitude of `b`.  The last
quotient digit is estimated as `0` when the running remainder has a single
limb, although that limb may still hold a whole multiple of a one-limb
divisor. -/
theorem C2_remainder_bound_fails :
    canonical (of_long_long 4294967297) ∧ canonical (of_int 1) ∧
    isZero (of_int 1) = false ∧
    op_mod 40 (of_long_long 4294967297) (of_int 1) = some (.ok ⟨[1], 1⟩) ∧
    ¬ (lval ([1] : List Nat) < lval (of_int 1).data_) :=
  ⟨by decide, by decide, rfl, rfl, by decide⟩

/-- C3 (defect in `divide`): for `a = 2^32 + 1` and `b = 1` the operator `/`
returns `2^32`, which is not the truncated quotient `2^32 + 1`; the remainder
returned is `1` instead of `0`. -/
theorem C3_truncating_division_fails :
    op_div 40 (of_long_long 4294967297) (of_int 1) = some (.ok ⟨[0, 1], 1⟩) ∧
    val ⟨[0, 1], 1⟩ = 4294967296 ∧
    Int.tdiv (val (of_long_long 4294967297)) (val (of_int 1)) = 4294967297 ∧
    op_mod 40 (of_long_long 4294967297) (of_int 1) = some (.ok ⟨[1], 1⟩) ∧
    Int.tmod (val (of_long_long 4294967297)) (val (of_int 1)) = 0 :=
  ⟨rfl, by decide, by decide, rfl, by decide⟩

/-- C4: for canonical `a` and canonical non-zero `b`, `a % b` returns (with
`LIMIT` units of fuel or more), its stored sign is the sign of `a`, and its
value is zero or has the sign of `val a`. -/
theorem C4_remainder_sign (a b : big_integer) (ha : canonical a) (hb : canonical b)
    (hbz : isZero b = false) :
    (∀ fuel, LIMIT ≤ fuel → ∃ r, op_mod fuel a b = some (.ok r)) ∧
    (∀ fuel r, op_mod fuel a b = some (.ok r) →
      r.sign = a.sign ∧
        (val r = 0 ∨ (0 < val r ∧ 0 < val a) ∨ (val r < 0 ∧ val a < 0))) := by
  constructor
  · intro fuel hf
    obtain ⟨q, r, _, h⟩ := op_div_mod_total hf ha.1 hb.1 hbz
    exact ⟨r, h⟩
  · intro fuel r hr
    obtain ⟨q0, hd⟩ := op_mod_ok hr
    obtain ⟨s1, s2, s3, s4⟩ := divide_sound ha.1 hb.1 hbz hd
    refine ⟨s4, ?_⟩
    by_cases haz : isZero a = true
    · left
      rw [divide_zero_dividend fuel b haz] at hd
      simp only [Option.some.injEq, Except.ok.injEq, Prod.mk.injEq] at hd
      rw [← hd.2]
      unfold val; rw [lval_eq_zero_of_isZero haz]; simp
    · simp only [Bool.not_eq_true] at haz
      have hap := lval_pos_of_not_isZero ha.1.2.2 haz
      by_cases hrz : lval r.data_ = 0
      · left; unfold val; rw [hrz]; simp
      · right
        unfold val
        rw [s4]
        rcases ha.1.1 with h1 | h1
        · left; rw [h1]; constructor <;> omega
        · right; rw [h1]; constructor <;> omega

/-- C4 at `a = 7`, `b = -2`: the remainder is `+1`, the sign of the dividend. -/
theorem C4_remainder_sign_witness :
    canonical ⟨[7], 1⟩ ∧ canonical ⟨[2], -1⟩ ∧
    op_mod 40 ⟨[7], 1⟩ ⟨[2], -1⟩ = some (.ok ⟨[1], 1⟩) ∧
    (⟨[1], 1⟩ : big_integer).sign = (⟨[7], 1⟩ : big_integer).sign := by
  have hr : op_mod 40 ⟨[7], 1⟩ ⟨[2], -1⟩ = some (.ok ⟨[1], 1⟩) := rfl
  have hz : isZero ⟨[2], -1⟩ = false := rfl
  exact ⟨by decide, by decide, hr,
    ((C4_remainder_sign ⟨[7], 1⟩ ⟨[2], -1⟩ (by decide) (by decide) hz).2 40 ⟨[1], 1⟩ hr).1⟩

/-- C5 (defect in `divide`): `0 / 0` and `0 % 0` return zero instead of
throwing, because the test `isZero()` of the dividend returns before the
divisor is examined. -/
theorem C5_zero_by_zero_returns (fuel : Nat) :
    isZero (of_int 0) = true ∧
    op_div fuel (of_int 0) (of_int 0) = some (.ok (of_int 0)) ∧
    op_mod fuel (of_int 0) (of_int 0) = some (.ok (of_int 0)) := by
  have h : divide fuel (of_int 0) (of_int 0) = some (.ok (mk0, of_int 0)) :=
    divide_zero_dividend fuel _ rfl
  refine ⟨rfl, ?_, ?_⟩
  · unfold op_div op_div_assign; rw [h]; rfl
  · unfold op_mod op_mod_assign; rw [h]

/-- C6: for canonical `a` and `b`, `a + b` has the value `val a + val b`. -/
theorem C6_exact_addition (a b : big_integer) (ha : canonical a) (hb : canonical b) :
    val (op_add a b) = val a + val b :=
  (op_add_assign_spec ha.1 hb.1).2

/-- C6 at `123456789123456789 + 876543210876543211 = 1000000000000000000`. -/
theorem C6_exact_addition_witness :
    canonical ⟨[2899336981, 28744523], 1⟩ ∧ canonical ⟨[4203978987, 204086119], 1⟩ ∧
    of_string "123456789123456789" = .ok ⟨[2899336981, 28744523], 1⟩ ∧
    of_string "876543210876543211" = .ok ⟨[4203978987, 204086119], 1⟩ ∧
    of_string "1000000000000000000" = .ok ⟨[2808348672, 232830643], 1⟩ ∧
    op_eq (op_add ⟨[2899336981, 28744523], 1⟩ ⟨[4203978987, 204086119], 1⟩)
      ⟨[2808348672, 232830643], 1⟩ = true ∧
    val (op_add ⟨[2899336981, 28744523], 1⟩ ⟨[4203978987, 204086119], 1⟩)
      = val ⟨[2899336981, 28744523], 1⟩ + val ⟨[4203978987, 204086119], 1⟩ :=
  ⟨by decide, by decide, rfl, rfl, rfl, rfl,
    C6_exact_addition ⟨[2899336981, 28744523], 1⟩ ⟨[4203978987, 204086119], 1⟩
      (by decide) (by decide)⟩

/-- C7: for canonical `a` and `b`, `a - b` has the value `val a - val b`; its
stored sign is `+1` when `val a > val b` and `-1` when `val a < val b`; and for
operands of equal sign its magnitude is the larger magnitude minus the
smaller one. -/
theorem C7_exact_subtraction (a b : big_integer) (ha : canonical a) (hb : canonical b) :
    val (op_sub a b) = val a - val b ∧
    (val b < val a → (op_sub a b).sign = 1) ∧
    (val a < val b → (op_sub a b).sign = -1) ∧
    (a.sign = b.sign →
      lval (op_sub a b).data_ + min (lval a.data_) (lval b.data_)
        = max (lval a.data_) (lval b.data_)) := by
  obtain ⟨hw, hv⟩ := op_sub_assign_spec ha.1 hb.1
  refine ⟨hv, ?_, ?_, ?_⟩
  · intro h
    rcases hw.1 with hs | hs
    · exact hs
    · exfalso
      have : val (op_sub_assign a b) = -(lval (op_sub_assign a b).data_ : Int) :=
        val_neg_sign hs
      omega
  · intro h
    rcases hw.1 with hs | hs
    · exfalso
      have : val (op_sub_assign a b) = (lval (op_sub_assign a b).data_ : Int) :=
        val_pos_sign hs
      omega
    · exact hs
  · intro hs
    obtain ⟨_, h2, h3⟩ := subtract_spec ha.1 hb.1
    have e : (op_sub a b).data_ = (subtract a b).data_ := by
      unfold op_sub op_sub_assign; rw [if_pos hs]
    rw [e]
    by_cases hc : lval b.data_ ≤ lval a.data_
    · have := (h2 hc).2
      rw [Nat.min_eq_right hc, Nat.max_eq_left hc]; exact this
    · have := (h3 (by omega)).2
      rw [Nat.min_eq_left (by omega), Nat.max_eq_right (by omega)]; exact this

/-- C7 at `5 - 4294967296 = -4294967291`. -/
theorem C7_exact_subtraction_witness :
    canonical ⟨[5], 1⟩ ∧ canonical ⟨[0, 1], 1⟩ ∧
    op_sub ⟨[5], 1⟩ ⟨[0, 1], 1⟩ = ⟨[4294967291], -1⟩ ∧
    val (op_sub ⟨[5], 1⟩ ⟨[0, 1], 1⟩) = val ⟨[5], 1⟩ - val ⟨[0, 1], 1⟩ :=
  ⟨by decide, by decide, rfl,
    (C7_exact_subtraction ⟨[5], 1⟩ ⟨[0, 1], 1⟩ (by decide) (by decide)).1⟩

/-- C8: for canonical operands, `a * b` has the value `val a * val b`, and
`a * (b + c) == a * b + a * c`. -/
theorem C8_exact_multiplication (a b c : big_integer) (ha : canonical a) (hb : canonical b)
    (hc : canonical c) :
    val (op_mul a b) = val a * val b ∧
    op_eq (op_mul a (op_add b c)) (op_add (op_mul a b) (op_mul a c)) = true := by
  obtain ⟨w1, v1⟩ := op_mul_assign_spec ha.1 hb.1
  obtain ⟨w2, v2⟩ := op_mul_assign_spec ha.1 hc.1
  obtain ⟨w3, v3⟩ := op_add_assign_spec hb.1 hc.1
  obtain ⟨w4, v4⟩ := op_mul_assign_spec ha.1 w3
  obtain ⟨w5, v5⟩ := op_add_assign_spec w1 w2
  refine ⟨v1, ?_⟩
  unfold op_mul op_add
  rw [op_eq_iff w4 w5, v4, v3, v5, v1, v2]
  ring

/-- C8 at `a = -(2^32 - 1)`, `b = 2^32 - 1`, `c = 2^32 + 2`. -/
theorem C8_exact_multiplication_witness :
    canonical ⟨[4294967295], -1⟩ ∧ canonical ⟨[4294967295], 1⟩ ∧ canonical ⟨[2, 1], 1⟩ ∧
    op_mul ⟨[4294967295], -1⟩ ⟨[4294967295], 1⟩ = ⟨[1, 4294967294], -1⟩ ∧
    val (op_mul ⟨[4294967295], -1⟩ ⟨[4294967295], 1⟩)
      = val ⟨[4294967295], -1⟩ * val ⟨[4294967295], 1⟩ :=
  ⟨by decide, by decide, by decide, rfl,
    (C8_exact_multiplication ⟨[4294967295], -1⟩ ⟨[4294967295], 1⟩ ⟨[2, 1], 1⟩
      (by decide) (by decide) (by decide)).1⟩

/-- C9: for canonical `a`, `a - a == big_integer(0)`, `to_string(a - a)` is
`"0"` for every amount of fuel, and `a + (-a) == big_integer(0)`. -/
theorem C9_self_subtraction (a : big_integer) (ha : canonical a) :
    op_eq (op_sub a a) (of_int 0) = true ∧
    (∀ fuel, to_string fuel (op_sub a a) = some "0") ∧
    op_eq (op_add a (op_neg a)) (of_int 0) = true := by
  obtain ⟨w1, v1⟩ := op_sub_assign_spec ha.1 ha.1
  have hn : wf (op_neg a) := by
    refine ⟨?_, ha.1.2.1, ha.1.2.2⟩
    unfold op_neg
    rcases ha.1.1 with h | h <;> simp [h]
  have hnv : val (op_neg a) = -val a := by
    unfold val op_neg; simp
  obtain ⟨w2, v2⟩ := op_add_assign_spec ha.1 hn
  have hz : isZero (op_sub a a) = true := by
    apply isZero_of_lval_eq_zero w1.2.2
    have : val (op_sub_assign a a) = 0 := by rw [v1]; ring
    unfold val at this
    rcases w1.1 with h | h <;> rw [h] at this <;> omega
  refine ⟨?_, ?_, ?_⟩
  · unfold op_sub
    rw [op_eq_iff w1 wf_of_int_zero, v1, val_of_int_zero]; ring
  · intro fuel
    unfold to_string
    rw [if_pos hz]
  · unfold op_add
    rw [op_eq_iff w2 wf_of_int_zero, v2, hnv, val_of_int_zero]; ring

/-- C9 at `a = 0`: `0 - 0` prints as `"0"`. -/
theorem C9_self_subtraction_witness :
    canonical (of_int 0) ∧
    op_eq (op_sub (of_int 0) (of_int 0)) (of_int 0) = true ∧
    to_string 0 (op_sub (of_int 0) (of_int 0)) = some "0" :=
  ⟨by decide, (C9_self_subtraction (of_int 0) (by decide)).1,
    (C9_self_subtraction (of_int 0) (by decide)).2.1 0⟩

theorem isdigit_iff (c : Char) : isdigit c = true ↔ ('0' ≤ c ∧ c ≤ '9') := by
  unfold isdigit
  rw [decide_eq_true_iff, Char.le_def, Char.le_def]
  rfl

theorem all_isdigit_iff (l : List Char) :
    l.all isdigit = true ↔ ∀ c ∈ l, '0' ≤ c ∧ c ≤ '9' := by
  rw [List.all_eq_true]
  constructor
  · intro h c hc; exact (isdigit_iff c).mp (h c hc)
  · intro h c hc; exact (isdigit_iff c).mpr (h c hc)

/-- The validity test at the head of the string constructor, as a
proposition about the characters. -/
theorem of_string_ok_iff (s : String) :
    (∃ a, of_string s = .ok a) ↔
      (s.data ≠ [] ∧ ¬ (s.data.length = 1 ∧ s.data.headD (Char.ofNat 0) = '-') ∧
        s.data.tail.all isdigit = true ∧
        (s.data.headD (Char.ofNat 0) = '-' ∨ isdigit (s.data.headD (Char.ofNat 0)) = true)) := by
  unfold of_string
  simp only []
  split
  · rename_i h
    simp only [Bool.or_eq_true, Bool.and_eq_true, Bool.not_eq_true', beq_iff_eq,
      List.isEmpty_iff, bne_iff_ne, ne_eq] at h
    constructor
    · rintro ⟨a, ha⟩; exact Except.noConfusion ha
    · rintro ⟨h1, h2, h3, h4⟩
      exfalso
      rcases h with ((h | h) | h) | h
      · exact h1 h
      · exact h2 h
      · rw [h3] at h; exact Bool.noConfusion h
      · rcases h4 with h4 | h4
        · exact h.1 h4
        · rw [h4] at h; exact Bool.noConfusion h.2
  · rename_i h
    simp only [Bool.or_eq_true, Bool.and_eq_true, Bool.not_eq_true', beq_iff_eq,
      List.isEmpty_iff, bne_iff_ne, ne_eq, not_or, not_and, Bool.not_eq_false] at h
    obtain ⟨⟨⟨h1, h2⟩, h3⟩, h4⟩ := h
    constructor
    · intro _
      refine ⟨h1, fun hh => h2 hh.1 hh.2, h3, ?_⟩
      by_cases hc : s.data.headD (Char.ofNat 0) = '-'
      · exact Or.inl hc
      · exact Or.inr (h4 hc)
    · intro _
      exact ⟨_, rfl⟩

theorem of_string_cases (s : String) :
    (∃ a, of_string s = .ok a) ∨ of_string s = .error exn.invalid_argument := by
  unfold of_string
  simp only []
  split
  · exact Or.inr rfl
  · exact Or.inl ⟨_, rfl⟩

/-- C10: `big_integer(s)` succeeds exactly when `s` is an optional `'-'`
followed by one or more ASCII digits, and otherwise throws
`std::invalid_argument`; the empty string, the lone `"-"`, a leading `'+'` and
an embedded letter are rejected. -/
theorem C10_string_constructor_acceptance (s : String) :
    ((∃ a, of_string s = .ok a) ↔
      ∃ ds : List Char, ds ≠ [] ∧ (∀ c ∈ ds, '0' ≤ c ∧ c ≤ '9') ∧
        (s.data = ds ∨ s.data = '-' :: ds)) ∧
    ((¬ ∃ ds : List Char, ds ≠ [] ∧ (∀ c ∈ ds, '0' ≤ c ∧ c ≤ '9') ∧
        (s.data = ds ∨ s.data = '-' :: ds)) → of_string s = .error exn.invalid_argument) ∧
    of_string "" = .error exn.invalid_argument ∧
    of_string "-" = .error exn.invalid_argument ∧
    of_string "+5" = .error exn.invalid_argument ∧
    of_string "12a4" = .error exn.invalid_argument := by
  have key : (∃ a, of_string s = .ok a) ↔
      ∃ ds : List Char, ds ≠ [] ∧ (∀ c ∈ ds, '0' ≤ c ∧ c ≤ '9') ∧
        (s.data = ds ∨ s.data = '-' :: ds) := by
    rw [of_string_ok_iff]
    cases hd : s.data with
    | nil =>
      constructor
      · rintro ⟨h, _⟩; exact absurd rfl h
      · rintro ⟨ds, h1, _, h3 | h3⟩
        · exact absurd h3.symm h1
        · exact List.noConfusion h3
    | cons x t =>
      simp only [List.headD_cons, List.tail_cons, List.length_cons, ne_eq, not_false_eq_true,
        true_and, all_isdigit_iff, isdigit_iff]
      constructor
      · rintro ⟨_, h2, h3, h4⟩
        rcases h4 with h4 | h4
        · subst h4
          refine ⟨t, ?_, h3, Or.inr rfl⟩
          intro ht
          subst ht
          exact h2 ⟨rfl, rfl⟩
        · refine ⟨x :: t, List.cons_ne_nil _ _, ?_, Or.inl rfl⟩
          intro c hc
          rcases List.mem_cons.mp hc with hc | hc
          · rw [hc]; exact h4
          · exact h3 c hc
      · rintro ⟨ds, h1, h2, h3 | h3⟩
        · subst h3
          refine ⟨List.cons_ne_nil _ _, ?_, fun c hc => h2 c (List.mem_cons_of_mem _ hc),
            Or.inr (h2 x (List.mem_cons_self _ _))⟩
          rintro ⟨hl, hx⟩
          have := h2 x (List.mem_cons_self _ _)
          rw [hx] at this
          exact absurd this (by decide)
        · simp only [List.cons.injEq] at h3
          obtain ⟨hx, ht⟩ := h3
          subst hx ht
          refine ⟨List.cons_ne_nil _ _, ?_, h2, Or.inl rfl⟩
          rintro ⟨hl, _⟩
          apply h1
          exact List.length_eq_zero.mp (by omega)
  refine ⟨key, ?_, rfl, rfl, rfl, rfl⟩
  intro hn
  rcases of_string_cases s with h | h
  · exact absurd (key.mp h) hn
  · exact h

/-! ## Claims on comparison and the bitwise operators -/

/-- C14: for `a` and `b` that satisfy the representation invariant (zero may be
stored as the empty sequence or as one zero limb, with either stored sign),
`<` and `==` agree with the order and equality of the values, the derived
operators agree with `>`, `<=`, `>=`, `!=`, and exactly one of `a < b`,
`a == b`, `a > b` holds. -/
theorem C14_comparison_agrees_with_value (a b : big_integer) (ha : wf a) (hb : wf b) :
    (op_lt a b = true ↔ val a < val b) ∧
    (op_eq a b = true ↔ val a = val b) ∧
    (op_gt a b = true ↔ val b < val a) ∧
    (op_le a b = true ↔ val a ≤ val b) ∧
    (op_ge a b = true ↔ val b ≤ val a) ∧
    (op_ne a b = true ↔ val a ≠ val b) ∧
    ((op_lt a b = true ∧ op_eq a b = false ∧ op_gt a b = false) ∨
     (op_lt a b = false ∧ op_eq a b = true ∧ op_gt a b = false) ∨
     (op_lt a b = false ∧ op_eq a b = false ∧ op_gt a b = true)) := by
  have h1 := op_lt_iff ha hb
  have h2 := op_eq_iff ha hb
  have h3 := op_gt_iff ha hb
  have h1f := op_lt_false_iff ha hb
  have h2f := op_eq_false_iff ha hb
  have h3f : op_gt a b = false ↔ val a ≤ val b := op_lt_false_iff hb ha
  refine ⟨h1, h2, h3, ?_, op_ge_iff ha hb, ?_, ?_⟩
  · unfold op_le
    rw [Bool.not_eq_true', h3f]
  · unfold op_ne
    rw [Bool.not_eq_true', h2f]
  · rcases lt_trichotomy (val a) (val b) with h | h | h
    · exact Or.inl ⟨h1.mpr h, h2f.mpr (by omega), h3f.mpr (by omega)⟩
    · exact Or.inr (Or.inl ⟨h1f.mpr (by omega), h2.mpr h, h3f.mpr (by omega)⟩)
    · exact Or.inr (Or.inr ⟨h1f.mpr (by omega), h2f.mpr (by omega), h3.mpr h⟩)

/-- C14 at the two representations of zero, `-0` as one zero limb and `+0` as
the empty sequence, and at `-0` against `5`. -/
theorem C14_comparison_agrees_with_value_witness :
    wf ⟨[0], -1⟩ ∧ wf ⟨[], 1⟩ ∧ wf ⟨[5], 1⟩ ∧
    op_eq ⟨[0], -1⟩ ⟨[], 1⟩ = true ∧ op_lt ⟨[0], -1⟩ ⟨[], 1⟩ = false ∧
    (op_lt ⟨[0], -1⟩ ⟨[5], 1⟩ = true ↔ val ⟨[0], -1⟩ < val ⟨[5], 1⟩) :=
  ⟨by decide, by decide, by decide, by decide, by decide,
    (C14_comparison_agrees_with_value ⟨[0], -1⟩ ⟨[5], 1⟩ (by decide) (by decide)).1⟩

theorem nat_ldiff_zero_right (m : Nat) : Nat.ldiff m 0 = m := by
  apply Nat.eq_of_testBit_eq
  intro i
  rw [Nat.testBit_ldiff]
  simp

theorem nat_ldiff_zero_left (m : Nat) : Nat.ldiff 0 m = 0 := by
  apply Nat.eq_of_testBit_eq
  intro i
  rw [Nat.testBit_ldiff]
  simp

/-- C17 (defect in `bitwiseOp`): `2^32 & -1` returns `0`, while the
two's-complement AND of the values is `2^32`.  Beyond the limbs of `other` the
loop pads with the sign of the receiver, `(sign < 0) ? LIMIT - 1 : 0`, instead
of the sign of `other`.  The example `-5 & 3 == 3`, with operands of one limb
each, evaluates as stated. -/
theorem C17_bitwise_and_fails :
    canonical (of_long_long 4294967296) ∧ canonical (of_int (-1)) ∧
    op_and (of_long_long 4294967296) (of_int (-1)) = ⟨[0], 1⟩ ∧
    val (op_and (of_long_long 4294967296) (of_int (-1))) = 0 ∧
    Int.land (val (of_long_long 4294967296)) (val (of_int (-1))) = 4294967296 ∧
    op_eq (op_and (of_int (-5)) (of_int 3)) (of_int 3) = true := by
  refine ⟨by decide, by decide, rfl, by decide, ?_, by decide⟩
  have e1 : val (of_long_long 4294967296) = ((4294967296 : Nat) : Int) := by decide
  have e2 : val (of_int (-1)) = Int.negSucc 0 := by decide
  rw [e1, e2]
  show ((Nat.ldiff 4294967296 0 : Nat) : Int) = 4294967296
  rw [nat_ldiff_zero_right]
  rfl

/-- C18 (defect in `bitwiseOp`): `2^32 | -1` returns `-(2^64 - 2^33 + 1)`,
while the two's-complement OR of the values is `-1`; the padding beyond the
limbs of `other` follows the sign of the receiver instead of the sign of
`other`. -/
theorem C18_bitwise_or_fails :
    canonical (of_long_long 4294967296) ∧ canonical (of_int (-1)) ∧
    op_or (of_long_long 4294967296) (of_int (-1)) = ⟨[1, 4294967294], -1⟩ ∧
    val (op_or (of_long_long 4294967296) (of_int (-1))) = -18446744065119617025 ∧
    Int.lor (val (of_long_long 4294967296)) (val (of_int (-1))) = -1 := by
  refine ⟨by decide, by decide, rfl, by decide, ?_⟩
  have e1 : val (of_long_long 4294967296) = ((4294967296 : Nat) : Int) := by decide
  have e2 : val (of_int (-1)) = Int.negSucc 0 := by decide
  rw [e1, e2]
  show Int.negSucc (Nat.ldiff 0 4294967296) = -1
  rw [nat_ldiff_zero_left]
  rfl

/-- C19 (defect in `bitwiseOp`): `2^32 ^ -1` returns `-(2^64 - 2^33 + 1)`,
while the two's-complement XOR of the values is `-(2^32 + 1)`; the padding
beyond the limbs of `other` follows the sign of the receiver instead of the
sign of `other`. -/
theorem C19_bitwise_xor_fails :
    canonical (of_long_long 4294967296) ∧ canonical (of_int (-1)) ∧
    op_xor (of_long_long 4294967296) (of_int (-1)) = ⟨[1, 4294967294], -1⟩ ∧
    val (op_xor (of_long_long 4294967296) (of_int (-1))) = -18446744065119617025 ∧
    Int.xor (val (of_long_long 4294967296)) (val (of_int (-1))) = -4294967297 :=
  ⟨by decide, by decide, rfl, by decide, by decide⟩

/-- C20 (defect in `operator~`): `~(-1)` returns `2`, while `-((-1) + 1)` is
zero, so `~a == -(a + 1)` fails at `a = -1`.  The operator flips the sign and
then adds one to the magnitude, which is right only for `a >= 0`; `~0 == -1`
holds. -/
theorem C20_bitwise_not_fails :
    canonical (of_int (-1)) ∧
    op_not (of_int (-1)) = ⟨[2], 1⟩ ∧
    isZero (op_neg (op_add (of_int (-1)) (of_int 1))) = true ∧
    op_eq (op_not (of_int (-1))) (op_neg (op_add (of_int (-1)) (of_int 1))) = false ∧
    op_eq (op_not (of_int 0)) (of_int (-1)) = true :=
  ⟨by decide, rfl, rfl, by decide, by decide⟩

/-! ## Machine-integer construction and the magnitude increment -/

theorem makeLoop_step (f v : Nat) (d : List Nat) :
    makeLoop (f + 1) v d
      = if v > 0 then makeLoop f (v >>> BITS_COUNT) (d ++ [v % LIMIT]) else d := rfl

/-- The limbs pushed by `make` for a non-zero 64-bit value. -/
theorem makeLoop_eq (v : Nat) (hv : v < U64) (h0 : 0 < v) :
    makeLoop 64 v [] = if v < LIMIT then [v] else [v % LIMIT, v / LIMIT] := by
  rw [show (64 : Nat) = 62 + 1 + 1 from rfl, makeLoop_step, if_pos h0, makeLoop_step,
    shr_BITS_COUNT]
  by_cases h : v < LIMIT
  · rw [if_pos h, if_neg (by simp only [LIMIT] at *; omega), Nat.mod_eq_of_lt h]
    rfl
  · rw [if_neg h, if_pos (by simp only [LIMIT] at *; omega)]
    have e : (v / LIMIT) >>> BITS_COUNT = 0 := by
      rw [shr_BITS_COUNT]; simp only [LIMIT, U64] at *; omega
    rw [e, show (62 : Nat) = 61 + 1 from rfl, makeLoop_step, if_neg (by omega)]
    have e2 : v / LIMIT % LIMIT = v / LIMIT := by
      simp only [LIMIT, U64] at *; omega
    rw [e2]
    rfl

theorem make_spec (a : big_integer) (hd : a.data_ = []) (hs : a.sign = 1 ∨ a.sign = -1)
    (v : Nat) (hv : v < U64) :
    wf (make a v) ∧ (make a v).sign = a.sign ∧ lval (make a v).data_ = v := by
  unfold make
  by_cases h0 : v = 0
  · rw [if_pos h0, hd, h0]
    refine ⟨⟨hs, ?_, ?_⟩, rfl, ?_⟩
    · rw [hd]; exact limbs_ok_nil
    · rw [hd]; left; simp
    · rfl
  · rw [if_neg h0, hd, makeLoop_eq v hv (Nat.pos_of_ne_zero h0)]
    by_cases h : v < LIMIT
    · rw [if_pos h]
      refine ⟨⟨hs, ?_, ?_⟩, rfl, ?_⟩
      · exact limbs_ok_cons.mpr ⟨h, limbs_ok_nil⟩
      · left; simp
      · simp [lval]
    · rw [if_neg h]
      refine ⟨⟨hs, ?_, ?_⟩, rfl, ?_⟩
      · refine limbs_ok_cons.mpr ⟨Nat.mod_lt _ LIMIT_pos, limbs_ok_cons.mpr ⟨?_, limbs_ok_nil⟩⟩
        simp only [LIMIT, U64] at *; omega
      · right
        simp only [List.getLastD_cons, List.getLastD_nil]
        simp only [LIMIT] at *; omega
      · simp only [lval]
        simp only [LIMIT] at *; omega

theorem carryLoop_spec (ds : List Nat) (c : Nat) (hd : limbs_ok ds) (hc : c ≤ 1)
    (h : lval ds + c < LIMIT ^ ds.length) :
    lval (carryLoop ds c) = lval ds + c ∧ limbs_ok (carryLoop ds c) := by
  induction ds generalizing c with
  | nil =>
    simp only [List.length_nil, pow_zero, lval] at h
    simp only [carryLoop, lval]
    exact ⟨by omega, limbs_ok_nil⟩
  | cons x ds ih =>
    rw [limbs_ok_cons] at hd
    have hx := hd.1
    simp only [List.length_cons, pow_succ, lval_cons] at h
    simp only [carryLoop, lval_cons, shr_BITS_COUNT]
    generalize LIMIT ^ ds.length = P at h ih
    have hres : (x + c) % U64 = x + c := by
      simp only [LIMIT, U64] at *; omega
    rw [hres]
    have hcm : (x + c) / LIMIT % LIMIT = (x + c) / LIMIT := by
      simp only [LIMIT] at *; omega
    rw [hcm]
    have ih' := ih ((x + c) / LIMIT) hd.2 (by simp only [LIMIT] at *; omega)
      (by simp only [LIMIT] at *; omega)
    refine ⟨?_, limbs_ok_cons.mpr ⟨Nat.mod_lt _ LIMIT_pos, ih'.2⟩⟩
    rw [ih'.1]
    simp only [LIMIT] at *; omega

/-- The overload `operator+=(uint64_t)` adds `rhs` to the magnitude and keeps
the stored sign. -/
theorem op_add_assign_u64_spec {a : big_integer} (hs : a.sign = 1 ∨ a.sign = -1)
    (hl : limbs_ok a.data_) {rhs : Nat} (hr : rhs < LIMIT) :
    wf (op_add_assign_u64 a rhs) ∧ (op_add_assign_u64 a rhs).sign = a.sign ∧
      lval (op_add_assign_u64 a rhs).data_ = lval a.data_ + rhs := by
  unfold op_add_assign_u64
  cases hd : a.data_ with
  | nil =>
    simp only [List.nil_append, carryLoop, shr_BITS_COUNT]
    have e : (rhs + 0) % U64 % LIMIT = rhs := by simp only [LIMIT, U64] at *; omega
    rw [e]
    refine ⟨deleteLeadingZeroes_wf hs (limbs_ok_cons.mpr ⟨hr, limbs_ok_nil⟩), rfl, ?_⟩
    rw [deleteLeadingZeroes_lval]
    simp [lval]
  | cons x xs =>
    rw [hd] at hl
    rw [limbs_ok_cons] at hl
    have hx := hl.1
    simp only [List.cons_append, shr_BITS_COUNT]
    have hfv : (rhs + x) % U64 = rhs + x := by simp only [LIMIT, U64] at *; omega
    rw [hfv]
    have hcm : (rhs + x) / LIMIT % LIMIT = (rhs + x) / LIMIT := by
      simp only [LIMIT] at *; omega
    rw [hcm]
    have hxs := lval_lt hl.2
    have hpad : lval (xs ++ [0]) = lval xs := by rw [lval_append]; simp [lval]
    have hc := carryLoop_spec (xs ++ [0]) ((rhs + x) / LIMIT)
      (limbs_ok_append.mpr ⟨hl.2, limbs_ok_cons.mpr ⟨LIMIT_pos, limbs_ok_nil⟩⟩)
      (by simp only [LIMIT] at *; omega)
      (by
        rw [hpad, List.length_append, List.length_singleton, pow_succ]
        generalize LIMIT ^ xs.length = P at *
        simp only [LIMIT] at *; omega)
    refine ⟨deleteLeadingZeroes_wf hs
      (limbs_ok_cons.mpr ⟨Nat.mod_lt _ LIMIT_pos, hc.2⟩), rfl, ?_⟩
    rw [deleteLeadingZeroes_lval]
    simp only [lval_cons]
    rw [hc.1, hpad]
    simp only [LIMIT] at *; omega

/-! ## The chunk loop of the string constructor -/

theorem stoi_foldl (l : List Char) (init : Nat) :
    l.foldl (fun acc c => acc * 10 + (c.toNat - 48)) init = init * 10 ^ l.length + stoi l := by
  induction l generalizing init with
  | nil => simp [stoi]
  | cons c t ih =>
    unfold stoi
    simp only [List.foldl_cons, List.length_cons, pow_succ]
    rw [ih, ih (0 * 10 + (c.toNat - 48))]
    unfold stoi
    ring

theorem stoi_nil : stoi [] = 0 := rfl

theorem stoi_cons (c : Char) (t : List Char) :
    stoi (c :: t) = (c.toNat - 48) * 10 ^ t.length + stoi t := by
  have := stoi_foldl t (0 * 10 + (c.toNat - 48))
  unfold stoi at this ⊢
  simp only [List.foldl_cons]
  rw [this]
  ring

theorem stoi_append (xs ys : List Char) :
    stoi (xs ++ ys) = stoi xs * 10 ^ ys.length + stoi ys := by
  induction xs with
  | nil => simp [stoi_nil]
  | cons c t ih =>
    rw [List.cons_append, stoi_cons, stoi_cons, ih, List.length_append, pow_add]
    ring

theorem digit_le_nine {c : Char} (h : isdigit c = true) : c.toNat - 48 ≤ 9 := by
  unfold isdigit at h
  rw [decide_eq_true_iff] at h
  omega

theorem stoi_lt {l : List Char} (h : ∀ c ∈ l, isdigit c = true) : stoi l < 10 ^ l.length := by
  induction l with
  | nil => simp [stoi_nil]
  | cons c t ih =>
    have h1 := digit_le_nine (h c (List.mem_cons_self _ _))
    have h2 := ih (fun x hx => h x (List.mem_cons_of_mem _ hx))
    rw [stoi_cons, List.length_cons, pow_succ]
    have : (c.toNat - 48) * 10 ^ t.length ≤ 9 * 10 ^ t.length := Nat.mul_le_mul_right _ h1
    omega

theorem pow_ten_le_STR_NUMS {n : Nat} (h : n ≤ STR_NUMS_COUNT) : 10 ^ n ≤ STR_NUMS := by
  have : 10 ^ n ≤ 10 ^ STR_NUMS_COUNT := Nat.pow_le_pow_right (by decide) h
  exact this

/-- Invariant of the chunk loop: the accumulator is scaled by ten to the
number of characters consumed and the characters' value is added. -/
theorem parseLoop_spec (fuel : Nat) (rest : List Char) (a : big_integer)
    (hf : rest.length ≤ fuel) (hd : ∀ c ∈ rest, isdigit c = true)
    (hs : a.sign = 1 ∨ a.sign = -1) (hl : limbs_ok a.data_) :
    (parseLoop fuel rest a).sign = a.sign ∧ limbs_ok (parseLoop fuel rest a).data_ ∧
      lval (parseLoop fuel rest a).data_ = lval a.data_ * 10 ^ rest.length + stoi rest := by
  induction fuel generalizing rest a with
  | zero =>
    have : rest = [] := List.length_eq_zero.mp (by omega)
    subst this
    simp [parseLoop, stoi_nil]
    exact hl
  | succ f ih =>
    unfold parseLoop
    by_cases he : rest.isEmpty = true
    · rw [if_pos he]
      have : rest = [] := List.isEmpty_iff.mp he
      subst this
      simp [stoi_nil]
      exact hl
    · rw [if_neg he]
      simp only []
      have hne : rest ≠ [] := fun h => he (List.isEmpty_iff.mpr h)
      have hlen : 0 < rest.length := List.length_pos.mpr hne
      have hmin : min rest.length STR_NUMS_COUNT % LIMIT = min rest.length STR_NUMS_COUNT := by
        apply Nat.mod_eq_of_lt
        have : min rest.length STR_NUMS_COUNT ≤ STR_NUMS_COUNT := Nat.min_le_right _ _
        simp only [STR_NUMS_COUNT, LIMIT] at *; omega
      rw [hmin]
      generalize hn : min rest.length STR_NUMS_COUNT = n
      have hn9 : n ≤ STR_NUMS_COUNT := by rw [← hn]; exact Nat.min_le_right _ _
      have htake : rest.take n = rest.take STR_NUMS_COUNT := by
        rw [← hn]
        by_cases hc : rest.length ≤ STR_NUMS_COUNT
        · rw [Nat.min_eq_left hc, List.take_of_length_le (le_refl _), List.take_of_length_le hc]
        · rw [Nat.min_eq_right (by omega)]
      have hpow : (if n = STR_NUMS_COUNT then STR_NUMS else 10 ^ n) = 10 ^ n := by
        split
        · rename_i h; rw [h]; rfl
        · rfl
      rw [hpow, htake]
      have hp9 := pow_ten_le_STR_NUMS hn9
      have hplt : 10 ^ n < LIMIT := by simp only [STR_NUMS, LIMIT] at *; omega
      have hchunk : ∀ c ∈ rest.take STR_NUMS_COUNT, isdigit c = true :=
        fun c hc => hd c (List.mem_of_mem_take hc)
      have hclen : (rest.take STR_NUMS_COUNT).length = n := by
        rw [List.length_take, ← hn, Nat.min_comm]
      have hst := stoi_lt hchunk
      rw [hclen] at hst
      have hstm : stoi (rest.take STR_NUMS_COUNT) % LIMIT = stoi (rest.take STR_NUMS_COUNT) :=
        Nat.mod_eq_of_lt (by omega)
      rw [hstm]
      obtain ⟨m1, m2, m3⟩ := @mulByConst_spec a hs hl _ hplt
      obtain ⟨a1, a2, a3⟩ := @op_add_assign_u64_spec _ m1.1 m1.2.1
        (stoi (rest.take STR_NUMS_COUNT)) (by omega)
      obtain ⟨r1, r2, r3⟩ := ih (rest.drop STR_NUMS_COUNT) _
        (by rw [List.length_drop]; simp only [STR_NUMS_COUNT]; omega)
        (fun c hc => hd c (List.mem_of_mem_drop hc)) a1.1 a1.2.1
      refine ⟨by rw [r1, a2, m2], r2, ?_⟩
      rw [r3, a3, m3]
      have hsplit : stoi rest = stoi (rest.take STR_NUMS_COUNT)
          * 10 ^ (rest.drop STR_NUMS_COUNT).length + stoi (rest.drop STR_NUMS_COUNT) := by
        conv_lhs => rw [← List.take_append_drop STR_NUMS_COUNT rest]
        rw [stoi_append]
      have hlensplit : rest.length = n + (rest.drop STR_NUMS_COUNT).length := by
        rw [List.length_drop, ← hn]
        simp only [STR_NUMS_COUNT]; omega
      rw [hsplit]
      conv_rhs => rw [hlensplit, pow_add]
      ring

theorem isdigit_ne_minus {c : Char} (h : isdigit c = true) : c ≠ '-' := by
  intro hc
  subst hc
  exact absurd h (by decide)

/-- The string constructor on an unsigned digit string. -/
theorem of_string_digits (s : String) (ds : List Char) (hne : ds ≠ [])
    (hd : ∀ c ∈ ds, isdigit c = true) (hs : s.data = ds) :
    ∃ a, of_string s = .ok a ∧ wf a ∧ a.sign = 1 ∧ lval a.data_ = stoi ds := by
  obtain ⟨x, t, rfl⟩ := List.exists_cons_of_ne_nil hne
  have hx := hd x (List.mem_cons_self _ _)
  have hxm := isdigit_ne_minus hx
  have ht : t.all isdigit = true :=
    List.all_eq_true.mpr (fun c hc => hd c (List.mem_cons_of_mem _ hc))
  unfold of_string
  simp only [hs, List.headD_cons, List.tail_cons, List.isEmpty_cons, List.length_cons, ht, hx,
    Bool.false_or, Bool.not_true, Bool.or_false, Bool.and_false, beq_iff_eq, hxm,
    if_false, Bool.false_eq_true, bne_iff_ne, ne_eq, not_false_eq_true, decide_True,
    Bool.and_self, Bool.not_eq_true', decide_eq_false_iff_not]
  simp only [Bool.and_eq_true, beq_iff_eq, hxm, and_false, if_false, Bool.false_eq_true,
    decide_False, Bool.decide_eq_true, Bool.or_self]
  obtain ⟨r1, r2, r3⟩ := parseLoop_spec (x :: t).length (x :: t) mk0 (le_refl _) hd
    (Or.inl rfl) limbs_ok_nil
  simp only [List.length_cons] at r1 r2 r3
  refine ⟨_, rfl, deleteLeadingZeroes_wf (by rw [r1]; exact Or.inl rfl) r2, ?_, ?_⟩
  · rw [deleteLeadingZeroes_sign, r1]; rfl
  · rw [deleteLeadingZeroes_lval, r3]; simp [mk0, lval]

/-- The string constructor on a digit string with a leading `'-'`. -/
theorem of_string_minus_digits (s : String) (ds : List Char) (hne : ds ≠ [])
    (hd : ∀ c ∈ ds, isdigit c = true) (hs : s.data = '-' :: ds) :
    ∃ a, of_string s = .ok a ∧ wf a ∧ a.sign = -1 ∧ lval a.data_ = stoi ds := by
  have ht : ds.all isdigit = true := List.all_eq_true.mpr hd
  have hlen : 0 < ds.length := List.length_pos.mpr hne
  unfold of_string
  simp only [hs, List.headD_cons, List.tail_cons, List.isEmpty_cons, List.length_cons, ht,
    Bool.false_or, Bool.not_true, Bool.or_false, beq_self_eq_true, Bool.and_true,
    bne_self_eq_false, Bool.false_and, if_true, List.drop_succ_cons, List.drop_zero]
  have hl1 : (ds.length + 1 == 1) = false := by
    rw [beq_eq_false_iff_ne]; omega
  simp only [hl1, Bool.false_eq_true, if_false]
  obtain ⟨r1, r2, r3⟩ := parseLoop_spec ds.length ds { mk0 with sign := -1 } (le_refl _) hd
    (Or.inr rfl) limbs_ok_nil
  refine ⟨_, rfl, deleteLeadingZeroes_wf (by rw [r1]; exact Or.inr rfl) r2, ?_, ?_⟩
  · rw [deleteLeadingZeroes_sign, r1]
  · rw [deleteLeadingZeroes_lval, r3]; simp [mk0, lval]

theorem stoi_eq_ofDigits (ds : List Char) :
    stoi ds = Nat.ofDigits 10 ((ds.map (fun c => c.toNat - 48)).reverse) := by
  induction ds using List.reverseRecOn with
  | nil => simp [stoi_nil]
  | append_singleton t c ih =>
    rw [stoi_append, ih]
    simp [stoi_cons, stoi_nil, Nat.ofDigits_cons]
    ring

/-! ## Claim on the value of a parsed string -/

/-- C11: for a non-empty string `ds` of ASCII digits, `big_integer(ds)` has the
value of `ds` read in base 10 and `big_integer("-" ++ ds)` has the negated
value, for any length and any leading zeros. -/
theorem C11_string_constructor_value (s : String) (ds : List Char) (hne : ds ≠ [])
    (hd : ∀ c ∈ ds, '0' ≤ c ∧ c ≤ '9') :
    (s.data = ds → ∃ a, of_string s = .ok a ∧
      val a = ((Nat.ofDigits 10 ((ds.map (fun c => c.toNat - 48)).reverse) : Nat) : Int)) ∧
    (s.data = '-' :: ds → ∃ a, of_string s = .ok a ∧
      val a = -((Nat.ofDigits 10 ((ds.map (fun c => c.toNat - 48)).reverse) : Nat) : Int)) := by
  have hd' : ∀ c ∈ ds, isdigit c = true := fun c hc => (isdigit_iff c).mpr (hd c hc)
  constructor
  · intro hs
    obtain ⟨a, h1, _, h3, h4⟩ := of_string_digits s ds hne hd' hs
    refine ⟨a, h1, ?_⟩
    rw [val_pos_sign h3, h4, stoi_eq_ofDigits]
  · intro hs
    obtain ⟨a, h1, _, h3, h4⟩ := of_string_minus_digits s ds hne hd' hs
    refine ⟨a, h1, ?_⟩
    rw [val_neg_sign h3, h4, stoi_eq_ofDigits]

/-- C11 at `"-00012345678901234567890"`: three chunks, leading zeros, a sign. -/
theorem C11_string_constructor_value_witness :
    of_string "-00012345678901234567890" = .ok ⟨[3944680146, 2874452364], -1⟩ ∧
    val ⟨[3944680146, 2874452364], -1⟩ = -12345678901234567890 ∧
    ∃ a, of_string "-00012345678901234567890" = .ok a ∧
      val a = -((Nat.ofDigits 10
        (("00012345678901234567890".data.map (fun c => c.toNat - 48)).reverse) : Nat) : Int) :=
  ⟨rfl, by decide,
    (C11_string_constructor_value "-00012345678901234567890" "00012345678901234567890".data
      (by decide) (by decide)).2 rfl⟩

/-! ## Decimal digits and the loop of to_string -/

theorem digitChar_spec (m : Nat) (h : m < 10) :
    isdigit (Nat.digitChar m) = true ∧ (Nat.digitChar m).toNat - 48 = m ∧
      (Nat.digitChar m = '0' → m = 0) := by
  interval_cases m <;> decide

/-- The digits produced by `std::to_string` on an unsigned value: they read back
as the value, there is at least one, and the first is not `'0'` unless the
value is zero. -/
theorem toDigitsCore_spec (fuel n : Nat) (acc : List Char) (h : n < fuel) :
    ∃ D, Nat.toDigitsCore 10 fuel n acc = D ++ acc ∧ stoi D = n ∧
      (∀ c ∈ D, isdigit c = true) ∧ D ≠ [] ∧ (0 < n → D.head? ≠ some '0') ∧
      (∀ k, 0 < k → n < 10 ^ k → D.length ≤ k) := by
  induction fuel generalizing n acc with
  | zero => omega
  | succ f ih =>
    obtain ⟨d1, d2, d3⟩ := digitChar_spec (n % 10) (Nat.mod_lt _ (by decide))
    unfold Nat.toDigitsCore
    simp only []
    by_cases hn : n / 10 = 0
    · rw [if_pos hn]
      refine ⟨[Nat.digitChar (n % 10)], rfl, ?_, ?_, List.cons_ne_nil _ _, ?_, ?_⟩
      · rw [stoi_cons, stoi_nil, d2]; simp; omega
      · intro c hc
        rw [List.mem_singleton] at hc
        rw [hc]; exact d1
      · intro hpos hh
        simp only [List.head?_cons, Option.some.injEq] at hh
        have := d3 hh
        omega
      · intro k hk _
        simpa using hk
    · rw [if_neg hn]
      obtain ⟨D, e1, e2, e3, e4, e5, e6⟩ := ih (n / 10) (Nat.digitChar (n % 10) :: acc) (by omega)
      refine ⟨D ++ [Nat.digitChar (n % 10)], ?_, ?_, ?_, ?_, ?_, ?_⟩
      · rw [e1]; simp
      · rw [stoi_append, e2, stoi_cons, stoi_nil, d2]; simp; omega
      · intro c hc
        rcases List.mem_append.mp hc with hc | hc
        · exact e3 c hc
        · rw [List.mem_singleton] at hc
          rw [hc]; exact d1
      · simp
      · intro _
        rw [List.head?_append_of_ne_nil _ e4]
        exact e5 (Nat.pos_of_ne_zero hn)
      · intro k hk hlt
        have hk2 : 2 ≤ k := by
          by_contra hc
          have : k = 1 := by omega
          subst this
          simp at hlt
          omega
        have := e6 (k - 1) (by omega) (by
          have e : 10 ^ k = 10 ^ (k - 1) * 10 := by
            rw [← pow_succ]; congr 1; omega
          rw [e] at hlt
          omega)
        rw [List.length_append, List.length_singleton]
        omega

theorem toDigits_spec (n : Nat) :
    stoi (Nat.toDigits 10 n) = n ∧ (∀ c ∈ Nat.toDigits 10 n, isdigit c = true) ∧
      Nat.toDigits 10 n ≠ [] ∧ (0 < n → (Nat.toDigits 10 n).head? ≠ some '0') ∧
      (∀ k, 0 < k → n < 10 ^ k → (Nat.toDigits 10 n).length ≤ k) := by
  obtain ⟨D, e1, e2, e3, e4, e5, e6⟩ := toDigitsCore_spec (n + 1) n [] (by omega)
  unfold Nat.toDigits
  rw [e1, List.append_nil]
  exact ⟨e2, e3, e4, e5, e6⟩

theorem divModByConstLoop_eq (rhs : Nat) (l : List Nat) :
    divModByConstLoop rhs l = divByConstLoop rhs l := by
  induction l with
  | nil => rfl
  | cons x ds ih => simp only [divModByConstLoop, divByConstLoop, ih, Nat.mod_mod]

theorem divModByConst_spec {a : big_integer} (hs : a.sign = 1 ∨ a.sign = -1)
    (hl : limbs_ok a.data_) {rhs : Nat} (h0 : 0 < rhs) (hr : rhs ≤ LIMIT) :
    wf (divModByConst a rhs).1 ∧ (divModByConst a rhs).1.sign = a.sign ∧
      lval (divModByConst a rhs).1.data_ = lval a.data_ / rhs ∧
      (divModByConst a rhs).2 = lval a.data_ % rhs := by
  have e1 : (divModByConst a rhs).1 = divByConst a rhs := by
    unfold divModByConst divByConst
    simp only [divModByConstLoop_eq]
  have e2 : (divModByConst a rhs).2 = (divByConstLoop rhs a.data_).2 := by
    unfold divModByConst
    simp only [divModByConstLoop_eq]
  obtain ⟨h1, h2, h3⟩ := divByConst_spec hs hl h0 hr
  obtain ⟨g1, g2, _⟩ := divByConstLoop_spec rhs a.data_ hl h0 hr
  rw [e1, e2]
  refine ⟨h1, h2, h3, ?_⟩
  have hq : lval (divByConstLoop rhs a.data_).1 = lval a.data_ / rhs := by
    have := h3
    unfold divByConst at this
    rw [deleteLeadingZeroes_lval] at this
    exact this
  rw [hq] at g1
  have := Nat.div_add_mod (lval a.data_) rhs
  rw [Nat.mul_comm] at this
  omega

theorem stoi_replicate_zero (k : Nat) : stoi (List.replicate k '0') = 0 := by
  induction k with
  | zero => rfl
  | succ k ih => rw [List.replicate_succ, stoi_cons, ih]; simp

theorem isdigit_replicate_zero (k : Nat) : ∀ c ∈ List.replicate k '0', isdigit c = true := by
  intro c hc
  rw [(List.mem_replicate.mp hc).2]
  decide

theorem op_gt_zero_iff {a : big_integer} (hw : wf a) (hs : a.sign = 1) :
    op_gt a (of_int 0) = true ↔ 0 < lval a.data_ := by
  rw [op_gt_iff hw wf_of_int_zero, val_of_int_zero, val_pos_sign hs]
  omega

/-- What the loop of `to_string` appends: the reversed decimal digits of the
magnitude, without a leading zero, and nothing for zero. -/
theorem to_stringLoop_sound (fuel : Nat) (tmp : big_integer) (res out : List Char)
    (hw : wf tmp) (hs : tmp.sign = 1) (h : to_stringLoop fuel tmp res = some out) :
    ∃ D, out = res ++ D.reverse ∧ stoi D = lval tmp.data_ ∧
      (∀ c ∈ D, isdigit c = true) ∧
      (0 < lval tmp.data_ → D ≠ [] ∧ D.head? ≠ some '0') ∧
      (lval tmp.data_ = 0 → D = []) := by
  induction fuel generalizing tmp res with
  | zero => simp [to_stringLoop] at h
  | succ f ih =>
    unfold to_stringLoop at h
    have hgt := op_gt_zero_iff hw hs
    by_cases hc : op_gt tmp (of_int 0) = true
    · rw [if_pos hc] at h
      simp only [] at h
      have hpos := hgt.mp hc
      obtain ⟨q1, q2, q3, q4⟩ := @divModByConst_spec tmp hw.1 hw.2.1 STR_NUMS (by decide)
        (by decide)
      obtain ⟨t1, t2, t3, t4, t5⟩ := toDigits_spec (divModByConst tmp STR_NUMS).2
      have hq2 : (divModByConst tmp STR_NUMS).1.sign = 1 := by rw [q2]; exact hs
      have hgt1 := op_gt_zero_iff q1 hq2
      have hlen9 : (Nat.toDigits 10 (divModByConst tmp STR_NUMS).2).length ≤ 9 := by
        apply t5 9 (by decide)
        rw [q4]
        exact Nat.mod_lt _ (by decide)
      obtain ⟨D1, e1, e2, e3, e4, e5⟩ := ih _ _ q1 hq2 h
      generalize hDn : Nat.toDigits 10 (divModByConst tmp STR_NUMS).2 = Dn at *
      have hdm := Nat.div_add_mod (lval tmp.data_) STR_NUMS
      by_cases hc1 : op_gt (divModByConst tmp STR_NUMS).1 (of_int 0) = true
      · rw [if_pos hc1] at e1
        have hpos1 := hgt1.mp hc1
        refine ⟨D1 ++ (List.replicate (STR_NUMS_COUNT - Dn.length) '0' ++ Dn), ?_, ?_, ?_, ?_, ?_⟩
        · rw [e1]
          simp only [List.reverse_append, List.reverse_replicate, List.append_assoc]
        · rw [stoi_append, stoi_append, stoi_replicate_zero, e2, t1, q3, q4]
          have hl : (List.replicate (STR_NUMS_COUNT - Dn.length) '0' ++ Dn).length = 9 := by
            rw [List.length_append, List.length_replicate]
            simp only [STR_NUMS_COUNT]; omega
          rw [hl]
          simp only [Nat.zero_mul, Nat.zero_add]
          have : (10 : Nat) ^ 9 = STR_NUMS := by decide
          rw [this]
          rw [Nat.mul_comm] at hdm
          exact hdm
        · intro c hcm
          rcases List.mem_append.mp hcm with hcm | hcm
          · exact e3 c hcm
          · rcases List.mem_append.mp hcm with hcm | hcm
            · exact isdigit_replicate_zero _ c hcm
            · exact t2 c hcm
        · intro _
          obtain ⟨n1, n2⟩ := e4 hpos1
          refine ⟨?_, ?_⟩
          · intro hh
            have := List.append_eq_nil.mp hh
            exact n1 this.1
          · rw [List.head?_append_of_ne_nil _ n1]
            exact n2
        · intro hz; omega
      · rw [if_neg hc1] at e1
        have hz1 : lval (divModByConst tmp STR_NUMS).1.data_ = 0 := by
          by_contra hh
          exact hc1 (hgt1.mpr (Nat.pos_of_ne_zero hh))
        have hD1 := e5 hz1
        subst hD1
        rw [q3] at hz1
        refine ⟨Dn, ?_, ?_, t2, ?_, ?_⟩
        · rw [e1]; simp
        · rw [t1, q4]
          simp only [STR_NUMS] at hz1 hpos ⊢
          omega
        · intro _
          refine ⟨t3, t4 ?_⟩
          rw [q4]
          simp only [STR_NUMS] at hz1 hpos ⊢
          omega
        · intro hz; omega
    · rw [if_neg hc] at h
      simp only [Option.some.injEq] at h
      have hz : lval tmp.data_ = 0 := by
        by_contra hh
        exact hc (hgt.mpr (Nat.pos_of_ne_zero hh))
      refine ⟨[], ?_, ?_, ?_, ?_, ?_⟩
      · rw [← h]; simp
      · rw [hz]; rfl
      · intro c hcm; simp at hcm
      · intro hp; omega
      · intro _; rfl

theorem to_stringLoop_total (fuel : Nat) (tmp : big_integer) (res : List Char)
    (hw : wf tmp) (hs : tmp.sign = 1) (hf : lval tmp.data_ < fuel) :
    ∃ out, to_stringLoop fuel tmp res = some out := by
  induction fuel generalizing tmp res with
  | zero => omega
  | succ f ih =>
    unfold to_stringLoop
    by_cases hc : op_gt tmp (of_int 0) = true
    · rw [if_pos hc]
      simp only []
      have hpos := (op_gt_zero_iff hw hs).mp hc
      obtain ⟨q1, q2, q3, _⟩ := @divModByConst_spec tmp hw.1 hw.2.1 STR_NUMS (by decide)
        (by decide)
      apply ih _ _ q1 (by rw [q2]; exact hs)
      rw [q3]
      have : lval tmp.data_ / STR_NUMS < lval tmp.data_ :=
        Nat.div_lt_self hpos (by decide)
      omega
    · rw [if_neg hc]
      exact ⟨_, rfl⟩

/-! ## Round trips between strings and values -/

theorem to_string_zero (fuel : Nat) {a : big_integer} (hz : isZero a = true) :
    to_string fuel a = some "0" := by
  unfold to_string
  rw [if_pos hz]

/-- The output of `to_string` on a non-zero value: an optional `'-'` and the
decimal digits of the magnitude without a leading zero. -/
theorem to_string_spec {fuel : Nat} {a : big_integer} {t : String} (hw : wf a)
    (hz : isZero a = false) (h : to_string fuel a = some t) :
    ∃ D, t.data = (if a.sign = -1 then '-' :: D else D) ∧ stoi D = lval a.data_ ∧
      (∀ c ∈ D, isdigit c = true) ∧ D ≠ [] ∧ D.head? ≠ some '0' := by
  unfold to_string at h
  rw [if_neg (by rw [hz]; simp)] at h
  split at h
  · exact Option.noConfusion h
  · rename_i res hres
    have hw1 : wf { a with sign := 1 } := wf_with_sign hw (Or.inl rfl)
    obtain ⟨D, e1, e2, e3, e4, _⟩ := to_stringLoop_sound fuel _ [] res hw1 rfl hres
    simp only [Option.some.injEq] at h
    have hpos := lval_pos_of_not_isZero hw.2.2 hz
    obtain ⟨n1, n2⟩ := e4 hpos
    refine ⟨D, ?_, e2, e3, n1, n2⟩
    rw [← h, e1]
    split <;> simp

theorem to_string_total {fuel : Nat} {a : big_integer} (hw : wf a)
    (hf : lval a.data_ < fuel) : ∃ t, to_string fuel a = some t := by
  unfold to_string
  split
  · exact ⟨_, rfl⟩
  · have hw1 : wf { a with sign := 1 } := wf_with_sign hw (Or.inl rfl)
    obtain ⟨out, ho⟩ := to_stringLoop_total fuel { a with sign := 1 } [] hw1 rfl hf
    rw [ho]
    exact ⟨_, rfl⟩

theorem char_eq_of_toNat_eq {c d : Char} (h : c.toNat = d.toNat) : c = d := by
  rw [← Char.ofNat_toNat c, ← Char.ofNat_toNat d, h]

theorem digit_pos_of_ne_zero {c : Char} (h : isdigit c = true) (hc : c ≠ '0') :
    1 ≤ c.toNat - 48 := by
  unfold isdigit at h
  rw [decide_eq_true_iff] at h
  by_contra hh
  apply hc
  apply char_eq_of_toNat_eq
  have : '0'.toNat = 48 := by decide
  omega

theorem stoi_ge_of_head_ne_zero {D : List Char} (h : ∀ c ∈ D, isdigit c = true)
    (hne : D ≠ []) (hz : D.head? ≠ some '0') : 10 ^ (D.length - 1) ≤ stoi D := by
  obtain ⟨c, t, rfl⟩ := List.exists_cons_of_ne_nil hne
  have hc : c ≠ '0' := by
    intro hh; apply hz; rw [hh]; rfl
  have h1 := digit_pos_of_ne_zero (h c (List.mem_cons_self _ _)) hc
  rw [stoi_cons]
  simp only [List.length_cons, Nat.add_sub_cancel]
  calc 10 ^ t.length = 1 * 10 ^ t.length := (Nat.one_mul _).symm
    _ ≤ (c.toNat - 48) * 10 ^ t.length := Nat.mul_le_mul_right _ h1
    _ ≤ _ := Nat.le_add_right _ _

theorem stoi_inj_of_length_eq {D1 D2 : List Char} (h1 : ∀ c ∈ D1, isdigit c = true)
    (h2 : ∀ c ∈ D2, isdigit c = true) (hlen : D1.length = D2.length)
    (hv : stoi D1 = stoi D2) : D1 = D2 := by
  induction D1 generalizing D2 with
  | nil =>
    cases D2 with
    | nil => rfl
    | cons c t => simp at hlen
  | cons c1 t1 ih =>
    cases D2 with
    | nil => simp at hlen
    | cons c2 t2 =>
      simp only [List.length_cons, Nat.add_right_cancel_iff] at hlen
      have g1 := h1 c1 (List.mem_cons_self _ _)
      have g2 := h2 c2 (List.mem_cons_self _ _)
      have s1 := stoi_lt (fun c hc => h1 c (List.mem_cons_of_mem _ hc))
      have s2 := stoi_lt (fun c hc => h2 c (List.mem_cons_of_mem _ hc))
      rw [stoi_cons, stoi_cons, ← hlen] at hv
      rw [← hlen] at s2
      generalize 10 ^ t1.length = P at *
      have hd : c1.toNat - 48 = c2.toNat - 48 := by
        rcases Nat.lt_trichotomy (c1.toNat - 48) (c2.toNat - 48) with hlt | heq | hgt
        · have : (c1.toNat - 48 + 1) * P ≤ (c2.toNat - 48) * P := Nat.mul_le_mul_right _ hlt
          rw [Nat.add_mul] at this
          omega
        · exact heq
        · have : (c2.toNat - 48 + 1) * P ≤ (c1.toNat - 48) * P := Nat.mul_le_mul_right _ hgt
          rw [Nat.add_mul] at this
          omega
      have hc : c1 = c2 := by
        apply char_eq_of_toNat_eq
        unfold isdigit at g1 g2
        rw [decide_eq_true_iff] at g1 g2
        omega
      rw [hd] at hv
      have ht := ih (fun c hc => h1 c (List.mem_cons_of_mem _ hc))
        (fun c hc => h2 c (List.mem_cons_of_mem _ hc)) hlen (by omega)
      rw [hc, ht]

/-- Decimal digit strings without a leading zero are determined by their
value. -/
theorem digits_unique {D1 D2 : List Char} (h1 : ∀ c ∈ D1, isdigit c = true)
    (h2 : ∀ c ∈ D2, isdigit c = true) (n1 : D1 ≠ []) (n2 : D2 ≠ [])
    (z1 : D1.head? ≠ some '0') (z2 : D2.head? ≠ some '0') (hv : stoi D1 = stoi D2) :
    D1 = D2 := by
  apply stoi_inj_of_length_eq h1 h2 _ hv
  have a1 := stoi_ge_of_head_ne_zero h1 n1 z1
  have a2 := stoi_ge_of_head_ne_zero h2 n2 z2
  have b1 := stoi_lt h1
  have b2 := stoi_lt h2
  have l1 : 0 < D1.length := List.length_pos.mpr n1
  have l2 : 0 < D2.length := List.length_pos.mpr n2
  rcases Nat.lt_trichotomy D1.length D2.length with h | h | h
  · have : 10 ^ D1.length ≤ 10 ^ (D2.length - 1) := Nat.pow_le_pow_right (by decide) (by omega)
    omega
  · exact h
  · have : 10 ^ D2.length ≤ 10 ^ (D1.length - 1) := Nat.pow_le_pow_right (by decide) (by omega)
    omega

/-- C12: for canonical `a`, `to_string(a)` returns (with more than `|a|` units
of fuel), and the string constructor applied to whatever it returns succeeds
with a value that compares equal to `a`. -/
theorem C12_parse_after_format (a : big_integer) (ha : canonical a) :
    (∀ fuel, lval a.data_ < fuel → ∃ t, to_string fuel a = some t) ∧
    (∀ fuel t, to_string fuel a = some t →
      ∃ b, of_string t = .ok b ∧ op_eq b a = true) := by
  refine ⟨fun fuel hf => to_string_total ha.1 hf, ?_⟩
  intro fuel t ht
  by_cases hz : isZero a = true
  · rw [to_string_zero fuel hz] at ht
    simp only [Option.some.injEq] at ht
    subst ht
    refine ⟨⟨[0], 1⟩, rfl, ?_⟩
    unfold op_eq
    rw [hz]
    rfl
  · simp only [Bool.not_eq_true] at hz
    obtain ⟨D, e1, e2, e3, e4, _⟩ := to_string_spec ha.1 hz ht
    by_cases hs : a.sign = -1
    · rw [if_pos hs] at e1
      obtain ⟨b, b1, b2, b3, b4⟩ := of_string_minus_digits t D e4 e3 e1
      refine ⟨b, b1, ?_⟩
      rw [op_eq_iff b2 ha.1, val_neg_sign b3, val_neg_sign hs, b4, e2]
    · rw [if_neg hs] at e1
      have hs1 : a.sign = 1 := by
        rcases ha.1.1 with h | h
        · exact h
        · exact absurd h hs
      obtain ⟨b, b1, b2, b3, b4⟩ := of_string_digits t D e4 e3 e1
      refine ⟨b, b1, ?_⟩
      rw [op_eq_iff b2 ha.1, val_pos_sign b3, val_pos_sign hs1, b4, e2]

/-- C12 at `a = -(2^64 + 5)`: the printed string parses back to `a`. -/
theorem C12_parse_after_format_witness :
    canonical ⟨[5, 0, 1], -1⟩ ∧
    to_string 10 ⟨[5, 0, 1], -1⟩ = some "-18446744073709551621" ∧
    ∃ b, of_string "-18446744073709551621" = .ok b ∧ op_eq b ⟨[5, 0, 1], -1⟩ = true := by
  have h : to_string 10 ⟨[5, 0, 1], -1⟩ = some "-18446744073709551621" := rfl
  exact ⟨by decide, h,
    (C12_parse_after_format ⟨[5, 0, 1], -1⟩ (by decide)).2 10 "-18446744073709551621" h⟩

/-- C13: for a canonical decimal string `s` (either `"0"`, or an optional `'-'`
and digits whose first is not `'0'`), the string constructor succeeds and
`to_string` of its result returns (with enough fuel) exactly `s`. -/
theorem C13_format_after_parse (s : String)
    (hs : s.data = ['0'] ∨ ∃ ds : List Char, ds ≠ [] ∧ (∀ c ∈ ds, '0' ≤ c ∧ c ≤ '9') ∧
      ds.head? ≠ some '0' ∧ (s.data = ds ∨ s.data = '-' :: ds)) :
    ∃ a, of_string s = .ok a ∧
      (∀ fuel, lval a.data_ < fuel → to_string fuel a = some s) ∧
      (∀ fuel t, to_string fuel a = some t → t = s) := by
  have key : ∃ a, of_string s = .ok a ∧ wf a ∧
      (∀ fuel t, to_string fuel a = some t → t = s) := by
    rcases hs with h0 | ⟨ds, hne, hd, hh, hs | hs⟩
    · obtain ⟨a, a1, a2, a3, a4⟩ := of_string_digits s ['0'] (by simp) (by decide) h0
      refine ⟨a, a1, a2, ?_⟩
      intro fuel t ht
      have hz : isZero a = true := isZero_of_lval_eq_zero a2.2.2 (by rw [a4]; rfl)
      rw [to_string_zero fuel hz] at ht
      simp only [Option.some.injEq] at ht
      rw [← ht]
      exact String.ext h0.symm
    · have hd' : ∀ c ∈ ds, isdigit c = true := fun c hc => (isdigit_iff c).mpr (hd c hc)
      obtain ⟨a, a1, a2, a3, a4⟩ := of_string_digits s ds hne hd' hs
      refine ⟨a, a1, a2, ?_⟩
      intro fuel t ht
      have hpos : 0 < lval a.data_ := by
        rw [a4]
        exact lt_of_lt_of_le (Nat.pow_pos (by decide)) (stoi_ge_of_head_ne_zero hd' hne hh)
      obtain ⟨D, e1, e2, e3, e4, e5⟩ := to_string_spec a2 (isZero_false_of_lval_pos hpos) ht
      rw [if_neg (by rw [a3]; decide)] at e1
      have := digits_unique e3 hd' e4 hne e5 hh (by rw [e2, a4])
      apply String.ext
      rw [e1, hs, this]
    · have hd' : ∀ c ∈ ds, isdigit c = true := fun c hc => (isdigit_iff c).mpr (hd c hc)
      obtain ⟨a, a1, a2, a3, a4⟩ := of_string_minus_digits s ds hne hd' hs
      refine ⟨a, a1, a2, ?_⟩
      intro fuel t ht
      have hpos : 0 < lval a.data_ := by
        rw [a4]
        exact lt_of_lt_of_le (Nat.pow_pos (by decide)) (stoi_ge_of_head_ne_zero hd' hne hh)
      obtain ⟨D, e1, e2, e3, e4, e5⟩ := to_string_spec a2 (isZero_false_of_lval_pos hpos) ht
      rw [if_pos a3] at e1
      have := digits_unique e3 hd' e4 hne e5 hh (by rw [e2, a4])
      apply String.ext
      rw [e1, hs, this]
  obtain ⟨a, a1, a2, a3⟩ := key
  refine ⟨a, a1, ?_, a3⟩
  intro fuel hf
  obtain ⟨t, ht⟩ := to_string_total a2 hf
  rw [ht, a3 fuel t ht]

/-- C13 at `"-1000000000000000000000000005"`: the zero groups are padded. -/
theorem C13_format_after_parse_witness :
    of_string "-1000000000000000000000000005" = .ok ⟨[3892314117, 2681241660, 54210108], -1⟩ ∧
    to_string 10 ⟨[3892314117, 2681241660, 54210108], -1⟩
      = some "-1000000000000000000000000005" ∧
    ∃ a, of_string "-1000000000000000000000000005" = .ok a ∧
      (∀ fuel, lval a.data_ < fuel → to_string fuel a = some "-1000000000000000000000000005") ∧
      (∀ fuel t, to_string fuel a = some t → t = "-1000000000000000000000000005") :=
  ⟨rfl, rfl, C13_format_after_parse "-1000000000000000000000000005"
    (Or.inr ⟨"1000000000000000000000000005".data, by decide, by decide, by decide,
      Or.inr rfl⟩)⟩

/-! ## Trimmed results -/

theorem deleteLeadingZeroes_trimmed (a : big_integer) : trimmed (deleteLeadingZeroes a).data_ :=
  popLoop_trimmed _ _ (Nat.le_succ _)

theorem trimmed_nil : trimmed ([] : List Nat) := Or.inl (Nat.zero_le 1)

theorem subtract_trimmed (a b : big_integer) : trimmed (subtract a b).data_ :=
  deleteLeadingZeroes_trimmed _

theorem op_add_assign_trimmed (a b : big_integer) : trimmed (op_add_assign a b).data_ := by
  unfold op_add_assign
  split
  · exact deleteLeadingZeroes_trimmed _
  · exact subtract_trimmed a b

theorem op_sub_assign_trimmed (a b : big_integer) : trimmed (op_sub_assign a b).data_ := by
  unfold op_sub_assign
  split
  · exact subtract_trimmed a b
  · exact op_add_assign_trimmed _ b

theorem op_mul_assign_trimmed (a b : big_integer) : trimmed (op_mul_assign a b).data_ :=
  deleteLeadingZeroes_trimmed _

theorem op_add_assign_u64_trimmed (a : big_integer) (rhs : Nat) :
    trimmed (op_add_assign_u64 a rhs).data_ := by
  unfold op_add_assign_u64
  cases a.data_ with
  | nil => exact deleteLeadingZeroes_trimmed _
  | cons x xs => exact deleteLeadingZeroes_trimmed _

theorem mulByConst_trimmed (a : big_integer) (rhs : Nat) : trimmed (mulByConst a rhs).data_ :=
  deleteLeadingZeroes_trimmed _

theorem op_shl_assign_trimmed (a : big_integer) (n : Nat) :
    trimmed (op_shl_assign a n).data_ :=
  mulByConst_trimmed _ _

theorem op_assign_trimmed {self other : big_integer} (h1 : trimmed self.data_)
    (h2 : trimmed other.data_) : trimmed (op_assign self other).data_ := by
  unfold op_assign
  split
  · exact h1
  · exact h2

theorem op_shr_assign_trimmed (a : big_integer) (n : Nat) :
    trimmed (op_shr_assign a n).data_ := by
  unfold op_shr_assign
  simp only []
  split
  · rename_i h
    apply op_assign_trimmed _ trimmed_nil
    simp only []
    rw [List.isEmpty_iff.mp h]
    exact trimmed_nil
  · split
    · exact op_add_assign_u64_trimmed _ _
    · exact deleteLeadingZeroes_trimmed _

theorem back_invert_trimmed (a : big_integer) : trimmed (back_invert a).data_ :=
  deleteLeadingZeroes_trimmed _

theorem bitwiseOp_trimmed (a b : big_integer) (op : Nat → Nat → Nat) :
    trimmed (bitwiseOp a b op).data_ :=
  deleteLeadingZeroes_trimmed _

theorem op_and_assign_trimmed (a b : big_integer) : trimmed (op_and_assign a b).data_ := by
  unfold op_and_assign
  simp only []
  split
  · exact back_invert_trimmed _
  · split
    · exact bitwiseOp_trimmed a b _
    · exact bitwiseOp_trimmed a b _

theorem op_or_assign_trimmed (a b : big_integer) : trimmed (op_or_assign a b).data_ := by
  unfold op_or_assign
  simp only []
  split
  · exact back_invert_trimmed _
  · exact bitwiseOp_trimmed a b _

theorem op_xor_assign_trimmed (a b : big_integer) : trimmed (op_xor_assign a b).data_ := by
  unfold op_xor_assign
  simp only []
  split
  · exact back_invert_trimmed _
  · split
    · exact bitwiseOp_trimmed a b _
    · exact bitwiseOp_trimmed a b _

theorem divide_trimmed {fuel : Nat} {a b q r : big_integer} (ha : trimmed a.data_)
    (h : divide fuel a b = some (.ok (q, r))) : trimmed q.data_ ∧ trimmed r.data_ := by
  unfold divide at h
  split at h
  · simp only [Option.some.injEq, Except.ok.injEq, Prod.mk.injEq] at h
    rw [← h.1, ← h.2]
    exact ⟨trimmed_nil, ha⟩
  · split at h
    · simp at h
    · split at h
      · exact Option.noConfusion h
      · simp only [] at h
        split at h
        · simp only [Option.some.injEq, Except.ok.injEq, Prod.mk.injEq] at h
          rw [← h.1, ← h.2]
          exact ⟨trimmed_nil, ha⟩
        · split at h
          · exact Option.noConfusion h
          · simp only [Option.some.injEq, Except.ok.injEq, Prod.mk.injEq] at h
            rw [← h.1, ← h.2]
            exact ⟨deleteLeadingZeroes_trimmed _,
              op_assign_trimmed ha (deleteLeadingZeroes_trimmed _)⟩

theorem op_div_assign_trimmed {fuel : Nat} {a b r : big_integer} (ha : trimmed a.data_)
    (h : op_div_assign fuel a b = some (.ok r)) : trimmed r.data_ := by
  obtain ⟨q0, r0, hd, he⟩ := @op_div_ok fuel a b r h
  obtain ⟨t1, t2⟩ := divide_trimmed ha hd
  rw [he]
  exact op_assign_trimmed t2 t1

theorem op_mod_assign_trimmed {fuel : Nat} {a b r : big_integer} (ha : trimmed a.data_)
    (h : op_mod_assign fuel a b = some (.ok r)) : trimmed r.data_ := by
  obtain ⟨q0, hd⟩ := @op_mod_ok fuel a b r h
  exact (divide_trimmed ha hd).2

theorem of_long_long_wf (x : Int) : wf (of_long_long x) := by
  unfold of_long_long
  refine (make_spec _ rfl ?_ _ ?_).1
  · show (if x < 0 then (-1 : Int) else 1) = 1 ∨ (if x < 0 then (-1 : Int) else 1) = -1
    split <;> simp
  · split
    · split
      · exact Nat.mod_lt _ (by decide)
      · exact Nat.mod_lt _ (by decide)
    · exact Nat.mod_lt _ (by decide)

theorem of_unsigned_long_long_wf (u : Nat) : wf (of_unsigned_long_long u) :=
  (make_spec _ rfl (Or.inl rfl) _ (Nat.mod_lt _ (by decide))).1

theorem of_string_trimmed {s : String} {r : big_integer} (h : of_string s = .ok r) :
    trimmed r.data_ := by
  unfold of_string at h
  simp only [] at h
  split at h
  · exact Except.noConfusion h
  · simp only [Except.ok.injEq] at h
    rw [← h]
    exact deleteLeadingZeroes_trimmed _

/-- C16: when the operands have no most-significant zero limb (apart from the
empty sequence and the single zero limb), neither has the result of any
constructor or of `+=`, `-=`, `*=`, `/=`, `%=`, `&=`, `|=`, `^=`, `<<=`, `>>=`,
`++`, `--`. -/
theorem C16_canonical_magnitude (a b : big_integer) (ha : trimmed a.data_)
    (_hb : trimmed b.data_) (n : Nat) (x : Int) (u : Nat) (s : String) :
    trimmed mk0.data_ ∧
    trimmed (of_long_long x).data_ ∧
    trimmed (of_unsigned_long_long u).data_ ∧
    (∀ r, of_string s = .ok r → trimmed r.data_) ∧
    trimmed (op_add_assign a b).data_ ∧
    trimmed (op_sub_assign a b).data_ ∧
    trimmed (op_mul_assign a b).data_ ∧
    (∀ fuel r, op_div_assign fuel a b = some (.ok r) → trimmed r.data_) ∧
    (∀ fuel r, op_mod_assign fuel a b = some (.ok r) → trimmed r.data_) ∧
    trimmed (op_and_assign a b).data_ ∧
    trimmed (op_or_assign a b).data_ ∧
    trimmed (op_xor_assign a b).data_ ∧
    trimmed (op_shl_assign a n).data_ ∧
    trimmed (op_shr_assign a n).data_ ∧
    trimmed (op_pre_inc a).data_ ∧
    trimmed (op_post_inc a).2.data_ ∧
    trimmed (op_pre_dec a).data_ ∧
    trimmed (op_post_dec a).2.data_ :=
  ⟨trimmed_nil, (of_long_long_wf x).2.2, (of_unsigned_long_long_wf u).2.2,
    fun _ h => of_string_trimmed h,
    op_add_assign_trimmed a b, op_sub_assign_trimmed a b, op_mul_assign_trimmed a b,
    fun _ _ h => op_div_assign_trimmed ha h, fun _ _ h => op_mod_assign_trimmed ha h,
    op_and_assign_trimmed a b, op_or_assign_trimmed a b, op_xor_assign_trimmed a b,
    op_shl_assign_trimmed a n, op_shr_assign_trimmed a n,
    op_add_assign_u64_trimmed a 1, op_add_assign_u64_trimmed a 1,
    op_sub_assign_trimmed a _, op_sub_assign_trimmed a _⟩

/-- C16 at `a = -(2^64 - 2^32)`, `b = 2^32 - 1`: the results of `*=` and of
`>>=` by 40 bits are trimmed. -/
theorem C16_canonical_magnitude_witness :
    trimmed ([0, 4294967295] : List Nat) ∧ trimmed ([4294967295] : List Nat) ∧
    op_mul_assign ⟨[0, 4294967295], -1⟩ ⟨[4294967295], 1⟩
      = ⟨[0, 1, 4294967294], -1⟩ ∧
    op_shr_assign ⟨[0, 4294967295], -1⟩ 40 = ⟨[16777216], -1⟩ ∧
    trimmed (op_mul_assign ⟨[0, 4294967295], -1⟩ ⟨[4294967295], 1⟩).data_ ∧
    trimmed (op_shr_assign ⟨[0, 4294967295], -1⟩ 40).data_ :=
  ⟨by decide, by decide, rfl, rfl,
    (C16_canonical_magnitude ⟨[0, 4294967295], -1⟩ ⟨[4294967295], 1⟩ (by decide) (by decide)
      40 0 0 "").2.2.2.2.2.2.1,
    (C16_canonical_magnitude ⟨[0, 4294967295], -1⟩ ⟨[4294967295], 1⟩ (by decide) (by decide)
      40 0 0 "").2.2.2.2.2.2.2.2.2.2.2.2.2.1⟩

/-! ## The stored sign of zero -/

theorem of_long_long_sign (x : Int) : (of_long_long x).sign = if x < 0 then -1 else 1 := by
  unfold of_long_long
  exact (make_spec _ rfl (by
    show (if x < 0 then (-1 : Int) else 1) = 1 ∨ (if x < 0 then (-1 : Int) else 1) = -1
    split <;> simp) _ (by
    split
    · split
      · exact Nat.mod_lt _ (by decide)
      · exact Nat.mod_lt _ (by decide)
    · exact Nat.mod_lt _ (by decide))).2.1

theorem of_long_long_lval (x : Int) (hx : -9223372036854775808 ≤ x ∧ x ≤ 9223372036854775807) :
    lval (of_long_long x).data_ = x.natAbs := by
  unfold of_long_long
  rw [(make_spec _ rfl (by
    show (if x < 0 then (-1 : Int) else 1) = 1 ∨ (if x < 0 then (-1 : Int) else 1) = -1
    split <;> simp) _ (by
    split
    · split
      · exact Nat.mod_lt _ (by decide)
      · exact Nat.mod_lt _ (by decide)
    · exact Nat.mod_lt _ (by decide))).2.2]
  split
  · split
    · rename_i h; rw [h]; rfl
    · simp only [U64]; omega
  · simp only [U64]; omega

theorem isZero_op_eq_zero {z : big_integer} (hz : isZero z = true) :
    op_eq z (of_int 0) = true ∧ op_lt z (of_int 0) = false ∧ op_gt z (of_int 0) = false := by
  have h0 : isZero (of_int 0) = true := rfl
  refine ⟨?_, ?_, ?_⟩
  · unfold op_eq; rw [hz, h0]; rfl
  · unfold op_lt; rw [hz, h0]; rfl
  · unfold op_gt op_lt; rw [hz, h0]; rfl

/-- C15 as stated fails: `5 - 5` and `big_integer("-0")` have a zero magnitude
and the stored sign `-1`. -/
theorem C15_negative_zero_counterexample :
    canonical (of_int 5) ∧
    isZero (op_sub (of_int 5) (of_int 5)) = true ∧
    (op_sub (of_int 5) (of_int 5)).sign = -1 ∧
    of_string "-0" = .ok ⟨[0], -1⟩ ∧
    isZero ⟨[0], -1⟩ = true :=
  ⟨by decide, rfl, rfl, rfl, rfl⟩

/-- C15 amended: a zero produced by a machine-integer constructor or by `<<=`
on a canonical operand has the stored sign `+1`, and `~` never yields zero;
whatever its stored sign, a value with zero magnitude compares equal to
`big_integer(0)`, is neither below nor above it, and prints as `"0"`. -/
theorem C15_zero_sign_amended (a z : big_integer) (ha : canonical a) (hz : isZero z = true)
    (x : Int) (hx : -9223372036854775808 ≤ x ∧ x ≤ 9223372036854775807) (u n : Nat)
    (hn : n < 2147483648) :
    (isZero (of_long_long x) = true → (of_long_long x).sign = 1) ∧
    (of_unsigned_long_long u).sign = 1 ∧
    (isZero (op_shl a n) = true → (op_shl a n).sign = 1) ∧
    isZero (op_not a) = false ∧
    op_eq z (of_int 0) = true ∧ op_lt z (of_int 0) = false ∧ op_gt z (of_int 0) = false ∧
    (∀ fuel, to_string fuel z = some "0") := by
  obtain ⟨z1, z2, z3⟩ := isZero_op_eq_zero hz
  refine ⟨?_, ?_, ?_, ?_, z1, z2, z3, fun fuel => to_string_zero fuel hz⟩
  · intro h
    have hl := lval_eq_zero_of_isZero h
    rw [of_long_long_lval x hx] at hl
    rw [of_long_long_sign, if_neg (by omega)]
  · exact (make_spec _ rfl (Or.inl rfl) _ (Nat.mod_lt _ (by decide))).2.1
  · intro h
    obtain ⟨_, s2, s3⟩ := op_shl_assign_spec ha.1.1 ha.1.2.1 n
      (by simp only [BITS_COUNT, LIMIT]; omega)
    have hl := lval_eq_zero_of_isZero h
    unfold op_shl at hl ⊢
    rw [s3] at hl
    rw [s2]
    apply ha.2
    apply isZero_of_lval_eq_zero ha.1.2.2
    have hp : 0 < 2 ^ n := Nat.pow_pos (by decide)
    rcases Nat.eq_zero_or_pos (lval a.data_) with h0 | h0
    · exact h0
    · have := Nat.mul_pos h0 hp
      omega
  · have hs : (-a.sign = 1 ∨ -a.sign = -1) := by
      rcases ha.1.1 with h | h <;> simp [h]
    obtain ⟨_, _, s3⟩ := @op_add_assign_u64_spec { a with sign := -a.sign } hs ha.1.2.1 1
      (by decide)
    apply isZero_false_of_lval_pos
    unfold op_not
    rw [s3]
    omega

/-- C15 amended, at `a = 0`, `z = 5 - 5` (stored sign `-1`), `x = 0`, `n = 7`. -/
theorem C15_zero_sign_amended_witness :
    canonical (of_int 0) ∧ isZero (op_sub (of_int 5) (of_int 5)) = true ∧
    (of_long_long 0).sign = 1 ∧ (op_shl (of_int 0) 7).sign = 1 ∧
    op_eq (op_sub (of_int 5) (of_int 5)) (of_int 0) = true ∧
    to_string 0 (op_sub (of_int 5) (of_int 5)) = some "0" :=
  ⟨by decide, rfl,
    (C15_zero_sign_amended (of_int 0) (op_sub (of_int 5) (of_int 5)) (by decide) rfl 0
      (by decide) 0 7 (by decide)).1 rfl,
    (C15_zero_sign_amended (of_int 0) (op_sub (of_int 5) (of_int 5)) (by decide) rfl 0
      (by decide) 0 7 (by decide)).2.2.1 rfl,
    (C15_zero_sign_amended (of_int 0) (op_sub (of_int 5) (of_int 5)) (by decide) rfl 0
      (by decide) 0 7 (by decide)).2.2.2.2.1,
    (C15_zero_sign_amended (of_int 0) (op_sub (of_int 5) (of_int 5)) (by decide) rfl 0
      (by decide) 0 7 (by decide)).2.2.2.2.2.2.2 0⟩

/-! ## Claims on the bitwise identities -/

/-- C21 (defect in `operator~`): `~~a == a` fails at `a = 5`, `a = 0` and
`a = -3`, where `~~a` is `7`, `2` and `-5`.  The operator flips the sign and
adds one to the magnitude, so two applications add two to the magnitude of
every operand. -/
theorem C21_double_not_fails :
    canonical (of_int 5) ∧ canonical (of_int 0) ∧ canonical (of_int (-3)) ∧
    op_not (op_not (of_int 5)) = ⟨[7], 1⟩ ∧
    op_eq (op_not (op_not (of_int 5))) (of_int 5) = false ∧
    op_not (op_not (of_int 0)) = ⟨[2], 1⟩ ∧
    op_eq (op_not (op_not (of_int 0))) (of_int 0) = false ∧
    op_not (op_not (of_int (-3))) = ⟨[5], -1⟩ ∧
    op_eq (op_not (op_not (of_int (-3)))) (of_int (-3)) = false :=
  ⟨by decide, by decide, by decide, rfl, rfl, rfl, rfl, rfl, rfl⟩

/-- C22 (defect in `back_invert`): for the canonical two-limb value
`a = -(2^32 - 1) * 2^32`, both `a & a` and `a | a` return a zero magnitude, so
neither equals `a`.  The step `*this -= 1` of `back_invert` trims the limb
vector before the limbs are complemented, which loses the most significant
limb.  With one limb, `-5 & -5 == -5` and `-5 | -5 == -5` hold. -/
theorem C22_idempotence_fails :
    of_string "-18446744069414584320" = .ok ⟨[0, 4294967295], -1⟩ ∧
    canonical ⟨[0, 4294967295], -1⟩ ∧
    op_and ⟨[0, 4294967295], -1⟩ ⟨[0, 4294967295], -1⟩ = ⟨[0], -1⟩ ∧
    op_eq (op_and ⟨[0, 4294967295], -1⟩ ⟨[0, 4294967295], -1⟩) ⟨[0, 4294967295], -1⟩ = false ∧
    op_or ⟨[0, 4294967295], -1⟩ ⟨[0, 4294967295], -1⟩ = ⟨[0], -1⟩ ∧
    op_eq (op_or ⟨[0, 4294967295], -1⟩ ⟨[0, 4294967295], -1⟩) ⟨[0, 4294967295], -1⟩ = false ∧
    op_eq (op_and (of_int (-5)) (of_int (-5))) (of_int (-5)) = true ∧
    op_eq (op_or (of_int (-5)) (of_int (-5))) (of_int (-5)) = true :=
  ⟨rfl, by decide, rfl, rfl, rfl, rfl, rfl, rfl⟩

/-- C23 (defect in `bitwiseOp`): with `a = -5` and the zero `big_integer(0)`
(no limbs), `a | 0` returns `-1` and `a & 0` returns `2^32 - 5`; with the
two-limb `a = -(7 * 2^32 + 5)` and the zero `big_integer("0")` (one zero limb),
`a | 0` returns `-5` and `a & 0` returns a non-zero value.  Beyond the limbs of
`other` the loop pads with the sign of the receiver.  For `a = 5` both
identities hold. -/
theorem C23_zero_unit_fails :
    canonical (of_int (-5)) ∧ canonical (of_int 0) ∧ (of_int 0).data_ = [] ∧
    op_or (of_int (-5)) (of_int 0) = ⟨[1], -1⟩ ∧
    op_eq (op_or (of_int (-5)) (of_int 0)) (of_int (-5)) = false ∧
    op_and (of_int (-5)) (of_int 0) = ⟨[4294967291], 1⟩ ∧
    op_eq (op_and (of_int (-5)) (of_int 0)) (of_int 0) = false ∧
    of_string "-30064771077" = .ok ⟨[5, 7], -1⟩ ∧ canonical ⟨[5, 7], -1⟩ ∧
    of_string "0" = .ok ⟨[0], 1⟩ ∧ canonical ⟨[0], 1⟩ ∧
    op_or ⟨[5, 7], -1⟩ ⟨[0], 1⟩ = ⟨[5], -1⟩ ∧
    op_eq (op_or ⟨[5, 7], -1⟩ ⟨[0], 1⟩) ⟨[5, 7], -1⟩ = false ∧
    op_and ⟨[5, 7], -1⟩ ⟨[0], 1⟩ = ⟨[0, 4294967288], 1⟩ ∧
    op_eq (op_and ⟨[5, 7], -1⟩ ⟨[0], 1⟩) (of_int 0) = false ∧
    op_eq (op_or (of_int 5) (of_int 0)) (of_int 5) = true ∧
    op_eq (op_and (of_int 5) (of_int 0)) (of_int 0) = true :=
  ⟨by decide, by decide, rfl, rfl, rfl, rfl, rfl, rfl, by decide, rfl, by decide,
    rfl, rfl, rfl, rfl, rfl, rfl⟩

/-- C24 (defect in `invert` and `bitwiseOp`): for the zero `z = 5 - 5`, which
is stored with sign `-1`, `z ^ z` returns `(2^32 - 2) * 2^32`, not zero; for
the canonical `a = -((2^32 - 1) * 2^32 + 1)`, `a ^ a` returns
`(2^32 - 1) * 2^32`.  `invert` may change the number of limbs of the receiver,
after which the limbs of the two operands no longer line up.  With one limb,
`5 ^ 5 == 0` and `-5 ^ -5 == 0` hold. -/
theorem C24_xor_self_fails :
    op_sub (of_int 5) (of_int 5) = ⟨[0], -1⟩ ∧
    op_xor (op_sub (of_int 5) (of_int 5)) (op_sub (of_int 5) (of_int 5))
      = ⟨[0, 4294967294], 1⟩ ∧
    op_eq (op_xor (op_sub (of_int 5) (of_int 5)) (op_sub (of_int 5) (of_int 5)))
      (of_int 0) = false ∧
    of_string "-18446744069414584321" = .ok ⟨[1, 4294967295], -1⟩ ∧
    canonical ⟨[1, 4294967295], -1⟩ ∧
    op_xor ⟨[1, 4294967295], -1⟩ ⟨[1, 4294967295], -1⟩ = ⟨[0, 4294967295], 1⟩ ∧
    op_eq (op_xor ⟨[1, 4294967295], -1⟩ ⟨[1, 4294967295], -1⟩) (of_int 0) = false ∧
    op_eq (op_xor (of_int 5) (of_int 5)) (of_int 0) = true ∧
    op_eq (op_xor (of_int (-5)) (of_int (-5))) (of_int 0) = true :=
  ⟨rfl, rfl, rfl, rfl, by decide, rfl, rfl, rfl, rfl⟩

/-! ## Claims on the shifts and the machine-integer constructors -/

theorem canonical_sign_of_nonneg {a : big_integer} (ha : canonical a) (h0 : 0 ≤ val a) :
    a.sign = 1 := by
  obtain ⟨⟨hs, hl, ht⟩, hz⟩ := ha
  rcases hs with hs | hs
  · exact hs
  · apply hz
    apply isZero_of_lval_eq_zero ht
    unfold val at h0
    rw [hs] at h0
    omega

/-- C25: for canonical `a` and a shift count `n` in the range of `int`,
`a << n` is the scalar pass `mulByConst(2^(n % 32))` over the limbs of `a` with
`n / 32` zero limbs prepended; the result is canonical, has the value
`val a * 2^n`, and compares `==` to `a * p` for every well-formed `p` of value
`2^n`. -/
theorem C25_left_shift (a : big_integer) (ha : canonical a) (n : Nat) (hn : n < 2 ^ 31) :
    op_shl a n
      = mulByConst { a with data_ := List.replicate (n / 32) 0 ++ a.data_ } (2 ^ (n % 32)) ∧
    canonical (op_shl a n) ∧
    val (op_shl a n) = val a * 2 ^ n ∧
    ∀ p, wf p → val p = 2 ^ n → op_eq (op_shl a n) (op_mul a p) = true := by
  have hw := canonical_wf ha
  have hdiv : n / BITS_COUNT < LIMIT := by
    simp only [BITS_COUNT, LIMIT]
    omega
  obtain ⟨r1, r2, r3⟩ := op_shl_assign_spec hw.1 hw.2.1 n hdiv
  have hv : val (op_shl a n) = val a * 2 ^ n := by
    unfold op_shl val
    rw [r2, r3]
    push_cast
    ring
  refine ⟨?_, ⟨r1, ?_⟩, hv, ?_⟩
  · unfold op_shl op_shl_assign
    simp only []
    rw [one_shl_mod _ (Nat.mod_lt _ (by decide)), Nat.mod_eq_of_lt hdiv]
  · intro hz
    have h0 : lval (op_shl_assign a n).data_ = 0 := lval_eq_zero_of_isZero hz
    rw [r3] at h0
    have h1 : lval a.data_ = 0 := by
      rcases Nat.mul_eq_zero.mp h0 with h | h
      · exact h
      · exact absurd h (by positivity)
    show (op_shl_assign a n).sign = 1
    rw [r2]
    exact ha.2 (isZero_of_lval_eq_zero hw.2.2 h1)
  · intro p hp hpv
    have hm := op_mul_assign_spec hw hp
    apply (op_eq_iff r1 hm.1).mpr
    show val (op_shl a n) = val (op_mul_assign a p)
    rw [hv, hm.2, hpv]

theorem C25_left_shift_witness :
    canonical (of_int (-3)) ∧ op_shl (of_int (-3)) 95 = ⟨[0, 0, 2147483648, 1], -1⟩ ∧
    val (op_shl (of_int (-3)) 95) = val (of_int (-3)) * 2 ^ 95 :=
  ⟨by decide, rfl, (C25_left_shift (of_int (-3)) (by decide) 95 (by decide)).2.2.1⟩

/-- Right shift of a non-negative canonical value: the result is canonical and
its value is the floor of `val a / 2^n`, zero when `2^n` exceeds `val a`. -/
theorem op_shr_nonneg_spec (a : big_integer) (ha : canonical a) (h0 : 0 ≤ val a)
    (n : Nat) (hn : n < 2 ^ 31) :
    canonical (op_shr a n) ∧
    val (op_shr a n) = Int.fdiv (val a) (2 ^ n) ∧
    (val a < 2 ^ n → val (op_shr a n) = 0) := by
  have hw := canonical_wf ha
  have hs := canonical_sign_of_nonneg ha h0
  have hdiv : n / BITS_COUNT < LIMIT := by
    simp only [BITS_COUNT, LIMIT]
    omega
  obtain ⟨r1, r2, r3⟩ := op_shr_assign_pos hw hs n hdiv
  have hv : val (op_shr a n) = Int.fdiv (val a) (2 ^ n) := by
    rw [Int.fdiv_eq_ediv _ (by positivity)]
    unfold op_shr val
    rw [r2, r3, hs, one_mul, one_mul]
    push_cast
    rfl
  refine ⟨⟨r1, fun _ => r2⟩, hv, ?_⟩
  intro hlt
  rw [hv, Int.fdiv_eq_ediv _ (by positivity)]
  exact Int.ediv_eq_zero_of_lt h0 hlt

/-- C26 (defect in `divide`): for `a = 2^33 + 2` and `n = 1`, `a >> 1` returns
`2^32 + 1`, the floor of `val a / 2`, while `a / big_integer(2)` returns
`2^32`, so `a >> n == a / 2^n` is false; likewise `a >> 0` is `a` and
`a / big_integer(1)` is `2^32` for `a = 2^32 + 1`.  The shift is right: for
every canonical `a >= 0` and every shift count in the range of `int`, `a >> n`
is canonical and its value is the floor of `val a / 2^n` (zero when `n` exceeds
the bit length of `a`).  The quotient is wrong: the main loop of `divide`
estimates the last digit as `0` when the running remainder has a single
limb. -/
theorem C26_right_shift_division_differs :
    canonical (of_long_long 8589934594) ∧ canonical (of_int 2) ∧
    0 ≤ val (of_long_long 8589934594) ∧ val (of_int 2) = 2 ^ 1 ∧
    op_shr (of_long_long 8589934594) 1 = ⟨[1, 1], 1⟩ ∧
    val (op_shr (of_long_long 8589934594) 1) = Int.fdiv (val (of_long_long 8589934594)) (2 ^ 1) ∧
    op_div 40 (of_long_long 8589934594) (of_int 2) = some (.ok ⟨[0, 1], 1⟩) ∧
    op_eq (op_shr (of_long_long 8589934594) 1) ⟨[0, 1], 1⟩ = false ∧
    canonical (of_long_long 4294967297) ∧ val (of_int 1) = 2 ^ 0 ∧
    op_shr (of_long_long 4294967297) 0 = ⟨[1, 1], 1⟩ ∧
    op_div 40 (of_long_long 4294967297) (of_int 1) = some (.ok ⟨[0, 1], 1⟩) ∧
    op_eq (op_shr (of_long_long 4294967297) 0) ⟨[0, 1], 1⟩ = false ∧
    op_shr ⟨[5, 7], 1⟩ 100 = ⟨[], 1⟩ ∧
    (∀ (a : big_integer) (n : Nat), canonical a → 0 ≤ val a → n < 2 ^ 31 →
      canonical (op_shr a n) ∧ val (op_shr a n) = Int.fdiv (val a) (2 ^ n) ∧
        (val a < 2 ^ n → val (op_shr a n) = 0)) :=
  ⟨by decide, by decide, by decide, by decide, rfl, by decide, rfl, rfl,
    by decide, by decide, rfl, rfl, rfl, rfl,
    fun a n ha h0 hn => op_shr_nonneg_spec a ha h0 n hn⟩

/-- C27 (defect in `operator>>=`): `-4 >> 1` returns `-3` while the floor of
`-4 / 2` is `-2`; `-1 >> 0` returns `-2`; `-1 >> 32` returns a zero magnitude
while the floor of `-1 / 2^32` is `-1`.  The step `*this += 1` runs for every
negative receiver, also when no bit was shifted out, and a shift that drops
every limb returns before it.  `-5 >> 1` is `-3`, as floor requires. -/
theorem C27_right_shift_negative_fails :
    canonical (of_int (-4)) ∧ canonical (of_int (-1)) ∧
    op_shr (of_int (-4)) 1 = ⟨[3], -1⟩ ∧
    val (op_shr (of_int (-4)) 1) = -3 ∧ Int.fdiv (val (of_int (-4))) (2 ^ 1) = -2 ∧
    op_shr (of_int (-1)) 0 = ⟨[2], -1⟩ ∧
    val (op_shr (of_int (-1)) 0) = -2 ∧ Int.fdiv (val (of_int (-1))) (2 ^ 0) = -1 ∧
    op_shr (of_int (-1)) 32 = ⟨[], -1⟩ ∧
    val (op_shr (of_int (-1)) 32) = 0 ∧ Int.fdiv (val (of_int (-1))) (2 ^ 32) = -1 ∧
    val (op_shr (of_int (-5)) 1) = Int.fdiv (val (of_int (-5))) (2 ^ 1) :=
  ⟨by decide, by decide, rfl, by decide, by decide, rfl, by decide, by decide, rfl,
    by decide, by decide, by decide⟩

/-- C28: for every `x` in the range of `long long`, minimum included,
`big_integer(x)` is canonical, has the value `x`, and has sign `-1` exactly
when `x < 0`; for every `u` in the range of `unsigned long long`,
`big_integer(u)` is canonical with sign `+1` and has the value `u`. -/
theorem C28_machine_integer_constructors (x : Int) (u : Nat)
    (hx : -9223372036854775808 ≤ x ∧ x ≤ 9223372036854775807)
    (hu : u < 18446744073709551616) :
    val (of_long_long x) = x ∧ canonical (of_long_long x) ∧
    ((of_long_long x).sign = -1 ↔ x < 0) ∧
    val (of_unsigned_long_long u) = u ∧ canonical (of_unsigned_long_long u) ∧
    (of_unsigned_long_long u).sign = 1 := by
  have hw := of_long_long_wf x
  have hs := of_long_long_sign x
  have hl := of_long_long_lval x hx
  have hm := make_spec { data_ := [], sign := 1 } rfl (Or.inl rfl) u hu
  have hue : of_unsigned_long_long u = make { data_ := [], sign := 1 } u := by
    unfold of_unsigned_long_long
    rw [Nat.mod_eq_of_lt hu]
  rw [← hue] at hm
  refine ⟨?_, ⟨hw, ?_⟩, ?_, ?_, ⟨hm.1, fun _ => hm.2.1⟩, hm.2.1⟩
  · unfold val
    rw [hs, hl]
    split <;> omega
  · intro hz
    have h0 := lval_eq_zero_of_isZero hz
    rw [hl] at h0
    rw [hs]
    split
    · omega
    · rfl
  · rw [hs]
    split <;> simp_all
  · unfold val
    rw [hm.2.1, hm.2.2]
    simp

theorem C28_machine_integer_constructors_witness :
    of_long_long (-9223372036854775808) = ⟨[0, 2147483648], -1⟩ ∧
    of_unsigned_long_long 18446744073709551615 = ⟨[4294967295, 4294967295], 1⟩ ∧
    val (of_long_long (-9223372036854775808)) = -9223372036854775808 ∧
    canonical (of_long_long (-9223372036854775808)) :=
  ⟨rfl, rfl,
    (C28_machine_integer_constructors (-9223372036854775808) 18446744073709551615
      (by decide) (by decide)).1,
    (C28_machine_integer_constructors (-9223372036854775808) 18446744073709551615
      (by decide) (by decide)).2.1⟩

/-! ## The ghost log of divide -/

theorem correctLoopCount_erase (f : Nat) (copy_a copy_b : big_integer) (q_j n : Nat) :
    (correctLoopCount f copy_a copy_b q_j n).map (fun r => (r.1, r.2.1))
      = correctLoop f copy_a copy_b q_j := by
  induction f generalizing copy_a q_j n with
  | zero => rfl
  | succ f ih =>
    unfold correctLoopCount correctLoop
    split
    · exact ih _ _ _
    · rfl

/-- The counter returned by `correctLoopCount` is the number of decrements of
the digit: the trial digit is the stored digit plus the count, modulo
`LIMIT`. -/
theorem correctLoopCount_count (f : Nat) (copy_a copy_b : big_integer) (q_j n : Nat)
    {r : big_integer × Nat × Nat} (h : correctLoopCount f copy_a copy_b q_j n = some r) :
    n ≤ r.2.2 ∧ (r.2.1 + (r.2.2 - n)) % LIMIT = q_j % LIMIT := by
  induction f generalizing copy_a q_j n with
  | zero => simp [correctLoopCount] at h
  | succ f ih =>
    unfold correctLoopCount at h
    split at h
    · obtain ⟨h1, h2⟩ := ih _ _ _ h
      refine ⟨by omega, ?_⟩
      have e : r.2.1 + (r.2.2 - n) = (r.2.1 + (r.2.2 - (n + 1))) + 1 := by omega
      rw [e, Nat.add_mod, h2]
      simp only [LIMIT]
      omega
    · cases h
      simp

theorem divideLoopLog_erase (fuel : Nat) (normalized_b : big_integer) (j : Nat)
    (copy_a copy_b quotient : big_integer) (log : List (Nat × Nat × Nat)) :
    (divideLoopLog fuel normalized_b j copy_a copy_b quotient log).map
        (fun r => (r.1, r.2.1, r.2.2.1))
      = divideLoop fuel normalized_b j copy_a copy_b quotient := by
  induction j generalizing copy_a copy_b quotient log with
  | zero => rfl
  | succ j ih =>
    unfold divideLoopLog divideLoop
    simp only []
    rw [← correctLoopCount_erase _ _ _ _ 0]
    cases hc : correctLoopCount fuel _ _ _ 0 with
    | none => rfl
    | some r =>
      obtain ⟨ca, q1, n⟩ := r
      simp only [Option.map_some']
      exact ih _ _ _ _

/-- Dropping the log from `divideLog` gives `divide`. -/
theorem divideLog_erase (fuel : Nat) (a b : big_integer) :
    (divideLog fuel a b).map (Except.map (fun r => (r.1, r.2.1))) = divide fuel a b := by
  unfold divideLog divide
  by_cases h1 : isZero a = true
  · simp only [h1, if_true]; rfl
  · simp only [h1]
    by_cases h2 : isZero b = true
    · simp only [h2, if_true]; rfl
    · simp only [h2]
      cases hn : normalize fuel { b with sign := 1 } with
      | none => rfl
      | some p =>
        obtain ⟨nb, shift⟩ := p
        simp only []
        by_cases hl : (op_shl_assign { a with sign := 1 } shift).data_.length < nb.data_.length
        · simp only [hl, if_true]; rfl
        · simp only [hl, if_false]
          rw [← divideLoopLog_erase _ _ _ _ _ _ []]
          cases hd : divideLoopLog fuel nb _ _ _ _ [] with
          | none => rfl
          | some r =>
            obtain ⟨ca, cb, q, log⟩ := r
            rfl

/-! ## Claims on the quotient digits of divide -/

/-- C29 (defect in `divide`): for `a = 2^127 + 7 * 2^32 + 5` and `b = 2^63`
(already normalised, shift `0`), at both positions of the main loop the trial
digit is `14`, the stored quotient limb is `0`, and the correction loop runs
`14` times.  The trial digit is taken from the top two limbs of the trimmed
running remainder, whatever the position `j`; after the first subtraction the
remainder has two limbs fewer than the shifted divisor.  The log is that of
`divideLog`, which computes what `divide` computes. -/
theorem C29_correction_bound_fails :
    of_string "170141183460469231731687303745948876805" = .ok ⟨[5, 7, 0, 2147483648], 1⟩ ∧
    of_unsigned_long_long 9223372036854775808 = ⟨[0, 2147483648], 1⟩ ∧
    canonical ⟨[5, 7, 0, 2147483648], 1⟩ ∧ canonical ⟨[0, 2147483648], 1⟩ ∧
    isZero ⟨[0, 2147483648], 1⟩ = false ∧
    divideLog 40 ⟨[5, 7, 0, 2147483648], 1⟩ ⟨[0, 2147483648], 1⟩
      = some (.ok (⟨[0, 0, 1], 1⟩, ⟨[5, 7], 1⟩, [(14, 0, 14), (14, 0, 14)])) ∧
    divide 40 ⟨[5, 7, 0, 2147483648], 1⟩ ⟨[0, 2147483648], 1⟩
      = some (.ok (⟨[0, 0, 1], 1⟩, ⟨[5, 7], 1⟩)) ∧
    (∀ fuel a b,
      (divideLog fuel a b).map (Except.map (fun r => (r.1, r.2.1))) = divide fuel a b) ∧
    ¬ ((14 : Nat) ≤ 0 + 2) :=
  ⟨rfl, rfl, by decide, by decide, rfl, rfl, rfl, divideLog_erase, by decide⟩

/-- C30 (defect in `divide`): for `a = 2^32 + 1` and the one-limb divisor
`b = 1`, `divide` returns the quotient `2^32` and leaves the remainder `1`,
while `divModByConst` turns `a` into the quotient `2^32 + 1` and returns the
remainder `0`.  `divide` has no scalar path for a one-limb divisor, and its
main loop estimates the last digit as `0` when the running remainder has a
single limb. -/
theorem C30_single_limb_divisor_differs :
    canonical (of_long_long 4294967297) ∧ canonical (of_int 1) ∧
    isZero (of_int 1) = false ∧ lval (of_int 1).data_ = 1 ∧
    divide 40 (of_long_long 4294967297) (of_int 1) = some (.ok (⟨[0, 1], 1⟩, ⟨[1], 1⟩)) ∧
    divModByConst (of_long_long 4294967297) 1 = (⟨[1, 1], 1⟩, 0) ∧
    lval [0, 1] ≠ lval [1, 1] ∧ lval [1] ≠ 0 :=
  ⟨by decide, by decide, rfl, rfl, rfl, rfl, by decide, by decide⟩

/-! ## Claims on the two's-complement conversion, increment and shifted zeros -/

/-- C31 (defect in `invert` and `back_invert`): for the canonical negative
`a = -(2^32 - 1) * 2^32`, `invert` gives the limbs `[0, 1]` and `back_invert`
then returns a zero magnitude; for `a = -((2^32 - 1) * 2^32 + 1)`, `invert`
already trims the limbs to `[2^32 - 1]` and `back_invert` returns `-1`.  Both
members trim the limb vector (inside `*this += 1` and `*this -= 1`), so the
number of limbs of `a` is not kept.  With one limb, `-5` and `-(2^32 - 1)` are
restored. -/
theorem C31_invert_round_trip_fails :
    of_string "-18446744069414584320" = .ok ⟨[0, 4294967295], -1⟩ ∧
    canonical ⟨[0, 4294967295], -1⟩ ∧
    invert ⟨[0, 4294967295], -1⟩ = ⟨[0, 1], -1⟩ ∧
    back_invert (invert ⟨[0, 4294967295], -1⟩) = ⟨[0], -1⟩ ∧
    of_string "-18446744069414584321" = .ok ⟨[1, 4294967295], -1⟩ ∧
    canonical ⟨[1, 4294967295], -1⟩ ∧
    invert ⟨[1, 4294967295], -1⟩ = ⟨[4294967295], -1⟩ ∧
    back_invert (invert ⟨[1, 4294967295], -1⟩) = ⟨[1], -1⟩ ∧
    back_invert (invert (of_int (-5))) = of_int (-5) ∧
    back_invert (invert ⟨[4294967295], -1⟩) = ⟨[4294967295], -1⟩ :=
  ⟨rfl, by decide, rfl, rfl, rfl, by decide, rfl, rfl, rfl, rfl⟩

/-- C33 (defect in `operator++`): `++a` on `a = -5` leaves `-6`, while
`a + big_integer(1)` is `-4`; `a++` returns the old value and leaves `-6` as
well; `++a` on `a = -1` leaves `-2`, not zero.  `*this += 1` selects
`operator+=(uint64_t)`, which adds to the magnitude.  For `a = 5` and `a = 0`
the increment is right. -/
theorem C33_increment_negative_fails :
    canonical (of_int (-5)) ∧
    op_pre_inc (of_int (-5)) = ⟨[6], -1⟩ ∧
    op_add (of_int (-5)) (of_int 1) = ⟨[4], -1⟩ ∧
    op_eq (op_pre_inc (of_int (-5))) (op_add (of_int (-5)) (of_int 1)) = false ∧
    (op_post_inc (of_int (-5))).1 = of_int (-5) ∧
    op_eq (op_post_inc (of_int (-5))).2 (op_add (of_int (-5)) (of_int 1)) = false ∧
    op_pre_inc (of_int (-1)) = ⟨[2], -1⟩ ∧
    op_eq (op_pre_inc (of_int (-1))) (op_add (of_int (-1)) (of_int 1)) = false ∧
    op_eq (op_pre_inc (of_int 5)) (op_add (of_int 5) (of_int 1)) = true ∧
    op_eq (op_pre_inc (of_int 0)) (op_add (of_int 0) (of_int 1)) = true :=
  ⟨by decide, rfl, rfl, rfl, rfl, rfl, rfl, rfl, rfl, rfl⟩

/-- C34 (defect in `operator>>=`): `a = 5 - 5` and `b = big_integer(0)` satisfy
`a == b`, yet `a >> 1` is `-1` and `b >> 1` is zero, so `(a >> 1) == (b >> 1)`
is false; the same holds for the shift count `0`.  The zero `5 - 5` is stored
with one zero limb and sign `-1`, and `operator>>=` adds one to the magnitude
of every receiver whose stored sign is `-1`. -/
theorem C34_shift_congruence_fails :
    op_sub (of_int 5) (of_int 5) = ⟨[0], -1⟩ ∧ of_int 0 = ⟨[], 1⟩ ∧
    op_eq (op_sub (of_int 5) (of_int 5)) (of_int 0) = true ∧
    op_shr (op_sub (of_int 5) (of_int 5)) 1 = ⟨[1], -1⟩ ∧
    op_shr (of_int 0) 1 = ⟨[], 1⟩ ∧
    op_eq (op_shr (op_sub (of_int 5) (of_int 5)) 1) (op_shr (of_int 0) 1) = false ∧
    op_eq (op_shr (op_sub (of_int 5) (of_int 5)) 0) (op_shr (of_int 0) 0) = false :=
  ⟨rfl, rfl, rfl, rfl, rfl, rfl, rfl⟩

/-! ## Absence of 64-bit wraparound in the limb loops -/

theorem mul_step_bound {m r d k : Nat} (hm : m < LIMIT) (hr : r < LIMIT) (hd : d < LIMIT)
    (hk : k < LIMIT) :
    m * r < U64 ∧ d + k < U64 ∧ m * r + (d + k) < U64 ∧
      (m * r + (d + k)) >>> BITS_COUNT < LIMIT := by
  have h1 : m * r ≤ (LIMIT - 1) * (LIMIT - 1) :=
    Nat.mul_le_mul (Nat.le_sub_one_of_lt hm) (Nat.le_sub_one_of_lt hr)
  rw [shr_BITS_COUNT]
  simp only [LIMIT, U64] at *
  norm_num at h1
  omega

theorem borrow_step_bound {f s k : Nat} (hf : f < LIMIT) (hs : s < LIMIT) (hk : k ≤ 1) :
    LIMIT + f < U64 ∧ k + s < U64 ∧ k + s ≤ LIMIT + f ∧ LIMIT + f - (k + s) < U64 ∧
      ((LIMIT + f - (k + s)) >>> BITS_COUNT) ^^^ 1 ≤ 1 := by
  have hb : LIMIT + f - (k + s) < 2 * LIMIT := by
    simp only [LIMIT] at *
    omega
  rw [shr_BITS_COUNT, borrow_flip _ hb]
  refine ⟨?_, ?_, ?_, ?_, ?_⟩
  · simp only [LIMIT, U64] at *; omega
  · simp only [LIMIT, U64] at *; omega
  · simp only [LIMIT, U64] at *; omega
  · simp only [LIMIT, U64] at *; omega
  · split <;> omega

theorem mulInnerExact_eq (m i : Nat) (rs : List Nat) (j : Nat) (data : List Nat) (carry : Nat)
    (hm : m < LIMIT) (hrs : limbs_ok rs) (hd : limbs_ok data) (hc : carry < LIMIT) :
    mulInnerExact m i rs j data carry = some (mulInner m i rs j data carry) := by
  induction rs generalizing j data carry with
  | nil => rfl
  | cons r rs ih =>
    obtain ⟨hr, hrs1⟩ := limbs_ok_cons.mp hrs
    obtain ⟨b1, b2, b3, b4⟩ := mul_step_bound hm hr (getD_lt hd (i + j)) hc
    unfold mulInnerExact mulInner
    simp only []
    rw [if_pos ⟨b1, b2, b3, b4⟩, Nat.mod_eq_of_lt b1, Nat.mod_eq_of_lt b2, Nat.mod_eq_of_lt b3]
    exact ih _ _ _ hrs1 (limbs_ok_set hd _ (Nat.mod_lt _ LIMIT_pos)) b4

theorem mulOuterExact_eq (rhs : List Nat) (n i : Nat) (data : List Nat) (hr : limbs_ok rhs)
    (hd : limbs_ok data) (hlen : rhs.length + i + n ≤ data.length) :
    mulOuterExact rhs n i data = some (mulOuter rhs n i data) := by
  induction n generalizing i data with
  | zero => rfl
  | succ n ih =>
    have hm : data.getD (rhs.length + i) 0 < LIMIT := getD_lt hd _
    have hd0 : limbs_ok (data.set (rhs.length + i) 0) := limbs_ok_set hd _ LIMIT_pos
    have hl0 : i + 0 + rhs.length ≤ (data.set (rhs.length + i) 0).length := by
      rw [List.length_set]
      omega
    obtain ⟨s1, s2, s3, -, -⟩ := mulInner_spec _ i rhs 0 _ 0 hm hr hd0 LIMIT_pos hl0
    unfold mulOuterExact mulOuter
    simp only []
    rw [mulInnerExact_eq _ _ _ _ _ _ hm hr hd0 LIMIT_pos]
    simp only []
    rw [if_pos s3, Nat.mod_eq_of_lt s3]
    apply ih
    · exact limbs_ok_set s2 _ s3
    · rw [List.length_set, s1, List.length_set]
      omega

theorem mulByConstLoopExact_eq (rhs : Nat) (data : List Nat) (carry : Nat) (hr : rhs < LIMIT)
    (hd : limbs_ok data) (hc : carry < LIMIT) :
    mulByConstLoopExact rhs data carry = some (mulByConstLoop rhs data carry) := by
  induction data generalizing carry with
  | nil => rfl
  | cons x ds ih =>
    obtain ⟨hx, hds⟩ := limbs_ok_cons.mp hd
    obtain ⟨b1, -, b3, b4⟩ := mul_step_bound hx hr LIMIT_pos hc
    rw [Nat.zero_add] at b3 b4
    unfold mulByConstLoopExact mulByConstLoop
    simp only []
    rw [if_pos ⟨b1, b3, b4⟩, Nat.mod_eq_of_lt b3, ih _ hds b4]
    rfl

theorem subtractLoopExact_eq (g : Bool) (data rhs : List Nat) (carry : Nat)
    (hd : limbs_ok data) (hr : limbs_ok rhs) (hc : carry ≤ 1) :
    subtractLoopExact g data rhs carry = some (subtractLoop g data rhs carry) := by
  induction data generalizing rhs carry with
  | nil => rfl
  | cons x ds ih =>
    obtain ⟨hx, hds⟩ := limbs_ok_cons.mp hd
    have hy : rhs.headD 0 < LIMIT := headD_lt hr
    have hf : (if g = true then rhs.headD 0 else x) < LIMIT := by split <;> assumption
    have hs : (if g = true then x else rhs.headD 0) < LIMIT := by split <;> assumption
    obtain ⟨b1, b2, b3, b4, b5⟩ := borrow_step_bound hf hs hc
    have e1 : (((LIMIT + (if g = true then rhs.headD 0 else x) : Nat) : Int)
        - ((carry + (if g = true then x else rhs.headD 0) : Nat) : Int)).toNat
        = LIMIT + (if g = true then rhs.headD 0 else x)
          - (carry + (if g = true then x else rhs.headD 0)) := by
      omega
    have e2 : ((LIMIT + (if g = true then rhs.headD 0 else x)) % U64 + U64
        - (carry + (if g = true then x else rhs.headD 0)) % U64) % U64
        = LIMIT + (if g = true then rhs.headD 0 else x)
          - (carry + (if g = true then x else rhs.headD 0)) := by
      rw [Nat.mod_eq_of_lt b1, Nat.mod_eq_of_lt b2]
      simp only [LIMIT, U64] at *
      omega
    unfold subtractLoopExact subtractLoop
    simp only []
    rw [e1, e2, if_pos, ih _ _ hds (limbs_ok_tail hr) b5]
    · rfl
    · refine ⟨b1, b2, by omega, ?_, ?_⟩
      · have : ((LIMIT + (if g = true then rhs.headD 0 else x)
            - (carry + (if g = true then x else rhs.headD 0)) : Nat) : Int) < (U64 : Int) := by
          exact_mod_cast b4
        omega
      · simp only [LIMIT] at *
        omega

/-- C32: for limbs below `2^32`, no 64-bit intermediate of the three loops
wraps and every outgoing carry fits in one limb.  Step by step: with a carry
below `2^32`, `multipliyer * rhs.data_[j] + (data_[i + j] + carry)` (and
`i * rhs + carry` for a scalar below `2^32`, the case `d = 0`) is below `2^64`
and its upper half is below `2^32`; with a borrow of `0` or `1`,
`LIMIT + first - (carry + second)` is neither negative nor `2^64` or more, and
the next borrow is `0` or `1`.  Over whole runs from the initial carry `0`: the
loops of `operator*=`, `mulByConst` and `subtract` computed over unbounded
integers with these checks never fail and return the limbs of the 64-bit
loops. -/
theorem C32_no_wraparound (a rhs : big_integer) (c : Nat) (greater : Bool)
    (ha : limbs_ok a.data_) (hr : limbs_ok rhs.data_) (hc : c < LIMIT) :
    (∀ m r d k, m < LIMIT → r < LIMIT → d < LIMIT → k < LIMIT →
      m * r < U64 ∧ d + k < U64 ∧ m * r + (d + k) < U64 ∧
        (m * r + (d + k)) >>> BITS_COUNT < LIMIT) ∧
    (∀ f s k, f < LIMIT → s < LIMIT → k ≤ 1 →
      LIMIT + f < U64 ∧ k + s < U64 ∧ k + s ≤ LIMIT + f ∧ LIMIT + f - (k + s) < U64 ∧
        ((LIMIT + f - (k + s)) >>> BITS_COUNT) ^^^ 1 ≤ 1) ∧
    mulOuterExact rhs.data_
        ((List.replicate rhs.data_.length 0 ++ a.data_).length - rhs.data_.length) 0
        (List.replicate rhs.data_.length 0 ++ a.data_)
      = some (mulOuter rhs.data_
        ((List.replicate rhs.data_.length 0 ++ a.data_).length - rhs.data_.length) 0
        (List.replicate rhs.data_.length 0 ++ a.data_)) ∧
    mulByConstLoopExact c (a.data_ ++ [0]) 0 = some (mulByConstLoop c (a.data_ ++ [0]) 0) ∧
    subtractLoopExact greater
        (a.data_ ++ List.replicate
          (max a.data_.length rhs.data_.length + 1 - a.data_.length) 0) rhs.data_ 0
      = some (subtractLoop greater
        (a.data_ ++ List.replicate
          (max a.data_.length rhs.data_.length + 1 - a.data_.length) 0) rhs.data_ 0) := by
  refine ⟨fun m r d k hm hr1 hd hk => mul_step_bound hm hr1 hd hk,
    fun f s k hf hs hk => borrow_step_bound hf hs hk, ?_, ?_, ?_⟩
  · apply mulOuterExact_eq _ _ _ _ hr (limbs_ok_replicate_append ha _)
    simp only [List.length_append, List.length_replicate]
    omega
  · exact mulByConstLoopExact_eq _ _ _ hc
      (limbs_ok_append.mpr ⟨ha, limbs_ok_cons.mpr ⟨LIMIT_pos, limbs_ok_nil⟩⟩) LIMIT_pos
  · exact subtractLoopExact_eq _ _ _ _ (limbs_ok_pad ha _) hr (Nat.zero_le _)

theorem C32_no_wraparound_witness :
    limbs_ok [4294967295, 4294967295] ∧
    mulOuter [4294967295, 4294967295]
        ((List.replicate 2 0 ++ [4294967295, 4294967295]).length - 2) 0
        (List.replicate 2 0 ++ [4294967295, 4294967295])
      = [1, 0, 4294967294, 4294967295] ∧
    mulOuterExact [4294967295, 4294967295]
        ((List.replicate 2 0 ++ [4294967295, 4294967295]).length - 2) 0
        (List.replicate 2 0 ++ [4294967295, 4294967295])
      = some (mulOuter [4294967295, 4294967295]
        ((List.replicate 2 0 ++ [4294967295, 4294967295]).length - 2) 0
        (List.replicate 2 0 ++ [4294967295, 4294967295])) ∧
    mulByConstLoopExact 4294967295 ([4294967295, 4294967295] ++ [0]) 0
      = some (mulByConstLoop 4294967295 ([4294967295, 4294967295] ++ [0]) 0) :=
  ⟨by decide, by decide,
    (C32_no_wraparound ⟨[4294967295, 4294967295], 1⟩ ⟨[4294967295, 4294967295], 1⟩
      4294967295 true (by decide) (by decide) (by decide)).2.2.1,
    (C32_no_wraparound ⟨[4294967295, 4294967295], 1⟩ ⟨[4294967295, 4294967295], 1⟩
      4294967295 true (by decide) (by decide) (by decide)).2.2.2.1⟩

end big_integer

namespace substr

/-! ## Substring search: borders and the failure table -/

theorem charAt_lt {P : List Int} {i : Nat} (h : i < P.length) : charAt P i = some P[i] := by
  unfold charAt
  rw [List.getElem?_append_left h, List.getElem?_eq_getElem h]

theorem length_take_le {P : List Int} {l : Nat} (h : l ≤ P.length) : (P.take l).length = l := by
  rw [List.length_take]
  exact Nat.min_eq_left h

theorem border_zero (P w : List Int) : Border P w 0 :=
  ⟨Nat.zero_le _, by rw [List.take_zero]; exact List.nil_suffix⟩

theorem border_le_length {P w : List Int} {l : Nat} (h : Border P w l) : l ≤ w.length := by
  have := h.2.length_le
  rw [length_take_le h.1] at this
  exact this

theorem longest_nil (P : List Int) : Longest P [] 0 :=
  ⟨border_zero P [], fun _ h => border_le_length h⟩

theorem border_concat {P w : List Int} {s : Int} {l : Nat} :
    Border P (w ++ [s]) (l + 1) ↔ Border P w l ∧ P[l]? = some s := by
  constructor
  · rintro ⟨h1, t, ht⟩
    have hl : l < P.length := h1
    rw [List.take_succ, List.getElem?_eq_getElem hl] at ht
    simp only [Option.toList_some] at ht
    rw [← List.append_assoc] at ht
    obtain ⟨e1, e2⟩ := List.append_inj' ht rfl
    refine ⟨⟨Nat.le_of_lt hl, t, e1⟩, ?_⟩
    rw [List.getElem?_eq_getElem hl]
    simpa using e2
  · rintro ⟨⟨h1, t, ht⟩, h2⟩
    obtain ⟨hl, e⟩ := List.getElem?_eq_some.mp h2
    refine ⟨hl, t, ?_⟩
    rw [List.take_succ, List.getElem?_eq_getElem hl, e]
    simp only [Option.toList_some]
    rw [← List.append_assoc, ht]

theorem border_chain {P w : List Int} {l i : Nat} (hl : Border P w l) (hi : Border P w i)
    (h : l < i) : Border P ((P.take i).drop 1) l := by
  refine ⟨hl.1, ?_⟩
  have hs : P.take l <:+ P.take i := by
    apply List.suffix_of_suffix_length_le hl.2 hi.2
    rw [length_take_le hl.1, length_take_le hi.1]
    exact Nat.le_of_lt h
  obtain ⟨u, hu⟩ := hs
  have hlen : u.length + l = i := by
    have := congrArg List.length hu
    rw [List.length_append, length_take_le hl.1, length_take_le hi.1] at this
    exact this
  cases u with
  | nil =>
    simp only [List.length_nil] at hlen
    omega
  | cons a u =>
    rw [← hu]
    exact ⟨u, rfl⟩

theorem border_of_table {P w : List Int} {p i : Nat} (hp : Border P ((P.take i).drop 1) p)
    (hi : Border P w i) : Border P w p :=
  ⟨hp.1, (hp.2.trans (List.drop_suffix 1 _)).trans hi.2⟩

theorem table_entry_lt {P : List Int} {p i : Nat} (hi : 0 < i) (hil : i ≤ P.length)
    (hp : Border P ((P.take i).drop 1) p) : p < i := by
  have := border_le_length hp
  rw [List.length_drop, length_take_le hil] at this
  omega

theorem tableOk_mono {P : List Int} {pref : List (Option Nat)} {n m : Nat}
    (h : TableOk P pref n) (hm : m ≤ n) : TableOk P pref m :=
  fun k hk => h k (Nat.lt_of_lt_of_le hk hm)

/-- The loop of `findMatching` walks down the borders of the current match
and stops at the longest one that the symbol extends, or at zero. -/
theorem findMatchingLoop_spec {P : List Int} {pref : List (Option Nat)} {w : List Int} {s : Int}
    (fuel i : Nat) (hf : i < fuel) (hi : i < P.length) (hb : Border P w i)
    (hc : ∀ l, Border P w l → P[l]? = some s → l ≤ i) (ht : TableOk P pref i) :
    ∃ r, findMatchingLoop fuel i s P pref = some r ∧ r ≤ i ∧ Border P w r ∧
      (∀ l, Border P w l → P[l]? = some s → l ≤ r) ∧ (r = 0 ∨ P[r]? = some s) := by
  induction fuel generalizing i with
  | zero => omega
  | succ f ih =>
    unfold findMatchingLoop
    by_cases h0 : i > 0
    · rw [if_pos h0, charAt_lt hi]
      simp only []
      by_cases hs : s ≠ P[i]
      · rw [if_pos hs]
        obtain ⟨p, hp1, hp2⟩ := ht (i - 1) (by omega)
        have hi1 : i - 1 + 1 = i := by omega
        rw [hi1] at hp2
        rw [hp1]
        simp only []
        have hpi : p < i := table_entry_lt h0 (Nat.le_of_lt hi) hp2.1
        obtain ⟨r, r1, r2, r3, r4, r5⟩ := ih p (by omega) (by omega)
          (border_of_table hp2.1 hb)
          (fun l hl hls => by
            have h1 := hc l hl hls
            have h2 : l ≠ i := by
              rintro rfl
              rw [List.getElem?_eq_getElem hi] at hls
              exact hs (Option.some.inj hls).symm
            exact hp2.2 l (border_chain hl hb (by omega)))
          (tableOk_mono ht (Nat.le_of_lt hpi))
        exact ⟨r, r1, by omega, r3, r4, r5⟩
      · rw [if_neg hs]
        refine ⟨i, rfl, Nat.le_refl _, hb, hc, Or.inr ?_⟩
        rw [List.getElem?_eq_getElem hi]
        push_neg at hs
        rw [hs]
    · rw [if_neg h0]
      exact ⟨i, rfl, Nat.le_refl _, hb, hc, Or.inl (by omega)⟩

/-- One call of `findMatching`: from the longest match `i` of `w`, the result
is the longest match of `w` followed by `s`. -/
theorem findMatching_spec {P : List Int} {pref : List (Option Nat)} {w : List Int} (s : Int)
    (fuel i : Nat) (hm : P.length < 4294967296) (hf : i < fuel) (hi : i < P.length)
    (hl : Longest P w i) (ht : TableOk P pref i) :
    ∃ r, findMatching fuel i s P pref = some r ∧ Longest P (w ++ [s]) r := by
  obtain ⟨r, r1, r2, r3, r4, r5⟩ :=
    findMatchingLoop_spec fuel i hf hi hl.1 (fun l h _ => hl.2 l h) ht
  have hr : r < P.length := by omega
  unfold findMatching
  rw [r1]
  simp only []
  rw [charAt_lt hr]
  simp only []
  by_cases hs : s = P[r]
  · rw [if_pos hs, Nat.mod_eq_of_lt (by omega)]
    have hsr : P[r]? = some s := by rw [List.getElem?_eq_getElem hr, hs]
    refine ⟨r + 1, rfl, border_concat.mpr ⟨r3, hsr⟩, ?_⟩
    intro l' hl'
    cases l' with
    | zero => omega
    | succ l =>
      obtain ⟨b1, b2⟩ := border_concat.mp hl'
      have := r4 l b1 b2
      omega
  · rw [if_neg hs]
    have hr0 : r = 0 := by
      rcases r5 with h | h
      · exact h
      · rw [List.getElem?_eq_getElem hr] at h
        exact absurd (Option.some.inj h).symm hs
    refine ⟨r, rfl, ?_, ?_⟩
    · rw [hr0]
      exact border_zero _ _
    · intro l' hl'
      cases l' with
      | zero => omega
      | succ l =>
        obtain ⟨b1, b2⟩ := border_concat.mp hl'
        have h1 := r4 l b1 b2
        have h2 : l = 0 := by omega
        subst h2
        subst hr0
        rw [List.getElem?_eq_getElem hr] at b2
        exact absurd (Option.some.inj b2).symm hs

/-! ## Substring search: the two loops of main -/

theorem getD_set_self_opt (l : List (Option Nat)) {i : Nat} (h : i < l.length) (v : Option Nat) :
    (l.set i v).getD i none = v := by
  rw [List.getD_eq_getElem?_getD, List.getElem?_set_self h]
  rfl

theorem getD_set_other_opt (l : List (Option Nat)) {i k : Nat} (h : i ≠ k) (v : Option Nat) :
    (l.set i v).getD k none = l.getD k none := by
  rw [List.getD_eq_getElem?_getD, List.getD_eq_getElem?_getD, List.getElem?_set_ne h]

theorem drop_one_take_succ {P : List Int} {i : Nat} (h1 : 1 ≤ i) (hi : i < P.length) :
    (P.take (i + 1)).drop 1 = (P.take i).drop 1 ++ [P[i]] := by
  rw [List.take_succ, List.getElem?_eq_getElem hi]
  simp only [Option.toList_some]
  apply List.drop_append_of_le_length
  rw [length_take_le (Nat.le_of_lt hi)]
  exact h1

/-- The precalculation loop fills the entries `i .. i + n - 1` of the table
with the failure function. -/
theorem precalcLoop_spec {P : List Int} (fuel n i : Nat) (pref : List (Option Nat))
    (hm : P.length < 4294967296) (hf : P.length ≤ fuel) (h1 : 1 ≤ i)
    (hn : n = 0 ∨ i + n + 1 ≤ P.length) (hlen : pref.length = P.length)
    (ht : TableOk P pref i) :
    ∃ pref1, precalcLoop fuel P n i pref = some pref1 ∧ pref1.length = P.length ∧
      TableOk P pref1 (i + n) := by
  induction n generalizing i pref with
  | zero => exact ⟨pref, rfl, hlen, ht⟩
  | succ n ih =>
    have hi : i + 1 < P.length := by omega
    have hi0 : i < P.length := by omega
    obtain ⟨k, hk1, hk2⟩ := ht (i - 1) (by omega)
    have hi1 : i - 1 + 1 = i := by omega
    rw [hi1] at hk2
    have hki : k < i := table_entry_lt (by omega) (Nat.le_of_lt hi0) hk2.1
    obtain ⟨r, hr1, hr2⟩ := findMatching_spec P[i] fuel k hm (by omega) (by omega) hk2
      (tableOk_mono ht (Nat.le_of_lt hki))
    rw [← drop_one_take_succ h1 hi0] at hr2
    unfold precalcLoop
    rw [hk1]
    simp only []
    rw [charAt_lt hi0]
    simp only []
    rw [hr1]
    simp only []
    rw [if_pos (by omega)]
    have hlen1 : (pref.set i (some r)).length = P.length := by rw [List.length_set, hlen]
    have ht1 : TableOk P (pref.set i (some r)) (i + 1) := by
      intro k1 hk
      by_cases hki1 : k1 = i
      · subst hki1
        exact ⟨r, getD_set_self_opt _ (by omega) _, hr2⟩
      · obtain ⟨p, hp1, hp2⟩ := ht k1 (by omega)
        exact ⟨p, by rw [getD_set_other_opt _ (Ne.symm hki1), hp1], hp2⟩
    obtain ⟨pref1, q1, q2, q3⟩ := ih (i + 1) _ (by omega) (by omega) hlen1 ht1
    refine ⟨pref1, q1, q2, ?_⟩
    have e : i + (n + 1) = i + 1 + n := by omega
    rw [e]
    exact q3

theorem not_occurs_concat {P w : List Int} {c : Int} (h1 : ¬ P <:+: w) (h2 : ¬ P <:+ w ++ [c]) :
    ¬ P <:+: w ++ [c] := by
  rintro ⟨a, b, e⟩
  rcases List.eq_nil_or_concat b with hb | ⟨b1, x, hb⟩
  · subst hb
    rw [List.append_nil] at e
    exact h2 ⟨a, e⟩
  · subst hb
    rw [List.concat_eq_append, ← List.append_assoc] at e
    obtain ⟨e1, -⟩ := List.append_inj' e rfl
    exact h1 ⟨a, b1, e1⟩

/-- The search loop answers whether `P` occurs in what was read (`w`, without
occurrence so far) followed by what is still to be read. -/
theorem kmpLoop_spec {P : List Int} {pref : List (Option Nat)} (fuel : Nat)
    (hm : P.length < 4294967296) (hf : P.length ≤ fuel)
    (ht : TableOk P pref (P.length - 1)) (rest w : List Int) (j : Nat)
    (hl : Longest P w j) (hj : j < P.length) (hno : ¬ P <:+: w) :
    ∃ b, kmpLoop fuel P pref P.length rest j = some b ∧ (b = true ↔ P <:+: w ++ rest) := by
  induction rest generalizing w j with
  | nil =>
    refine ⟨false, rfl, ?_⟩
    rw [List.append_nil]
    simp [hno]
  | cons c rest ih =>
    obtain ⟨r, hr1, hr2⟩ := findMatching_spec c fuel j hm (by omega) hj hl
      (tableOk_mono ht (by omega))
    unfold kmpLoop
    rw [hr1]
    simp only []
    have hw : w ++ c :: rest = (w ++ [c]) ++ rest := by simp
    by_cases hge : r ≥ P.length
    · rw [if_pos hge]
      refine ⟨true, rfl, ?_⟩
      have hr : r = P.length := Nat.le_antisymm hr2.1.1 hge
      have hs : P <:+ w ++ [c] := by
        have := hr2.1.2
        rw [hr, List.take_length] at this
        exact this
      obtain ⟨t, e⟩ := hs
      simp only [true_iff]
      exact ⟨t, rest, by rw [e, hw]⟩
    · rw [if_neg hge]
      rw [hw]
      apply ih (w ++ [c]) r hr2 (by omega)
      apply not_occurs_concat hno
      intro hs
      have : Border P (w ++ [c]) P.length := ⟨Nat.le_refl _, by rw [List.take_length]; exact hs⟩
      have := hr2.2 _ this
      omega

/-- The run of `main` on the chars `P` and the values `c` read from the file:
with fuel for the longest walk of `findMatching`, the answer is `Yes` exactly
when `P` occurs in `c`. -/
theorem search_spec (fuel : Nat) (char_signed : Bool) (pattern content : List Nat)
    (hp : pattern ≠ []) (hm : pattern.length < 4294967296) (hf : pattern.length ≤ fuel) :
    ∃ b, main fuel char_signed pattern content = some b ∧
      (b = true ↔
        pattern.map (char_to_int char_signed) <:+: content.map Int.ofNat) := by
  have hpos : 0 < pattern.length := List.length_pos.mpr hp
  generalize hP : pattern.map (char_to_int char_signed) = P
  have hPl : P.length = pattern.length := by rw [← hP, List.length_map]
  have hlen0 : ((List.replicate P.length (none : Option Nat)).set 0 (some 0)).length
      = P.length := by
    rw [List.length_set, List.length_replicate]
  have ht0 : TableOk P ((List.replicate P.length (none : Option Nat)).set 0 (some 0)) 1 := by
    intro k hk
    have hk0 : k = 0 := by omega
    subst hk0
    refine ⟨0, getD_set_self_opt _ (by rw [List.length_replicate]; omega) _, ?_⟩
    have e : (P.take (0 + 1)).drop 1 = [] := by
      apply List.eq_nil_of_length_eq_zero
      rw [List.length_drop, List.length_take]
      omega
    rw [e]
    exact longest_nil P
  obtain ⟨pref1, q1, q2, q3⟩ := precalcLoop_spec (P := P) fuel (P.length - 1 - 1) 1 _
    (by omega) (by omega) (Nat.le_refl _) (by omega) hlen0 ht0
  have hno : ¬ P <:+: [] := by
    rw [ List.infix_nil]
    intro h
    rw [h] at hPl
    simp only [List.length_nil] at hPl
    omega
  obtain ⟨b, hb1, hb2⟩ := kmpLoop_spec (P := P) fuel (by omega) (by omega)
    (tableOk_mono q3 (by omega)) (content.map Int.ofNat) [] 0 (longest_nil P)
    (by omega) hno
  rw [List.nil_append] at hb2
  refine ⟨b, ?_, hb2⟩
  unfold main
  simp only []
  rw [hP, List.length_replicate, if_pos (by omega), q1]
  exact hb1

/-! ## Substring search: bytes of the pattern against bytes of the file -/

theorem char_to_int_of_low {char_signed : Bool} {b : Nat} (h : char_signed = true → b < 128) :
    char_to_int char_signed b = Int.ofNat b := by
  unfold char_to_int
  rw [if_neg]
  · rfl
  · rintro ⟨h1, h2⟩
    have := h h1
    omega

theorem char_to_int_neg {b : Nat} (h1 : 128 ≤ b) (h2 : b < 256) : char_to_int true b < 0 := by
  unfold char_to_int
  rw [if_pos ⟨rfl, h1⟩]
  omega

/-- The chars of the pattern occur among the values read from the file exactly
when the bytes of the pattern occur among the bytes of the file and, if `char`
is signed, no byte of the pattern is `0x80` or more. -/
theorem text_occurs_iff (char_signed : Bool) (pattern content : List Nat)
    (hb : ∀ b ∈ pattern, b < 256) :
    pattern.map (char_to_int char_signed) <:+: content.map Int.ofNat ↔
      pattern <:+: content ∧ (char_signed = true → ∀ b ∈ pattern, b < 128) := by
  constructor
  · intro h
    have hlow : char_signed = true → ∀ b ∈ pattern, b < 128 := by
      intro hs b hbp
      by_contra hge
      have hmem : char_to_int char_signed b ∈ content.map Int.ofNat :=
        h.subset (List.mem_map_of_mem _ hbp)
      obtain ⟨c, -, hc⟩ := List.mem_map.mp hmem
      have hneg := char_to_int_neg (Nat.le_of_not_lt hge) (hb b hbp)
      rw [hs] at hc
      have hc0 : (0 : Int) ≤ Int.ofNat c := Int.ofNat_nonneg c
      omega
    refine ⟨?_, hlow⟩
    have hmap : pattern.map (char_to_int char_signed) = pattern.map Int.ofNat :=
      List.map_congr_left (fun b hbp => char_to_int_of_low (fun hs => hlow hs b hbp))
    rw [hmap] at h
    obtain ⟨s, t, e⟩ := h
    obtain ⟨l1, l2, e1, e2, -⟩ := List.map_eq_append_iff.mp e.symm
    obtain ⟨l11, l12, e3, -, e5⟩ := List.map_eq_append_iff.mp e2
    have e6 : l12 = pattern := List.map_injective_iff.mpr Int.ofNat_injective e5
    exact ⟨l11, l2, by rw [e1, e3, e6]⟩
  · rintro ⟨h, hlow⟩
    have hmap : pattern.map (char_to_int char_signed) = pattern.map Int.ofNat :=
      List.map_congr_left (fun b hbp => char_to_int_of_low (fun hs => hlow hs b hbp))
    rw [hmap]
    exact h.map _

/-- The answer of `main`: for a non-empty pattern of bytes and enough fuel,
`main` returns, and it prints `Yes` exactly when the pattern occurs in the
file and, if `char` is signed, the pattern has no byte from `0x80` on. -/
theorem main_spec (fuel : Nat) (char_signed : Bool) (pattern content : List Nat)
    (hp : pattern ≠ []) (hb : ∀ b ∈ pattern, b < 256) (hm : pattern.length < 4294967296)
    (hf : pattern.length ≤ fuel) :
    ∃ b, main fuel char_signed pattern content = some b ∧
      (b = true ↔ pattern <:+: content ∧ (char_signed = true → ∀ x ∈ pattern, x < 128)) := by
  obtain ⟨b, h1, h2⟩ := search_spec fuel char_signed pattern content hp hm hf
  exact ⟨b, h1, h2.trans (text_occurs_iff char_signed pattern content hb)⟩

/-! ## Claim on the substring search -/

/-- C35 (defect in `findMatching`): with a signed `char`, for the pattern
`C3 A9` and a file that holds `63 61 66 C3 A9`, `main` prints `No` although the
pattern occurs in the file; with an unsigned `char` it prints `Yes`.  The
search loop hands `findMatching` the value `0..255` returned by `fgetc` and
compares it with `text[i]`, a plain `char`, which is negative for a byte from
`0x80` on when `char` is signed.  In general, for a non-empty pattern of bytes
and enough fuel, `main` returns and prints `Yes` exactly when the pattern
occurs in the file and, if `char` is signed, no byte of the pattern is `0x80`
or more. -/
theorem C35_high_bytes_never_match :
    [195, 169] <:+: [99, 97, 102, 195, 169] ∧
    main 2 true [195, 169] [99, 97, 102, 195, 169] = some false ∧
    main 2 false [195, 169] [99, 97, 102, 195, 169] = some true ∧
    main 2 true [97, 102] [99, 97, 102, 195, 169] = some true ∧
    (∀ (fuel : Nat) (char_signed : Bool) (pattern content : List Nat),
      pattern ≠ [] → (∀ b ∈ pattern, b < 256) → pattern.length < 4294967296 →
      pattern.length ≤ fuel →
      ∃ b, main fuel char_signed pattern content = some b ∧
        (b = true ↔
          pattern <:+: content ∧ (char_signed = true → ∀ x ∈ pattern, x < 128))) :=
  ⟨⟨[99, 97, 102], [], rfl⟩, rfl, rfl, rfl, main_spec⟩

end substr
